import Mathlib

/-!
# argp: a shallow embedding of the matching loop and the value scanner

The Go sources embedded here are `pkg/argp/argp.go`, `pkg/argp/custom.go`,
`pkg/types/variable/variable.go` and `pkg/errors/errors.go`.

Modelling conventions.

* A Go string is taken to hold valid UTF-8 and is the list of its runes
  (`Str`).  Every byte the parser compares against (`-`, `=`, `,`, `.`, `[`)
  is ASCII, so a byte offset that the source computes always falls on a rune
  boundary and slicing at it is slicing the rune list.
* A `reflect.Value` bound to caller-owned storage is a `Value`: the current
  contents of that storage.  A function that writes through the reference
  returns the new contents.
* A pointer to a `Variable` is its position in `vars`.
* `error` values are the sentinels of `pkg/errors` and `strconv`, wrapped
  (`%w`, seen by `errors.Is`) or flattened to text (`%v`).
* Pieces of the Go standard library that are tables or floating point
  (`unicode.ToLower` outside ASCII, `strconv.ParseFloat`) are fields of `GoLib`.
-/

namespace GoArgp

/-- A Go string of valid UTF-8: its runes. -/
abbrev Str := List Char

/-! ## Errors -/

/-- Error values: the sentinels of `pkg/errors` and `strconv`, and the two ways the
source builds an error from another. -/
inductive Error where
  | ErrUnknownOption
  | ErrUnexpectedKind
  | ErrUnexpectedInput
  | ErrShowHelp
  | ErrMissingValue
  /-- The sentinel `strconv.ErrSyntax`. -/
  | ErrSyntax
  /-- The sentinel `strconv.ErrRange`. -/
  | ErrRange
  /-- An error that wraps `e`: `fmt.Errorf("...: %w", e)`, `motmedelErrors.New(e, ...)`,
  `motmedelErrors.NewWithTrace(e, ...)`, `*strconv.NumError`. -/
  | wrap (e : Error)
  /-- An error made of text only (`fmt.Errorf` without `%w`): `errors.Is` finds no
  sentinel in it.  `msg` tells the sites apart. -/
  | text (msg : String)
  deriving DecidableEq, Repr

/-- Go's `errors.Is(err, target)` for a sentinel `target`. -/
def Error.Is : Error → Error → Bool
  | .wrap e, target => if Error.wrap e = target then true else Error.Is e target
  | e, target => decide (e = target)

/-! ## The standard library -/

/-- Parts of the Go standard library that are taken as given. -/
structure GoLib where
  /-- In Go `unicode.To(unicode.LowerCase, r)`, used for runes above `unicode.MaxASCII`. -/
  lowerCase : Char → Char
  /-- In Go `strconv.ParseFloat(s, 64)`: the bits of the float64, or the `*NumError`. -/
  parseFloat : Str → Except Error Nat
  /-- In Go `unicode.IsLetter`, used for runes above `unicode.MaxASCII`. -/
  isLetter : Char → Bool
  /-- In Go `unicode.IsNumber`, used for runes above `unicode.MaxASCII`. -/
  isNumber : Char → Bool
  /-- The conversion float64 to float32 done by `reflect.Value.SetFloat`, on bits. -/
  toFloat32 : Nat → Nat

/-- A library instance for evaluation: outside ASCII the case table is the identity and
no rune is a letter or a number; no float literal is accepted. -/
def GoLib.basic : GoLib :=
  ⟨fun c => c, fun _ => .error (.wrap .ErrSyntax), fun _ => false, fun _ => false, fun f => f⟩

/-! ## strconv and strings -/

/-- Go's `strconv.ParseBool`. -/
def strconv_ParseBool (str : Str) : Except Error Bool :=
  if str = ['1'] ∨ str = ['t'] ∨ str = ['T'] ∨ str = ['T', 'R', 'U', 'E']
      ∨ str = ['t', 'r', 'u', 'e'] ∨ str = ['T', 'r', 'u', 'e'] then .ok true
  else if str = ['0'] ∨ str = ['f'] ∨ str = ['F'] ∨ str = ['F', 'A', 'L', 'S', 'E']
      ∨ str = ['f', 'a', 'l', 's', 'e'] ∨ str = ['F', 'a', 'l', 's', 'e'] then .ok false
  else .error (.wrap .ErrSyntax)

/-- The digit loop of `strconv.ParseUint` for base 10 and bit size 64: `n` is the
value read so far.  Returns the value and the error, as the source does. -/
def parseUintLoop : List Char → Nat → Nat × Option Error
  | [], n => (n, none)
  | c :: cs, n =>
    if '0' ≤ c ∧ c ≤ '9' then
      -- cutoff = maxUint64/10 + 1
      if n ≥ (2 ^ 64 - 1) / 10 + 1 then (2 ^ 64 - 1, some (.wrap .ErrRange))
      else
        let n1 := n * 10 + (c.toNat - '0'.toNat)
        if n1 > 2 ^ 64 - 1 then (2 ^ 64 - 1, some (.wrap .ErrRange))
        else parseUintLoop cs n1
    else (0, some (.wrap .ErrSyntax))

/-- Go's `strconv.ParseUint(s, 10, 64)`. -/
def strconv_ParseUint (s : Str) : Nat × Option Error :=
  if s = [] then (0, some (.wrap .ErrSyntax)) else parseUintLoop s 0

/-- Go's `strconv.ParseInt(s, 10, 64)`. -/
def strconv_ParseInt (s : Str) : Except Error Int :=
  match s with
  | [] => .error (.wrap .ErrSyntax)
  | c :: cs =>
    let neg := decide (c = '-')
    let s1 := if c = '+' ∨ c = '-' then cs else c :: cs
    match strconv_ParseUint s1 with
    | (_, some (.wrap .ErrSyntax)) => .error (.wrap .ErrSyntax)
    | (un, _) =>
      -- cutoff = 1 << 63
      if !neg ∧ un ≥ 2 ^ 63 then .error (.wrap .ErrRange)
      else if neg ∧ un > 2 ^ 63 then .error (.wrap .ErrRange)
      else .ok (if neg then -(un : Int) else (un : Int))

/-- Go's `unicode.ToLower`. -/
def unicode_ToLower (lib : GoLib) (r : Char) : Char :=
  if r.toNat ≤ 0x7F then
    if 'A' ≤ r ∧ r ≤ 'Z' then Char.ofNat (r.toNat + ('a'.toNat - 'A'.toNat)) else r
  else lib.lowerCase r

/-- Go's `unicode.IsLetter`: on ASCII the letters are `A` to `Z` and `a` to `z`. -/
def unicode_IsLetter (lib : GoLib) (r : Char) : Bool :=
  if r.toNat ≤ 0x7F then decide (('A' ≤ r ∧ r ≤ 'Z') ∨ ('a' ≤ r ∧ r ≤ 'z'))
  else lib.isLetter r

/-- Go's `unicode.IsNumber`: on ASCII the numbers are `0` to `9`. -/
def unicode_IsNumber (lib : GoLib) (r : Char) : Bool :=
  if r.toNat ≤ 0x7F then decide ('0' ≤ r ∧ r ≤ '9')
  else lib.isNumber r

/-- Go's `strings.ToLower` on valid UTF-8. -/
def strings_ToLower (lib : GoLib) (s : Str) : Str := s.map (unicode_ToLower lib)

/-- Go's `strings.IndexByte(s, c)` for an ASCII `c`, as `none` for -1. -/
def strings_IndexByte (s : Str) (c : Char) : Option Nat :=
  match s with
  | [] => none
  | x :: xs => if x = c then some 0 else (strings_IndexByte xs c).map (· + 1)

/-- Go's `strings.IndexAny(s, ".[")`, as `none` for -1. -/
def strings_IndexAny_dotBracket (s : Str) : Option Nat :=
  match s with
  | [] => none
  | x :: xs => if x = '.' ∨ x = '[' then some 0 else (strings_IndexAny_dotBracket xs).map (· + 1)

/-! ## Kinds and values (package `reflect`) -/

/-- A `reflect.Kind` together with what the scanner looks at in the type: the bit
size of a number, the element type and length of a sequence. -/
inductive Kind where
  | String
  | Bool
  /-- The kinds `Int8`, `Int16`, `Int32`, `Int64` and `Int` (64 bits). -/
  | Int (bits : Nat)
  /-- The kinds `Uint8`, `Uint16`, `Uint32`, `Uint64` and `Uint` (64 bits). -/
  | Uint (bits : Nat)
  /-- The kinds `Float32` and `Float64`. -/
  | Float (bits : Nat)
  | Array (len : Nat) (elem : Kind)
  | Slice (elem : Kind)
  | Map (key elem : Kind)
  /-- A struct; `fieldsValid` tells whether every field has a supported base type (what
  `isValidBaseType` computes over the fields). -/
  | Struct (fieldsValid : Bool)
  /-- Every other kind (pointer, interface, chan, func, complex). -/
  | Other
  deriving DecidableEq, Repr

/-- The contents of a destination. -/
inductive Value where
  | str (s : Str)
  | bool (b : Bool)
  | int (bits : Nat) (i : Int)
  | uint (bits : Nat) (u : Nat)
  /-- A float of the given size, as the bits of the float64 it was set from. -/
  | float (bits : Nat) (f : Nat)
  | array (elem : Kind) (xs : List Value)
  | slice (elem : Kind) (xs : List Value)
  /-- A value of a kind the scanner never writes (map, struct, other). -/
  | other (k : Kind)
  /-- The custom type `Count{I}`: `ptr` tells whether `I` is a pointer, `i` is what it
  points to. -/
  | count (ptr : Bool) (i : Value)
  /-- The custom type `Append{I}`: `ptr` tells whether `I` is a pointer, `i` is what it
  points to. -/
  | append (ptr : Bool) (i : Value)

/-- Go's `v.Kind()` with the type information of `Kind`. -/
def Value.kind : Value → Kind
  | .str _ => .String
  | .bool _ => .Bool
  | .int bits _ => .Int bits
  | .uint bits _ => .Uint bits
  | .float bits _ => .Float bits
  | .array elem xs => .Array xs.length elem
  | .slice elem _ => .Slice elem
  | .other k => k
  | .count _ _ => .Struct false
  | .append _ _ => .Struct false

/-- Whether the value implements `ArgumentScanner` (the two custom types of `custom.go`). -/
def Value.isCustom : Value → Bool
  | .count _ _ => true
  | .append _ _ => true
  | _ => false

/-- Go's `reflect.New(t).Elem()` and `reflect.Zero(t)`: the zero value of a type. -/
def zero : Kind → Value
  | .String => .str []
  | .Bool => .bool false
  | .Int bits => .int bits 0
  | .Uint bits => .uint bits 0
  | .Float bits => .float bits 0
  | .Array len elem => .array elem (List.replicate len (zero elem))
  | .Slice elem => .slice elem []
  | .Map key elem => .other (.Map key elem)
  | .Struct fieldsValid => .other (.Struct fieldsValid)
  | .Other => .other .Other

/-- What `reflect.Value.SetInt` stores in a signed destination of `bits` bits: the low
`bits` bits of `x`, read in two's complement. -/
def wrapInt (bits : Nat) (x : Int) : Int :=
  (x + 2 ^ (bits - 1)) % 2 ^ bits - 2 ^ (bits - 1)

/-- What `reflect.Value.SetUint` stores in an unsigned destination of `bits` bits. -/
def wrapUint (bits : Nat) (x : Nat) : Nat := x % 2 ^ bits

/-! ## The value scanner -/

/-- What a scan returns, `(n, err)`, and the contents of the destination after it. -/
structure Scan where
  v : Value
  n : Nat
  err : Option Error

/-- The block "consume comma" of the sequence loop, entered when `j != 0`.  Returns
`arguments`, `n` and whether the loop breaks. -/
def consumeComma : List Str → Nat → List Str × Nat × Bool
  | [], n => ([], n, true)
  | [] :: rest, n => consumeComma rest (n + 1)
  | (c :: cs) :: rest, n =>
    if c ≠ ',' then ((c :: cs) :: rest, n, true)
    else if cs = [] then (rest, n + 1, false)
    else (cs :: rest, n, false)

/-- The block "consume value" of the sequence loop: the token of the element,
`arguments` and `n`; `none` is `break`. -/
def consumeValue (j : Nat) (arguments : List Str) (n : Nat) : Option (Str × List Str × Nat) :=
  match arguments with
  | [] => if j = 0 then none else some ([], [], n)
  | a :: rest =>
    match strings_IndexByte a ',' with
    | some idx => some (a.take idx, a.drop idx :: rest, n)
    | none => some (a, rest, n + 1)

/-- The `for` loop of the sequence case of `scanValue`, with the state `j`, `arguments`,
`n`, `slice`; `scanElem` scans one element into a fresh zero value.  Returns `j`, `n` and
`slice` at the `break`, or the error of the element.  The first argument bounds the
number of passes; `scanValue` passes a bound the loop does not reach, since every pass
after the first removes a comma from `arguments`. -/
def scanLoop (scanElem : List Str → Scan) (typ : String) :
    Nat → Nat → List Str → Nat → List Value → Except Error (Nat × Nat × List Value)
  | 0, j, _, n, slice => .ok (j, n, slice)
  | fuel + 1, j, arguments, n, slice =>
    let c := if j ≠ 0 then consumeComma arguments n else (arguments, n, false)
    if c.2.2 then .ok (j, c.2.1, slice)
    else
      match consumeValue j c.1 c.2.1 with
      | none => .ok (j, c.2.1, slice)
      | some (sVal, arguments1, n1) =>
        let r := scanElem [sVal]
        match r.err with
        | some _ => .error (.text (typ ++ " index"))
        | none => scanLoop scanElem typ fuel (j + 1) arguments1 n1 (slice ++ [r.v])

/-- A bound on the passes of `scanLoop` over `arguments`. -/
def loopBound (arguments : List Str) : Nat :=
  (arguments.map (fun a => a.length + 1)).sum + 2

/-- Go's `scanValue(v, arguments)` for a `v` of kind `k`. -/
def scanKind (lib : GoLib) : Kind → Value → List Str → Scan
  | k, v, [] =>
    if k = .String then ⟨.str [], 0, none⟩ else ⟨v, 0, some (.wrap .ErrMissingValue)⟩
  | .String, _, a :: _ => ⟨.str a, 1, none⟩
  | .Bool, v, a :: _ =>
    match strconv_ParseBool a with
    | .error err => ⟨v, 0, some (.wrap (.wrap err))⟩
    | .ok i => ⟨.bool i, 1, none⟩
  | .Int bits, v, a :: _ =>
    match strconv_ParseInt a with
    | .error err => ⟨v, 0, some (.wrap (.wrap err))⟩
    | .ok i => ⟨.int bits (wrapInt bits i), 1, none⟩
  | .Uint bits, v, a :: _ =>
    match strconv_ParseUint a with
    | (_, some err) => ⟨v, 0, some (.wrap (.wrap err))⟩
    | (i, none) => ⟨.uint bits (wrapUint bits i), 1, none⟩
  | .Float bits, v, a :: _ =>
    match lib.parseFloat a with
    | .error err => ⟨v, 0, some (.wrap (.wrap err))⟩
    | .ok i => ⟨.float bits (if bits = 32 then lib.toFloat32 i else i), 1, none⟩
  | .Array len elem, v, a :: rest =>
    if a = [] then ⟨v, 1, none⟩
    else
      match scanLoop (scanKind lib elem (zero elem)) "array" (loopBound (a :: rest)) 0
          (a :: rest) 0 [] with
      | .error err => ⟨v, 0, some err⟩
      | .ok (j, n, slice) =>
        if j ≠ len then ⟨v, 0, some (.text "expected values for array")⟩
        else ⟨.array elem slice, n, none⟩
  | .Slice elem, v, a :: rest =>
    if a = [] then ⟨v, 1, none⟩
    else
      match scanLoop (scanKind lib elem (zero elem)) "slice" (loopBound (a :: rest)) 0
          (a :: rest) 0 (match v with | .slice _ xs => xs | _ => []) with
      | .error err => ⟨v, 0, some err⟩
      | .ok (_, n, slice) => ⟨.slice elem slice, n, none⟩
  | _, v, _ :: _ => ⟨v, 0, some (.wrap (.wrap .ErrUnexpectedKind))⟩

/-- Go's `scanValue(v, arguments)`. -/
def scanValue (lib : GoLib) (v : Value) (arguments : List Str) : Scan :=
  scanKind lib v.kind v arguments

/-- Whether a kind is one of `Int`, `Int8`, ..., `Int64`. -/
def isIntKind (k : Kind) : Bool :=
  match k with
  | .Int _ => true
  | _ => false

/-- Whether a kind is one of `Uint`, `Uint8`, ..., `Uint64`. -/
def isUintKind (k : Kind) : Bool :=
  match k with
  | .Uint _ => true
  | _ => false

/-- The test `0 < len(s) && 0 < len(s[0]) && '0' <= s[0][0] && s[0][0] <= '9'` of
`Count.Scan`. -/
def startsWithDigit (s : List Str) : Bool :=
  match s with
  | (c :: _) :: _ => decide ('0' ≤ c ∧ c ≤ '9')
  | _ => false

/-- Go's `Count.Scan`, on what `count.I` points to.  Returns the pointee after the call. -/
def Count_Scan (lib : GoLib) (ptr : Bool) (i : Value) (s : List Str) : Scan :=
  if !ptr then ⟨i, 0, some (.text "variable must be a pointer to an integer type")⟩
  else if !isIntKind i.kind ∧ !isUintKind i.kind then
    ⟨i, 0, some (.text "variable must be a pointer to an integer type")⟩
  else if startsWithDigit s then
    -- don't parse negatives or other options
    scanValue lib i s
  else
    match i with
    | .int bits x => ⟨.int bits (wrapInt bits (wrapInt 64 (x + 1))), 0, none⟩
    | .uint bits x => ⟨.uint bits (wrapUint bits (wrapUint 64 (x + 1))), 0, none⟩
    | _ => ⟨i, 0, none⟩

/-- Go's `Append.Scan`, on what `a.I` points to.  Returns the pointee after the call. -/
def Append_Scan (lib : GoLib) (ptr : Bool) (i : Value) (s : List Str) : Scan :=
  match ptr, i with
  | true, .slice elem xs =>
    let r := scanValue lib (zero (.Slice elem)) s
    match r.err, r.v with
    | none, .slice _ ys => ⟨.slice elem (xs ++ ys), r.n, none⟩
    | none, _ => ⟨i, r.n, none⟩
    | some err, _ => ⟨i, r.n, some err⟩
  | _, _ => ⟨i, 0, some (.text "variable must be a pointer to a slice")⟩

/-- Go's `scanVar(v, name, arguments)`. -/
def scanVar (lib : GoLib) (v : Value) (_name : Str) (arguments : List Str) : Scan :=
  match v with
  | .count ptr i =>
    let r := Count_Scan lib ptr i arguments
    match r.err with
    | some err => ⟨.count ptr r.v, 0, some (.wrap (.wrap err))⟩
    | none => ⟨.count ptr r.v, r.n, none⟩
  | .append ptr i =>
    let r := Append_Scan lib ptr i arguments
    match r.err with
    | some err => ⟨.append ptr r.v, 0, some (.wrap (.wrap err))⟩
    | none => ⟨.append ptr r.v, r.n, none⟩
  | _ =>
    let r := scanValue lib v arguments
    if r.err ≠ none ∧ v.kind = .Bool then ⟨.bool true, 0, none⟩
    else r

/-! ## Variables (package `variable`) -/

/-- Go's `variable.Variable`: a command option or argument. -/
structure Variable where
  Value : GoArgp.Value
  Name : Str
  /-- The rune 0 if not used. -/
  Short : Char
  /-- The value -1 if not used. -/
  Index : Int
  Rest : Bool
  /-- In Go `nil` is not used. -/
  Default : Option GoArgp.Value
  Description : Str
  IsSet : Bool

/-- Go's `(*Variable).IsArgument`. -/
def Variable.IsArgument (v : Variable) : Bool := v.Index ≠ -1 || v.Rest

/-- Go's `(*Variable).IsOption`. -/
def Variable.IsOption (v : Variable) : Bool := !v.IsArgument

/-- Go's `(*Variable).Set`: the variable after the call and the result.  The defaults
and the rest slice that the source passes have the type of the destination itself, where
`CanConvert` holds and `Convert` is the identity; for a value of another kind the
conversion is taken to fail. -/
def Variable.Set (v : Variable) (i : GoArgp.Value) : Variable × Bool :=
  if i.kind = v.Value.kind then ({ v with Value := i }, true) else (v, false)

/-- The variable at position `k` replaced by `f` of it: a write through the pointer. -/
def modifyAt (f : Variable → Variable) : Nat → List Variable → List Variable
  | _, [] => []
  | 0, v :: vs => f v :: vs
  | k + 1, v :: vs => v :: modifyAt f k vs

/-- The loop `for _, v := range argp.vars { if p(v) { return v } }; return nil`: the
first variable that satisfies `p` and its position. -/
def findVar (p : Variable → Bool) : List Variable → Option (Nat × Variable)
  | [] => none
  | v :: vs => if p v then some (0, v) else (findVar p vs).map fun r => (r.1 + 1, r.2)

/-- Go's `(*Argp).findShort`. -/
def findShort (vars : List Variable) (short : Char) : Option (Nat × Variable) :=
  findVar (fun v => v.Short ≠ Char.ofNat 0 && v.Short = short) vars

/-- Go's `(*Argp).findName`. -/
def findName (lib : GoLib) (vars : List Variable) (name : Str) : Option (Nat × Variable) :=
  if name = [] then none
  else
    let name := strings_ToLower lib name
    let name := match strings_IndexAny_dotBracket name with
      | some i => name.take i
      | none => name
    findVar (fun v => v.Name = name || (v.Name = [] && [v.Short] = name)) vars

/-- Go's `(*Argp).findIndex`. -/
def findIndex (vars : List Variable) (index : Int) : Option (Nat × Variable) :=
  findVar (fun v => v.Index = index) vars

/-- Go's `(*Argp).findRest`. -/
def findRest (vars : List Variable) : Option (Nat × Variable) :=
  findVar (fun v => v.Rest) vars

/-! ## The command parser -/

/-- Go's `Argp`, a (sub) command parser: its variables and its sub commands, the map
`cmds` as the list of its entries.  The fields that `parse` does not read (`Cmd`,
`Description`, `parent`, `name`) are left out; `help` is the storage of the variable
`help`. -/
inductive Argp where
  | mk (vars : List Variable) (cmds : List (Str × Argp))

/-- The field `vars`. -/
def Argp.vars : Argp → List Variable
  | .mk vars _ => vars

/-- The field `cmds`. -/
def Argp.cmds : Argp → List (Str × Argp)
  | .mk _ cmds => cmds

/-- The entry of the map `cmds` under `key`, with its position. -/
def lookupCmd (key : Str) : List (Str × Argp) → Option (Nat × Argp)
  | [] => none
  | (cmd, sub) :: rest =>
    if cmd = key then some (0, sub) else (lookupCmd key rest).map fun r => (r.1 + 1, r.2)

/-- The map `cmds` with the sub command at position `k` in the state `sub`. -/
def setCmd (sub : Argp) : Nat → List (Str × Argp) → List (Str × Argp)
  | _, [] => []
  | 0, (cmd, _) :: rest => (cmd, sub) :: rest
  | k + 1, e :: rest => e :: setCmd sub k rest

/-- The loop "set defaults" of `parse`: the variables after it, and whether every
`Set` succeeded (at the first failure the loop is left). -/
def setDefaults : List Variable → List Variable × Bool
  | [] => ([], true)
  | v :: vs =>
    match v.Default with
    | none => ((v :: (setDefaults vs).1), (setDefaults vs).2)
    | some d =>
      if (v.Set d).2 then (((v.Set d).1 :: (setDefaults vs).1), (setDefaults vs).2)
      else (v :: vs, false)

/-- The loop over the runes of a short option token `arg`, entered with `cs = arg[j:]`;
`tail` is `args[i+1:]`.  Returns the variables and either the error or what was added to
the cursor `i`.  The statement `v.IsSet = true` that ends the loop body in the source is
never reached (each branch before it returns, continues or breaks), so nothing sets
`IsSet` here. -/
def shortLoop (lib : GoLib) (tail : List Str) :
    List Variable → List Char → List Variable × Except Error Nat
  | vars, [] => (vars, .ok 0)
  | vars, name :: cs =>
    match findShort vars name with
    | none => (vars, .error (.wrap (.wrap .ErrUnknownOption)))
    | some (k, v) =>
      let hasEquals := decide (cs.head? = some '=')
      let s0 := if hasEquals then cs.drop 1 else cs
      let valueGlued := decide (0 < s0.length)
      let s := if valueGlued then s0 :: tail else tail
      let r := scanVar lib v.Value [name] s
      let vars1 := modifyAt (fun v => { v with Value := r.v }) k vars
      match r.err with
      | some err => (vars1, .error (.wrap (.wrap err)))
      | none =>
        if r.n = 0 then shortLoop lib tail vars1 cs -- can be of the form -abc
        else (vars1, .ok (if valueGlued then r.n - 1 else r.n))

/-- The state at the end of one pass of the body of the token loop of `parse`. -/
inductive Step where
  /-- The end of the body is reached with the cursor at `i`; the loop goes on with `i++`. -/
  | next (vars : List Variable) (rest : List Str) (i : Int)
  /-- The statement `break`. -/
  | stop (vars : List Variable) (rest : List Str)
  /-- The statement `return argp, nil, err`. -/
  | fail (vars : List Variable) (err : Error)

/-- The body of the token loop of `parse` at the cursor `i`, with `arg = args[i]`. -/
def body (lib : GoLib) (args : List Str) (vars : List Variable) (rest : List Str) (i : Nat)
    (arg : Str) : Step :=
  if arg = ['-', '-'] then .stop vars (rest ++ args.drop (i + 1))
  else if 1 < arg.length ∧ arg.head? = some '-' then
    if 1 < arg.length ∧ arg[1]? = some '-' then
      let idx := strings_IndexByte arg '='
      let name := match idx with
        | some idx => (arg.take idx).drop 2
        | none => arg.drop 2
      let split := match idx with
        | some idx => decide (idx + 1 < arg.length)
        | none => false
      let s := match idx with
        | some idx => if idx + 1 < arg.length then arg.drop (idx + 1) :: args.drop (i + 1)
            else args.drop (i + 1)
        | none => args.drop (i + 1)
      match findName lib vars name with
      | none => .fail vars (.wrap (.wrap .ErrUnknownOption))
      | some (k, v) =>
        let r := scanVar lib v.Value name s
        match r.err with
        | some err => .fail (modifyAt (fun v => { v with Value := r.v }) k vars) (.wrap (.wrap err))
        | none =>
          .next (modifyAt (fun v => { v with Value := r.v, IsSet := true }) k vars) rest
            (if split then (i : Int) + r.n - 1 else (i : Int) + r.n)
    else
      match shortLoop lib (args.drop (i + 1)) vars (arg.drop 1) with
      | (vars1, .error err) => .fail vars1 err
      | (vars1, .ok n) => .next vars1 rest ((i : Int) + n)
  else if 0 < arg.length then .next vars (rest ++ [arg]) i
  else .next vars rest i

/-- The token loop `for i := 0; i < len(args); i++` of `parse`, from the cursor `i`.  The
first argument bounds the number of passes: `none` says that the loop has not ended
within them.  Otherwise the variables and either the error returned or `rest`. -/
def walk (lib : GoLib) (args : List Str) :
    Nat → List Variable → List Str → Nat → Option (List Variable × Except Error (List Str))
  | fuel, vars, rest, i =>
    match args[i]? with
    | none => some (vars, .ok rest)
    | some arg =>
      match fuel with
      | 0 => none
      | fuel + 1 =>
        match body lib args vars rest i arg with
        | .next vars1 rest1 i1 => walk lib args fuel vars1 rest1 (i1 + 1).toNat
        | .stop vars1 rest1 => some (vars1, .ok rest1)
        | .fail vars1 err => some (vars1, .error err)

/-- The loop "indexed arguments" of `parse` over `rest`, from `index`: the variables
and either the error or the final `index`. -/
def indexed (lib : GoLib) : List Variable → List Str → Nat → List Variable × Except Error Nat
  | vars, [], index => (vars, .ok index)
  | vars, arg :: rest, index =>
    match findIndex vars index with
    | none => (vars, .ok index)
    | some (k, v) =>
      let r := scanVar lib v.Value [] [arg]
      match r.err with
      | some _ => (modifyAt (fun v => { v with Value := r.v }) k vars, .error (.text "argument"))
      | none =>
        indexed lib (modifyAt (fun v => { v with Value := r.v, IsSet := true }) k vars) rest
          (index + 1)

/-- What `parse` returns, `(node, rest, err)`, and the receiver after the call.  The
node is given by its state after the call. -/
structure ParseResult where
  self : Argp
  node : Argp
  rest : List Str
  err : Option Error

/-- The statements `v.Set(rest); v.IsSet = true` of the block "rest arguments". -/
def setRest (rest : List Str) (v : Variable) : Variable :=
  { (v.Set (.slice .String (rest.map .str))).1 with IsSet := true }

/-- The blocks "indexed arguments" and "rest arguments" of `parse`, entered with the
variables and the `rest` that the token loop leaves. -/
def assignArguments (lib : GoLib) (cmds : List (Str × Argp)) (vars : List Variable)
    (rest : List Str) : ParseResult :=
  match indexed lib vars rest 0 with
  | (vars, .error err) => ⟨.mk vars cmds, .mk vars cmds, [], some err⟩
  | (vars, .ok index) =>
    match findRest vars with
    | some (k, _) =>
      ⟨.mk (modifyAt (setRest (rest.drop index)) k vars) cmds,
        .mk (modifyAt (setRest (rest.drop index)) k vars) cmds, [], none⟩
    | none => ⟨.mk vars cmds, .mk vars cmds, rest.drop index, none⟩

/-- Go's `(*Argp).parse` after the block "sub commands". -/
def parseSelf (lib : GoLib) (fuel : Nat) (argp : Argp) (args : List Str) : Option ParseResult :=
  match setDefaults argp.vars with
  | (vars, false) =>
    some ⟨.mk vars argp.cmds, .mk vars argp.cmds, [], some (.text "default: expected type")⟩
  | (vars, true) =>
    match walk lib args fuel vars [] 0 with
    | none => none
    | some (vars, .error err) => some ⟨.mk vars argp.cmds, .mk vars argp.cmds, [], some err⟩
    | some (vars, .ok rest) => some (assignArguments lib argp.cmds vars rest)

/-- Go's `(*Argp).parse`.  The first argument bounds the passes of the token loop of
the command that parses the options; `none` says that this loop has not ended within
them. -/
def parse (lib : GoLib) (fuel : Nat) : Argp → List Str → Option ParseResult
  | argp, [] => parseSelf lib fuel argp []
  | argp, a :: t =>
    match lookupCmd (strings_ToLower lib a) argp.cmds with
    | some (k, sub) =>
      (parse lib fuel sub t).map fun r => { r with self := .mk argp.vars (setCmd r.self k argp.cmds) }
    | none => parseSelf lib fuel argp (a :: t)

/-! ## Registration -/

/-- The loop of `isValidName` from a rune on; `first` tells whether the rune is at
offset 0. -/
def isValidNameFrom (lib : GoLib) : Bool → Str → Bool
  | _, [] => true
  | first, r :: rs =>
    if !unicode_IsLetter lib r && !unicode_IsNumber lib r && r ≠ '_' && (r ≠ '-' || first)
    then false
    else isValidNameFrom lib false rs

/-- Go's `isValidName`: true if the short or long option name is valid. -/
def isValidName (lib : GoLib) (s : Str) : Bool := isValidNameFrom lib true s

/-- Go's `isValidBaseType`. -/
def isValidBaseType : Kind → Bool
  | .String => true
  | .Bool => true
  | .Int _ => true
  | .Uint _ => true
  | .Float _ => true
  | .Array _ elem => isValidBaseType elem
  | .Slice elem => isValidBaseType elem
  | .Map key elem => isValidBaseType key && isValidBaseType elem
  | .Struct fieldsValid => fieldsValid
  | .Other => false

/-- Go's `isValidType` on the type of a destination. -/
def isValidType (v : Value) : Bool := v.isCustom || isValidBaseType v.kind

/-- Go's `(*Argp).AddOpt(dst, short, name, description)`; `none` is a panic.  The
destination is given by `v`, the custom value or what the pointer `dst` points to, and
by `isPtr`, whether `dst` is a pointer. -/
def AddOpt (lib : GoLib) (argp : Argp) (v : Value) (isPtr : Bool) (short name description : Str) :
    Option Argp :=
  if !v.isCustom && !isPtr then none
  else if !isValidType v then none
  else if name = [] ∧ short = [] then none
  else
    let name := if name = [] then short else name
    if !isValidName lib name then none
    else if (findName lib argp.vars name).isSome then none
    else
      let var : Variable :=
        ⟨v, strings_ToLower lib name, Char.ofNat 0, -1, false,
          if v.isCustom then none else some v, description, false⟩
      match short with
      | [] => some (.mk (argp.vars ++ [var]) argp.cmds)
      | [r] =>
        if !isValidName lib short then none
        else if (findShort argp.vars r).isSome then none
        else some (.mk (argp.vars ++ [{ var with Short := r }]) argp.cmds)
      | _ => if !isValidName lib short then none else none

/-- The loop of `AddArg` that finds the next free index, from the candidate `index`. -/
def nextIndex : List Variable → Int → Int
  | [], index => index
  | v :: vs, index => nextIndex vs (if index ≤ v.Index then v.Index + 1 else index)

/-- Go's `(*Argp).AddArg(dst, name, description)`; `none` is a panic. -/
def AddArg (lib : GoLib) (argp : Argp) (v : Value) (isPtr : Bool) (name description : Str) :
    Option Argp :=
  if !v.isCustom && !isPtr then none
  else if !isValidType v then none
  else
    some (.mk (argp.vars ++ [⟨v, strings_ToLower lib name, Char.ofNat 0,
      nextIndex argp.vars 0, false, if v.isCustom then none else some v, description, false⟩])
      argp.cmds)

/-- Go's `(*Argp).AddRest(dst, name, description)`; `none` is a panic. -/
def AddRest (lib : GoLib) (argp : Argp) (v : Value) (isPtr : Bool) (name description : Str) :
    Option Argp :=
  if !v.isCustom && !isPtr then none
  else if (findRest argp.vars).isSome then none
  else if v.kind ≠ .Slice .String then none
  else
    some (.mk (argp.vars ++ [⟨v, strings_ToLower lib name, Char.ofNat 0, -1, true,
      if v.isCustom then none else some v, description, false⟩]) argp.cmds)

/-- Go's `New(description)`: a command with the option `-h, --help` bound to the field
`help`. -/
def New (lib : GoLib) : Option Argp :=
  AddOpt lib (.mk [] []) (.bool false) true ['h'] ['h', 'e', 'l', 'p'] ['H', 'e', 'l', 'p']

/-- The assignment `argp.cmds[key] = sub` on the entries of the map. -/
def insertCmd (key : Str) (sub : Argp) : List (Str × Argp) → List (Str × Argp)
  | [] => [(key, sub)]
  | (cmd, old) :: rest =>
    if cmd = key then (cmd, sub) :: rest else (cmd, old) :: insertCmd key sub rest

/-- Go's `(*Argp).AddCmd(cmd, name, description)`; `none` is a panic.  `sub` is the
command that `NewCmd(cmd, description)` builds. -/
def AddCmd (lib : GoLib) (argp : Argp) (sub : Argp) (name : Str) : Option Argp :=
  if (lookupCmd name argp.cmds).isSome then none
  else if name.length = 0 ∨ name.head? = some '-' then none
  else some (.mk argp.vars (insertCmd (strings_ToLower lib name) sub argp.cmds))

/-! ## Vocabulary of the properties -/

/-- The contents of the destination bound to the variable at position `k`. -/
def valueAt (vars : List Variable) (k : Nat) : Option Value := (vars[k]?).map (·.Value)

/-- The flag `IsSet` of the variable at position `k`. -/
def isSetAt (vars : List Variable) (k : Nat) : Option Bool := (vars[k]?).map (·.IsSet)

/-- Every declared default has the type of its destination, as registration leaves it
(`variable.Default = v.Interface()`). -/
def defaultsTyped (vars : List Variable) : Bool :=
  vars.all fun v =>
    match v.Default with
    | none => true
    | some d => decide (d.kind = v.Value.kind)

/-- No sub command is registered under a key that begins with `-`, as `AddCmd` leaves
it (`name[0] == '-'` panics). -/
def noDashCmd (cmds : List (Str × Argp)) : Bool :=
  cmds.all fun e => decide (e.1.head? ≠ some '-')

/-- A variable bound to its declared default, when it has one. -/
def withDefault (v : Variable) : Variable :=
  match v.Default with
  | none => v
  | some d => { v with Value := d }

/-- A plain token: not empty, and either exactly `-` or not beginning with `-`. -/
def plain (t : Str) : Bool := decide (t ≠ []) && (decide (t = ['-']) || decide (t.head? ≠ some '-'))

/-- Go's `strconv.FormatUint(n, 10)`: the decimal form of a natural number. -/
def decimal (n : Nat) : Str := Nat.toDigits 10 n

/-- Go's `strconv.FormatInt(i, 10)`: the decimal form of an integer. -/
def decimalInt (i : Int) : Str :=
  if i < 0 then '-' :: Nat.toDigits 10 i.natAbs else Nat.toDigits 10 i.natAbs

/-- Two states of one variable: the registration data and the type of the destination
agree; the contents and `IsSet` may differ. -/
def sameShape (v w : Variable) : Prop :=
  v.Name = w.Name ∧ v.Short = w.Short ∧ v.Index = w.Index ∧ v.Rest = w.Rest
    ∧ v.Value.kind = w.Value.kind

/-- Two states of the variables of one command. -/
def SameShape (vs ws : List Variable) : Prop := List.Forall₂ sameShape vs ws

/-- The Go boolean literals, each with its truth value. -/
def boolLiterals : List (Str × Bool) :=
  [(['1'], true), (['t'], true), (['T'], true), (['T', 'R', 'U', 'E'], true),
    (['t', 'r', 'u', 'e'], true), (['T', 'r', 'u', 'e'], true),
    (['0'], false), (['f'], false), (['F'], false), (['F', 'A', 'L', 'S', 'E'], false),
    (['f', 'a', 'l', 's', 'e'], false), (['F', 'a', 'l', 's', 'e'], false)]

/-! ## Commands used as concrete inputs -/

/-- The variable that `AddOpt` registers for a destination holding `v` that is not
custom; `short` is the rune 0 when no short name is given. -/
def optionVar (v : Value) (short : Char) (name : Str) : Variable :=
  ⟨v, name, short, -1, false, some v, [], false⟩

/-- The variable `-h, --help` that `New` registers. -/
def helpVar : Variable :=
  ⟨.bool false, ['h', 'e', 'l', 'p'], 'h', -1, false, some (.bool false), ['H', 'e', 'l', 'p'],
    false⟩

/-- A command with the options `--flag` (bool), `-a`, `-b`, `-f` (bool), `-c` (int64, also
`--c`) and `--baz` (string, default `default`), after `New`. -/
def optionsCmd : Argp :=
  .mk [helpVar,
    optionVar (.bool false) (Char.ofNat 0) ['f', 'l', 'a', 'g'],
    optionVar (.bool false) 'a' ['a'],
    optionVar (.bool false) 'b' ['b'],
    optionVar (.int 64 0) 'c' ['c'],
    optionVar (.bool false) 'f' ['f'],
    optionVar (.str ['d', 'e', 'f', 'a', 'u', 'l', 't']) (Char.ofNat 0) ['b', 'a', 'z']] []

/-- The calls that register `optionsCmd`. -/
def registerOptionsCmd (lib : GoLib) : Option Argp := do
  let argp ← New lib
  let argp ← AddOpt lib argp (.bool false) true [] ['f', 'l', 'a', 'g'] []
  let argp ← AddOpt lib argp (.bool false) true ['a'] [] []
  let argp ← AddOpt lib argp (.bool false) true ['b'] [] []
  let argp ← AddOpt lib argp (.int 64 0) true ['c'] [] []
  let argp ← AddOpt lib argp (.bool false) true ['f'] [] []
  AddOpt lib argp (.str ['d', 'e', 'f', 'a', 'u', 'l', 't']) true [] ['b', 'a', 'z'] []

/-- The value of a run of decimal digits read after the value `acc`. -/
def digitsValue (acc : Nat) (l : List Char) : Nat :=
  l.foldl (fun a c => a * 10 + (c.toNat - '0'.toNat)) acc

/-- A command with one text positional `src` and the rest variable `files`, after `New`. -/
def argsCmd : Argp :=
  .mk [helpVar,
    ⟨.str [], ['s', 'r', 'c'], Char.ofNat 0, 0, false, some (.str []), [], false⟩,
    ⟨.slice .String [], ['f', 'i', 'l', 'e', 's'], Char.ofNat 0, -1, true,
      some (.slice .String []), [], false⟩] []

/-- The calls that register `argsCmd`. -/
def registerArgsCmd (lib : GoLib) : Option Argp := do
  let argp ← New lib
  let argp ← AddArg lib argp (.str []) true ['s', 'r', 'c'] []
  AddRest lib argp (.slice .String []) true ['f', 'i', 'l', 'e', 's'] []

/-- The sub command `one` of `TestArgpSubCommand`: the option `-b, --b` (int), after
the option `help`. -/
def subOne : Argp := .mk [optionVar (.int 64 0) 'b' ['b'], helpVar] []

/-- A command with the positional `v`, the option `-a` (int) and the sub command `one`. -/
def parentCmd : Argp :=
  .mk [helpVar,
    ⟨.str [], [], Char.ofNat 0, 0, false, some (.str []), [], false⟩,
    optionVar (.int 64 0) 'a' ['a']] [(['o', 'n', 'e'], subOne)]

/-- The calls that register `parentCmd`, given the sub command that `NewCmd` builds. -/
def registerParentCmd (lib : GoLib) : Option Argp := do
  let argp ← New lib
  let argp ← AddArg lib argp (.str []) true [] []
  let argp ← AddOpt lib argp (.int 64 0) true ['a'] [] []
  AddCmd lib argp subOne ['o', 'n', 'e']

/-- The size of a token list: one for each token and one for each rune. -/
def tokensSize (arguments : List Str) : Nat :=
  (arguments.map (fun a => a.length + 1)).sum

/-- The value of a base-10 literal as the spec's words describe it, read without the
code: an optional sign `+` or `-`, then one or more decimal digits; `none` for any other
token. -/
def literalValue (t : Str) : Option Int :=
  match t with
  | [] => none
  | c :: cs =>
    if c = '-' then
      if cs ≠ [] ∧ (∀ d ∈ cs, '0' ≤ d ∧ d ≤ '9') then some (-(digitsValue 0 cs : Int)) else none
    else if c = '+' then
      if cs ≠ [] ∧ (∀ d ∈ cs, '0' ≤ d ∧ d ≤ '9') then some (digitsValue 0 cs : Int) else none
    else if ∀ d ∈ c :: cs, '0' ≤ d ∧ d ≤ '9' then some (digitsValue 0 (c :: cs) : Int)
    else none

/-- The token `t` is a valid base-10 literal within the signed 64-bit range, of value `n`. -/
def isInt64Literal (t : Str) (n : Int) : Prop :=
  literalValue t = some n ∧ -(2 : Int) ^ 63 ≤ n ∧ n < (2 : Int) ^ 63

/-- A command with the options `--int` (int64), `--list` (`[]int64`) and `--pair`
(`[2]int64`), after `New`. -/
def typesCmd : Argp :=
  .mk [helpVar,
    optionVar (.int 64 0) (Char.ofNat 0) ['i', 'n', 't'],
    optionVar (.slice (.Int 64) []) (Char.ofNat 0) ['l', 'i', 's', 't'],
    optionVar (.array (.Int 64) [.int 64 0, .int 64 0]) (Char.ofNat 0) ['p', 'a', 'i', 'r']] []

/-- The calls that register `typesCmd`. -/
def registerTypesCmd (lib : GoLib) : Option Argp := do
  let argp ← New lib
  let argp ← AddOpt lib argp (.int 64 0) true [] ['i', 'n', 't'] []
  let argp ← AddOpt lib argp (.slice (.Int 64) []) true [] ['l', 'i', 's', 't'] []
  AddOpt lib argp (.array (.Int 64) [.int 64 0, .int 64 0]) true [] ['p', 'a', 'i', 'r'] []

/-- Go's `strings.Join(ds, ",")`. -/
def joinComma : List Str → Str
  | [] => []
  | [a] => a
  | a :: b :: rest => a ++ ',' :: joinComma (b :: rest)

/-- A value of an integer kind of `bits` bits, signed or unsigned, that holds `x`. -/
def intValue (signed : Bool) (bits : Nat) (x : Int) : Value :=
  if signed then .int bits x else .uint bits x.toNat

/-- The least integer of an integer type of `bits` bits. -/
def intMin (signed : Bool) (bits : Nat) : Int :=
  if signed then -(2 : Int) ^ (bits - 1) else 0

/-- One more than the greatest integer of an integer type of `bits` bits. -/
def intSup (signed : Bool) (bits : Nat) : Int :=
  if signed then (2 : Int) ^ (bits - 1) else (2 : Int) ^ bits

/-- A command with the counting option `-c, --count` on a 64-bit `int` that holds `m` and
the appending option `-i, --int` on an `[]int` that holds `xs`, after `New`. -/
def customCmd (m : Int) (xs : List Value) : Argp :=
  .mk [helpVar,
    ⟨.count true (.int 64 m), ['c', 'o', 'u', 'n', 't'], 'c', -1, false, none, [], false⟩,
    ⟨.append true (.slice (.Int 64) xs), ['i', 'n', 't'], 'i', -1, false, none, [], false⟩] []

/-- The calls that register `customCmd`. -/
def registerCustomCmd (lib : GoLib) (m : Int) (xs : List Value) : Option Argp := do
  let argp ← New lib
  let argp ← AddOpt lib argp (.count true (.int 64 m)) false ['c'] ['c', 'o', 'u', 'n', 't'] []
  AddOpt lib argp (.append true (.slice (.Int 64) xs)) false ['i'] ['i', 'n', 't'] []

/-! ## Sequences of registration calls -/

/-- A call that registers a variable: `AddOpt`, `AddArg` or `AddRest` with its arguments
(the destination as in `AddOpt`). -/
inductive Call where
  | opt (v : Value) (isPtr : Bool) (short name description : Str)
  | arg (v : Value) (isPtr : Bool) (name description : Str)
  | rest (v : Value) (isPtr : Bool) (name description : Str)

/-- The command after the call; `none` is a panic. -/
def Call.run (lib : GoLib) (argp : Argp) : Call → Option Argp
  | .opt v isPtr short name description => AddOpt lib argp v isPtr short name description
  | .arg v isPtr name description => AddArg lib argp v isPtr name description
  | .rest v isPtr name description => AddRest lib argp v isPtr name description

/-- The command after the calls, made one after the other; `none` if one of them
panics. -/
def runCalls (lib : GoLib) : Argp → List Call → Option Argp
  | argp, [] => some argp
  | argp, c :: cs =>
    match c.run lib argp with
    | none => none
    | some argp1 => runCalls lib argp1 cs

/-- The command that `New` creates, extended by the calls. -/
def register (lib : GoLib) (calls : List Call) : Option Argp :=
  match New lib with
  | none => none
  | some argp => runCalls lib argp calls

/-- Whether the call is an `AddArg`. -/
def Call.isArg : Call → Bool
  | .arg _ _ _ _ => true
  | _ => false

/-- The token `t` is a valid base-10 literal within the unsigned 64-bit range, of value
`n`, as the spec's words describe it: one or more decimal digits. -/
def isUint64Literal (t : Str) (n : Nat) : Prop :=
  t ≠ [] ∧ (∀ d ∈ t, '0' ≤ d ∧ d ≤ '9') ∧ digitsValue 0 t = n ∧ n < 2 ^ 64

/-! ## The tokenizer -/

/-- Go's `unicode.IsSpace`; `spaceTable` is the property `White_Space`, which the source
consults for runes above `unicode.MaxLatin1`. -/
def unicode_IsSpace (spaceTable : Char → Bool) (r : Char) : Bool :=
  if r.toNat ≤ 0xFF then
    decide (r = '\t' ∨ r = '\n' ∨ r = Char.ofNat 0x0B ∨ r = Char.ofNat 0x0C ∨ r = '\r'
      ∨ r = ' ' ∨ r = Char.ofNat 0x85 ∨ r = Char.ofNat 0xA0)
  else spaceTable r

/-- The variables of `splitArguments`.  The offset `i` counts runes: the source sets it
to the offset of the rune after the current one (`j + 1` after a one-byte rune,
`j + utf8.RuneLen(r)` otherwise). -/
structure SplitState where
  i : Nat
  esc : Bool
  /-- The rune 0 outside quotes. -/
  quote : Char
  arg : Str
  args : List Str

/-- The body of the loop `for j, r := range s` of `splitArguments`; `s[i:j]` is
`(s.drop i).take (j - i)`. -/
def splitBody (spaceTable : Char → Bool) (s : Str) (st : SplitState) (j : Nat) (r : Char) :
    SplitState :=
  if r = '\\' then
    { st with
      arg := if st.i < j then st.arg ++ (s.drop st.i).take (j - st.i) else st.arg,
      i := j + 1, esc := true }
  else if st.esc then { st with esc := false }
  else if ((st.quote = Char.ofNat 0 ∨ st.quote = r) ∧ r = '\'') ∨ r = '"' then
    { st with
      quote := if st.quote = Char.ofNat 0 then r else Char.ofNat 0,
      arg := if st.i < j then st.arg ++ (s.drop st.i).take (j - st.i) else st.arg,
      i := j + 1 }
  else if st.quote = Char.ofNat 0 ∧ unicode_IsSpace spaceTable r then
    if st.i < j then
      { st with args := st.args ++ [st.arg ++ (s.drop st.i).take (j - st.i)], arg := [], i := j + 1 }
    else { st with i := j + 1 }
  else st

/-- The loop `for j, r := range s` of `splitArguments` over the runes that are left, the
first of them at offset `j`. -/
def splitLoop (spaceTable : Char → Bool) (s : Str) : List Char → Nat → SplitState → SplitState
  | [], _, st => st
  | r :: rs, j, st => splitLoop spaceTable s rs (j + 1) (splitBody spaceTable s st j r)

/-- Go's `splitArguments`. -/
def splitArguments (spaceTable : Char → Bool) (s : Str) : List Str :=
  let st := splitLoop spaceTable s s 0 ⟨0, false, Char.ofNat 0, [], []⟩
  if st.i < s.length then st.args ++ [st.arg ++ s.drop st.i] else st.args ++ [st.arg]

/-- The quoting of the round trip: a token that is empty or contains whitespace is
wrapped in single quotes. -/
def quoteToken (spaceTable : Char → Bool) (t : Str) : Str :=
  if t = [] ∨ t.any (unicode_IsSpace spaceTable) then '\'' :: (t ++ ['\'']) else t

/-- Go's `strings.Join(ts, " ")`. -/
def joinSpace : List Str → Str
  | [] => []
  | [a] => a
  | a :: b :: rest => a ++ ' ' :: joinSpace (b :: rest)

/-- The invariant of the registered variables, `k` being the number of `AddArg` calls
made: the short names other than the rune 0 are pairwise distinct; the indices other than
-1 are, in the order of registration, `0, 1, ..., k - 1`; at most one variable is the rest
variable; and no variable has both an index and the flag `Rest`. -/
def RegInv (vars : List Variable) (k : Nat) : Prop :=
  ((vars.map (·.Short)).filter (· ≠ Char.ofNat 0)).Nodup
  ∧ (vars.filter (fun v => v.Index ≠ -1)).map (·.Index) = (List.range' 0 k).map Int.ofNat
  ∧ (vars.filter (·.Rest)).length ≤ 1
  ∧ ∀ v ∈ vars, ¬ (v.Index ≠ -1 ∧ v.Rest = true)

/-! ## Lemmas: strings and look-ups -/

theorem unicode_ToLower_dash (lib : GoLib) : unicode_ToLower lib '-' = '-' := by
  simp [unicode_ToLower]

theorem strings_ToLower_head_dash (lib : GoLib) (a : Str) (ha : a.head? = some '-') :
    (strings_ToLower lib a).head? = some '-' := by
  cases a with
  | nil => simp at ha
  | cons c cs =>
    simp at ha
    subst ha
    simp [strings_ToLower, unicode_ToLower_dash]

theorem lookupCmd_none_of_head (cmds : List (Str × Argp)) (h : noDashCmd cmds = true)
    (key : Str) (hk : key.head? = some '-') : lookupCmd key cmds = none := by
  induction cmds with
  | nil => rfl
  | cons e rest ih =>
    obtain ⟨cmd, sub⟩ := e
    rw [noDashCmd, List.all_cons, Bool.and_eq_true] at h
    have hne : cmd ≠ key := by
      intro hc
      have h1 := h.1
      rw [decide_eq_true_eq] at h1
      exact h1 (hc ▸ hk)
    simp only [lookupCmd, hne, if_false]
    rw [ih h.2]
    rfl

theorem findVar_some {p : Variable → Bool} {vars : List Variable} {k : Nat} {v : Variable}
    (h : findVar p vars = some (k, v)) : vars[k]? = some v ∧ p v = true := by
  induction vars generalizing k with
  | nil => simp [findVar] at h
  | cons w ws ih =>
    simp only [findVar] at h
    by_cases hp : p w = true
    · simp [hp] at h
      obtain ⟨rfl, rfl⟩ := h
      simp [hp]
    · simp [hp] at h
      obtain ⟨k1, h1, rfl⟩ := h
      have := ih h1
      simpa using this

theorem findVar_map {p : Variable → Bool} (g : Variable → Variable)
    (hg : ∀ v, p (g v) = p v) (vars : List Variable) :
    findVar p (vars.map g) = (findVar p vars).map fun r => (r.1, g r.2) := by
  induction vars with
  | nil => rfl
  | cons w ws ih =>
    simp only [List.map, findVar, hg]
    by_cases hp : p w = true
    · simp [hp]
    · simp only [hp, ih]
      cases findVar p ws <;> simp

theorem findVar_modifyAt {p : Variable → Bool} (f : Variable → Variable)
    (hf : ∀ v, p (f v) = p v) (k : Nat) (vars : List Variable) :
    findVar p (modifyAt f k vars)
      = (findVar p vars).map fun r => (r.1, if r.1 = k then f r.2 else r.2) := by
  induction vars generalizing k with
  | nil => cases k <;> rfl
  | cons w ws ih =>
    cases k with
    | zero =>
      simp only [modifyAt, findVar, hf]
      by_cases hp : p w = true
      · simp [hp]
      · simp only [hp]
        cases findVar p ws <;> simp
    | succ k =>
      simp only [modifyAt, findVar]
      by_cases hp : p w = true
      · simp [hp]
      · simp only [hp, ih]
        cases findVar p ws <;> simp

theorem modifyAt_getElem? (f : Variable → Variable) (k j : Nat) (vars : List Variable) :
    (modifyAt f k vars)[j]? = if j = k then (vars[j]?).map f else vars[j]? := by
  induction vars generalizing k j with
  | nil => cases k <;> simp [modifyAt]
  | cons w ws ih =>
    cases k with
    | zero => cases j <;> simp [modifyAt]
    | succ k =>
      cases j with
      | zero => simp [modifyAt]
      | succ j => simp [modifyAt, ih]

theorem setDefaults_typed (vars : List Variable) (h : defaultsTyped vars = true) :
    setDefaults vars = (vars.map withDefault, true) := by
  induction vars with
  | nil => rfl
  | cons w ws ih =>
    rw [defaultsTyped, List.all_cons, Bool.and_eq_true] at h
    have ih1 := ih h.2
    have hk := h.1
    cases hd : w.Default with
    | none => simp [setDefaults, withDefault, hd, ih1]
    | some d =>
      rw [hd] at hk
      simp only [decide_eq_true_eq] at hk
      simp [setDefaults, withDefault, hd, Variable.Set, hk, ih1]

/-! ## Lemmas: the token loop -/

/-- Dispatch to a sub command does not happen on a token that begins with `-`. -/
theorem parse_dash (lib : GoLib) (fuel : Nat) (argp : Argp) (a : Str) (t : List Str)
    (hc : noDashCmd argp.cmds = true) (ha : a.head? = some '-') :
    parse lib fuel argp (a :: t) = parseSelf lib fuel argp (a :: t) := by
  rw [parse, lookupCmd_none_of_head argp.cmds hc _ (strings_ToLower_head_dash lib a ha)]

theorem parse_noCmds (lib : GoLib) (fuel : Nat) (argp : Argp) (args : List Str)
    (hc : argp.cmds = []) : parse lib fuel argp args = parseSelf lib fuel argp args := by
  cases args with
  | nil => rw [parse]
  | cons a t => rw [parse, hc]; rfl

theorem walk_end (lib : GoLib) (args : List Str) (fuel : Nat) (vars : List Variable)
    (rest : List Str) (i : Nat) (hi : args.length ≤ i) :
    walk lib args fuel vars rest i = some (vars, .ok rest) := by
  have : args[i]? = none := by simp [hi]
  cases fuel <;> simp [walk, this]

theorem walk_step (lib : GoLib) (args : List Str) (fuel : Nat) (vars : List Variable)
    (rest : List Str) (i : Nat) (arg : Str) (h : args[i]? = some arg) :
    walk lib args (fuel + 1) vars rest i =
      match body lib args vars rest i arg with
      | .next vars1 rest1 i1 => walk lib args fuel vars1 rest1 (i1 + 1).toNat
      | .stop vars1 rest1 => some (vars1, .ok rest1)
      | .fail vars1 err => some (vars1, .error err) := by
  rw [walk]
  simp only [h]

theorem body_plain (lib : GoLib) (args : List Str) (vars : List Variable) (rest : List Str)
    (i : Nat) (arg : Str) (h : plain arg = true) :
    body lib args vars rest i arg = .next vars (rest ++ [arg]) i := by
  simp only [plain, Bool.and_eq_true, Bool.or_eq_true, decide_eq_true_eq] at h
  obtain ⟨hne, h2⟩ := h
  have h1 : arg ≠ ['-', '-'] := by
    rcases h2 with h2 | h2
    · rw [h2]; decide
    · intro hc; rw [hc] at h2; simp at h2
  have h3 : ¬ (1 < arg.length ∧ arg.head? = some '-') := by
    rcases h2 with h2 | h2
    · rw [h2]; simp
    · simp [h2]
  have h4 : 0 < arg.length := List.length_pos.mpr hne
  simp only [body, h1, h3, h4, if_false, if_true]

/-- Plain tokens are moved to `rest` in order, one pass each. -/
theorem walk_plain (lib : GoLib) (args : List Str) (pl : List Str) :
    ∀ (fuel : Nat) (vars : List Variable) (rest : List Str) (i : Nat),
      (∀ t ∈ pl, plain t = true) → (∀ j, j < pl.length → args[i + j]? = pl[j]?) →
      walk lib args (fuel + pl.length) vars rest i
        = walk lib args fuel vars (rest ++ pl) (i + pl.length) := by
  induction pl with
  | nil => intro fuel vars rest i _ _; simp
  | cons p ps ih =>
    intro fuel vars rest i hp hj
    have h0 : args[i]? = some p := by simpa using hj 0 (by simp)
    have e : fuel + (p :: ps).length = (fuel + ps.length) + 1 := by simp; omega
    rw [e, walk_step lib args _ vars rest i p h0, body_plain lib args vars rest i p (hp p (by simp))]
    simp only
    have e2 : ((i : Int) + 1).toNat = i + 1 := by omega
    rw [e2, ih fuel vars (rest ++ [p]) (i + 1) (fun t ht => hp t (by simp [ht]))]
    · simp [Nat.add_assoc, Nat.add_comm 1]
    · intro j hj2
      have := hj (j + 1) (by simp; omega)
      simpa [Nat.add_assoc, Nat.add_comm 1] using this

/-! ## Lemmas: the argument blocks -/

theorem findVar_none {p : Variable → Bool} {vars : List Variable}
    (h : ∀ v ∈ vars, p v = false) : findVar p vars = none := by
  induction vars with
  | nil => rfl
  | cons w ws ih =>
    have hw := h w (by simp)
    simp only [findVar, hw]
    rw [ih (fun v hv => h v (by simp [hv]))]
    rfl

theorem withDefault_keys (v : Variable) :
    (withDefault v).Name = v.Name ∧ (withDefault v).Short = v.Short
      ∧ (withDefault v).Index = v.Index ∧ (withDefault v).Rest = v.Rest
      ∧ (withDefault v).IsSet = v.IsSet ∧ (withDefault v).Default = v.Default := by
  cases hd : v.Default <;> simp [withDefault, hd]

theorem indexed_nil (lib : GoLib) (vars : List Variable) (index : Nat) :
    indexed lib vars [] index = (vars, .ok index) := by
  rw [indexed]

theorem indexed_none (lib : GoLib) (vars : List Variable) (rest : List Str) (index : Nat)
    (h : findIndex vars index = none) : indexed lib vars rest index = (vars, .ok index) := by
  cases rest with
  | nil => rw [indexed]
  | cons a t => rw [indexed]; simp only [h]

/-- Without positional and rest variables the argument blocks return `rest` as it is. -/
theorem assignArguments_noArgs (lib : GoLib) (cmds : List (Str × Argp)) (vars : List Variable)
    (rest : List Str) (h : ∀ v ∈ vars, v.IsArgument = false) :
    assignArguments lib cmds vars rest = ⟨.mk vars cmds, .mk vars cmds, rest, none⟩ := by
  have hi : findIndex vars ((0 : Nat) : Int) = none := by
    apply findVar_none
    intro v hv
    have := h v hv
    simp only [Variable.IsArgument, Bool.or_eq_false_iff, decide_eq_false_iff_not, ne_eq,
      not_not] at this
    simp [this.1]
  have hr : findRest vars = none := by
    apply findVar_none
    intro v hv
    have := h v hv
    simp only [Variable.IsArgument, Bool.or_eq_false_iff] at this
    exact this.2
  simp only [assignArguments, indexed_none lib vars rest 0 hi, hr, List.drop_zero]

theorem isArgument_withDefault (vars : List Variable) (h : ∀ v ∈ vars, v.IsArgument = false) :
    ∀ v ∈ vars.map withDefault, v.IsArgument = false := by
  intro v hv
  rw [List.mem_map] at hv
  obtain ⟨w, hw, rfl⟩ := hv
  have := h w hw
  have hk := withDefault_keys w
  simp only [Variable.IsArgument, hk.2.2.1, hk.2.2.2.1] at this ⊢
  exact this

/-- C7: for a command with no positional and no rest variable, `parse` of `--` followed
by any tokens `post` succeeds, returns exactly `post` as the unconsumed list (tokens that
begin with `-` and empty tokens included) and leaves every variable bound to its
default, with its `IsSet` flag as before. -/
theorem C7_terminator_returns_rest (lib : GoLib) (argp : Argp) (post : List Str) (fuel : Nat)
    (hc : noDashCmd argp.cmds = true) (hd : defaultsTyped argp.vars = true)
    (hargs : ∀ v ∈ argp.vars, v.IsArgument = false) :
    parse lib (fuel + 1) argp (['-', '-'] :: post)
      = some ⟨.mk (argp.vars.map withDefault) argp.cmds,
          .mk (argp.vars.map withDefault) argp.cmds, post, none⟩ := by
  rw [parse_dash lib _ argp _ _ hc (by rfl), parseSelf, setDefaults_typed _ hd]
  simp only
  rw [walk_step lib _ fuel _ _ 0 ['-', '-'] (by simp)]
  simp only [body, if_true, List.nil_append, Nat.zero_add, List.drop_succ_cons, List.drop_zero]
  rw [assignArguments_noArgs lib _ _ _ (isArgument_withDefault _ hargs)]

/-! ## Lemmas: scanning scalars -/

theorem strconv_ParseInt_range {d : Str} {n : Int} (h : strconv_ParseInt d = .ok n) :
    -(2 : Int) ^ 63 ≤ n ∧ n < (2 : Int) ^ 63 := by
  unfold strconv_ParseInt at h
  split at h
  · simp at h
  · rename_i c cs
    simp only at h
    split at h
    · simp at h
    · rename_i un e hx heq
      by_cases hneg : c = '-'
      · simp only [hneg, decide_True, Bool.not_true, Bool.false_eq_true, false_and, if_false,
          true_and, if_true] at h
        split at h
        · simp at h
        · rename_i hle
          simp only [Except.ok.injEq] at h
          subst h
          have : (un : Int) ≤ 2 ^ 63 := by
            have := Nat.le_of_not_lt hle
            exact_mod_cast this
          constructor <;> omega
      · simp only [hneg, decide_False, Bool.not_false, true_and, Bool.false_eq_true, false_and,
          if_false] at h
        split at h
        · simp at h
        · rename_i hle
          simp only [Except.ok.injEq] at h
          subst h
          have : (un : Int) < 2 ^ 63 := by
            have := Nat.lt_of_not_le hle
            exact_mod_cast this
          constructor <;> omega

theorem wrapInt_of_range {bits : Nat} {n : Int} (hb : 0 < bits)
    (h1 : -(2 : Int) ^ (bits - 1) ≤ n) (h2 : n < (2 : Int) ^ (bits - 1)) :
    wrapInt bits n = n := by
  unfold wrapInt
  have hp : (2 : Int) ^ bits = 2 ^ (bits - 1) + 2 ^ (bits - 1) := by
    obtain ⟨b, rfl⟩ : ∃ b, bits = b + 1 := ⟨bits - 1, by omega⟩
    simp [pow_succ]
    ring
  rw [Int.emod_eq_of_lt] <;> omega

theorem strconv_ParseInt_head {d : Str} {n : Int} (h : strconv_ParseInt d = .ok n) :
    ∃ c cs, d = c :: cs ∧ c ≠ '=' := by
  cases d with
  | nil => simp [strconv_ParseInt] at h
  | cons c cs =>
    refine ⟨c, cs, rfl, ?_⟩
    intro hc
    subst hc
    simp [strconv_ParseInt, strconv_ParseUint, parseUintLoop] at h

theorem scanVar_str (lib : GoLib) (v : Value) (name a : Str) (rest : List Str)
    (hk : v.kind = .String) : scanVar lib v name (a :: rest) = ⟨.str a, 1, none⟩ := by
  cases v <;> simp [Value.kind] at hk <;> simp [scanVar, scanValue, Value.kind, scanKind, hk]

theorem scanVar_int (lib : GoLib) (v : Value) (name a : Str) (rest : List Str) (n : Int)
    (hk : v.kind = .Int 64) (ha : strconv_ParseInt a = .ok n) :
    scanVar lib v name (a :: rest) = ⟨.int 64 n, 1, none⟩ := by
  have hr := strconv_ParseInt_range ha
  have hw : wrapInt 64 n = n := wrapInt_of_range (by decide) hr.1 hr.2
  cases v <;> simp [Value.kind] at hk <;>
    simp [scanVar, scanValue, Value.kind, scanKind, hk, ha, hw]

theorem scanVar_bool_ok (lib : GoLib) (v : Value) (name a : Str) (rest : List Str) (b : Bool)
    (hk : v.kind = .Bool) (ha : strconv_ParseBool a = .ok b) :
    scanVar lib v name (a :: rest) = ⟨.bool b, 1, none⟩ := by
  cases v <;> simp [Value.kind] at hk <;>
    simp [scanVar, scanValue, Value.kind, scanKind, hk, ha]

theorem strconv_ParseBool_error {a : Str} (h : ∀ b, strconv_ParseBool a ≠ .ok b) :
    strconv_ParseBool a = .error (.wrap .ErrSyntax) := by
  unfold strconv_ParseBool at *
  split
  · rename_i h1; simp [h1] at h
  · split
    · rename_i h1 h2; simp [h1, h2] at h
    · rfl

theorem scanVar_bool_fallback (lib : GoLib) (v : Value) (name a : Str) (rest : List Str)
    (hk : v.kind = .Bool) (ha : ∀ b, strconv_ParseBool a ≠ .ok b) :
    scanVar lib v name (a :: rest) = ⟨.bool true, 0, none⟩ := by
  have he := strconv_ParseBool_error ha
  cases v <;> simp [Value.kind] at hk <;>
    simp [scanVar, scanValue, Value.kind, scanKind, hk, he]

theorem scanVar_bool_nil (lib : GoLib) (v : Value) (name : Str) (hk : v.kind = .Bool) :
    scanVar lib v name [] = ⟨.bool true, 0, none⟩ := by
  cases v <;> simp [Value.kind] at hk <;>
    simp [scanVar, scanValue, Value.kind, scanKind, hk]

/-! ## Lemmas: states of one command -/

theorem sameShape_refl (v : Variable) : sameShape v v := ⟨rfl, rfl, rfl, rfl, rfl⟩

theorem sameShape_trans {u v w : Variable} (h1 : sameShape u v) (h2 : sameShape v w) :
    sameShape u w :=
  ⟨h1.1.trans h2.1, h1.2.1.trans h2.2.1, h1.2.2.1.trans h2.2.2.1,
    h1.2.2.2.1.trans h2.2.2.2.1, h1.2.2.2.2.trans h2.2.2.2.2⟩

theorem SameShape_refl (vs : List Variable) : SameShape vs vs := by
  induction vs with
  | nil => exact List.Forall₂.nil
  | cons v vs ih => exact List.Forall₂.cons (sameShape_refl v) ih

theorem SameShape_trans {us vs ws : List Variable} (h1 : SameShape us vs)
    (h2 : SameShape vs ws) : SameShape us ws := by
  induction h1 generalizing ws with
  | nil => cases h2; exact List.Forall₂.nil
  | cons h t ih =>
    cases h2 with
    | cons h' t' => exact List.Forall₂.cons (sameShape_trans h h') (ih t')

theorem SameShape_modifyAt (f : Variable → Variable) (k : Nat) (vs : List Variable)
    (hf : ∀ v, vs[k]? = some v → sameShape v (f v)) : SameShape vs (modifyAt f k vs) := by
  induction vs generalizing k with
  | nil => cases k <;> exact List.Forall₂.nil
  | cons v vs ih =>
    cases k with
    | zero => exact List.Forall₂.cons (hf v (by simp)) (SameShape_refl vs)
    | succ k =>
      exact List.Forall₂.cons (sameShape_refl v) (ih k (fun u hu => hf u (by simpa using hu)))

theorem SameShape_withDefault (vs : List Variable) (h : defaultsTyped vs = true) :
    SameShape vs (vs.map withDefault) := by
  induction vs with
  | nil => exact List.Forall₂.nil
  | cons v vs ih =>
    rw [defaultsTyped, List.all_cons, Bool.and_eq_true] at h
    refine List.Forall₂.cons ?_ (ih h.2)
    have hk := h.1
    cases hd : v.Default with
    | none => simp [withDefault, hd, sameShape_refl]
    | some d =>
      rw [hd] at hk
      simp only [decide_eq_true_eq] at hk
      simp [withDefault, hd, sameShape, hk]

theorem SameShape_getElem? {vs ws : List Variable} (h : SameShape vs ws) {k : Nat}
    {v : Variable} (hv : vs[k]? = some v) : ∃ w, ws[k]? = some w ∧ sameShape v w := by
  induction h generalizing k with
  | nil => simp at hv
  | cons hd tl ih =>
    cases k with
    | zero =>
      simp at hv
      subst hv
      exact ⟨_, by simp, hd⟩
    | succ k =>
      simp at hv
      simpa using ih hv

theorem findVar_SameShape {p : Variable → Bool} (hp : ∀ v w, sameShape v w → p v = p w)
    {vs ws : List Variable} (h : SameShape vs ws) {k : Nat} {v : Variable}
    (hf : findVar p vs = some (k, v)) : ∃ w, findVar p ws = some (k, w) ∧ sameShape v w := by
  induction h generalizing k with
  | nil => simp [findVar] at hf
  | cons hd tl ih =>
    rename_i a b as bs
    simp only [findVar] at hf ⊢
    rw [← hp a b hd]
    by_cases hpa : p a = true
    · simp [hpa] at hf ⊢
      obtain ⟨rfl, rfl⟩ := hf
      exact ⟨b, ⟨rfl, rfl⟩, hd⟩
    · simp [hpa] at hf ⊢
      obtain ⟨k1, h1, rfl⟩ := hf
      obtain ⟨w, hw, hs⟩ := ih h1
      exact ⟨w, ⟨k1, hw, rfl⟩, hs⟩

theorem findVar_SameShape_none {p : Variable → Bool} (hp : ∀ v w, sameShape v w → p v = p w)
    {vs ws : List Variable} (h : SameShape vs ws) (hf : findVar p vs = none) :
    findVar p ws = none := by
  induction h with
  | nil => rfl
  | cons hd tl ih =>
    rename_i a b as bs
    simp only [findVar] at hf ⊢
    rw [← hp a b hd]
    by_cases hpa : p a = true
    · simp [hpa] at hf
    · simp [hpa] at hf ⊢
      exact ih hf

theorem findShort_SameShape {vs ws : List Variable} (h : SameShape vs ws) {c : Char} {k : Nat}
    {v : Variable} (hf : findShort vs c = some (k, v)) :
    ∃ w, findShort ws c = some (k, w) ∧ sameShape v w :=
  findVar_SameShape (fun v w hs => by simp [hs.2.1]) h hf

theorem findName_SameShape (lib : GoLib) {vs ws : List Variable} (h : SameShape vs ws)
    {name : Str} {k : Nat} {v : Variable} (hf : findName lib vs name = some (k, v)) :
    ∃ w, findName lib ws name = some (k, w) ∧ sameShape v w := by
  unfold findName at hf ⊢
  split
  · rename_i hn; simp [hn] at hf
  · rename_i hn
    simp only [hn, if_false] at hf
    exact findVar_SameShape (fun v w hs => by simp [hs.1, hs.2.1]) h hf

theorem findIndex_SameShape {vs ws : List Variable} (h : SameShape vs ws) {i : Int} {k : Nat}
    {v : Variable} (hf : findIndex vs i = some (k, v)) :
    ∃ w, findIndex ws i = some (k, w) ∧ sameShape v w :=
  findVar_SameShape (fun v w hs => by simp [hs.2.2.1]) h hf

theorem findIndex_SameShape_none {vs ws : List Variable} (h : SameShape vs ws) {i : Int}
    (hf : findIndex vs i = none) : findIndex ws i = none :=
  findVar_SameShape_none (fun v w hs => by simp [hs.2.2.1]) h hf

theorem findRest_SameShape {vs ws : List Variable} (h : SameShape vs ws) {k : Nat}
    {v : Variable} (hf : findRest vs = some (k, v)) :
    ∃ w, findRest ws = some (k, w) ∧ sameShape v w :=
  findVar_SameShape (fun v w hs => by simp [hs.2.2.2.1]) h hf

theorem findRest_SameShape_none {vs ws : List Variable} (h : SameShape vs ws)
    (hf : findRest vs = none) : findRest ws = none :=
  findVar_SameShape_none (fun v w hs => by simp [hs.2.2.2.1]) h hf

/-! ## Lemmas: option tokens -/

theorem strings_IndexByte_none {s : Str} {c : Char} (h : c ∉ s) : strings_IndexByte s c = none := by
  induction s with
  | nil => rfl
  | cons x xs ih =>
    simp only [List.mem_cons, not_or] at h
    have hx : x ≠ c := fun e => h.1 e.symm
    simp [strings_IndexByte, hx, ih h.2]

theorem strings_IndexByte_append {s : Str} {c : Char} (t : Str) (h : c ∉ s) :
    strings_IndexByte (s ++ c :: t) c = some s.length := by
  induction s with
  | nil => simp [strings_IndexByte]
  | cons x xs ih =>
    simp only [List.mem_cons, not_or] at h
    have hx : x ≠ c := fun e => h.1 e.symm
    simp [strings_IndexByte, hx, ih h.2]

/-- The body of the token loop on `--name` (no `=` in the token). -/
theorem body_long (lib : GoLib) (args : List Str) (vars : List Variable) (rest : List Str)
    (i : Nat) (nm : Str) (hne : nm ≠ []) (heq : '=' ∉ nm) :
    body lib args vars rest i ('-' :: '-' :: nm) =
      match findName lib vars nm with
      | none => .fail vars (.wrap (.wrap .ErrUnknownOption))
      | some (k, v) =>
        match (scanVar lib v.Value nm (args.drop (i + 1))).err with
        | some err =>
          .fail (modifyAt (fun w => { w with
            Value := (scanVar lib v.Value nm (args.drop (i + 1))).v }) k vars) (.wrap (.wrap err))
        | none =>
          .next (modifyAt (fun w => { w with
            Value := (scanVar lib v.Value nm (args.drop (i + 1))).v, IsSet := true }) k vars) rest
            ((i : Int) + (scanVar lib v.Value nm (args.drop (i + 1))).n) := by
  have hidx : strings_IndexByte ('-' :: '-' :: nm) '=' = none :=
    strings_IndexByte_none (by simp [heq])
  have h1 : ('-' :: '-' :: nm) ≠ ['-', '-'] := by simp [hne]
  have h2 : 1 < ('-' :: '-' :: nm).length := by simp
  simp only [body, h1, if_false, h2, true_and, List.head?_cons, if_true, hidx]
  simp

/-- The body of the token loop on `--name=value` with a value that is not empty. -/
theorem body_long_eq (lib : GoLib) (args : List Str) (vars : List Variable) (rest : List Str)
    (i : Nat) (nm val : Str) (hval : val ≠ []) (heq : '=' ∉ nm) :
    body lib args vars rest i ('-' :: '-' :: (nm ++ '=' :: val)) =
      match findName lib vars nm with
      | none => .fail vars (.wrap (.wrap .ErrUnknownOption))
      | some (k, v) =>
        match (scanVar lib v.Value nm (val :: args.drop (i + 1))).err with
        | some err =>
          .fail (modifyAt (fun w => { w with
            Value := (scanVar lib v.Value nm (val :: args.drop (i + 1))).v }) k vars)
            (.wrap (.wrap err))
        | none =>
          .next (modifyAt (fun w => { w with
            Value := (scanVar lib v.Value nm (val :: args.drop (i + 1))).v, IsSet := true }) k vars)
            rest ((i : Int) + (scanVar lib v.Value nm (val :: args.drop (i + 1))).n - 1) := by
  have hidx : strings_IndexByte ('-' :: '-' :: (nm ++ '=' :: val)) '=' = some (nm.length + 2) := by
    have hm : '=' ∉ '-' :: '-' :: nm := by simp [heq]
    have := strings_IndexByte_append (s := '-' :: '-' :: nm) (c := '=') val hm
    simpa using this
  have h1 : ('-' :: '-' :: (nm ++ '=' :: val)) ≠ ['-', '-'] := by simp
  have h2 : 1 < ('-' :: '-' :: (nm ++ '=' :: val)).length := by simp
  have h3 : nm.length + 2 + 1 < ('-' :: '-' :: (nm ++ '=' :: val)).length := by
    have := List.length_pos.mpr hval
    simp; omega
  have h4 : (('-' :: '-' :: (nm ++ '=' :: val)).take (nm.length + 2)).drop 2 = nm := by simp
  have h5 : ('-' :: '-' :: (nm ++ '=' :: val)).drop (nm.length + 2 + 1) = val := by simp
  simp only [body, h1, if_false, h2, true_and, List.head?_cons, if_true, hidx, h3, h4, h5,
    decide_True]
  simp

/-! ## Lemmas: from the token loop to the result of `parse` -/

theorem valueAt_modifyAt (f : Variable → Variable) (k j : Nat) (vars : List Variable) :
    valueAt (modifyAt f k vars) j
      = if j = k then (vars[j]?).map (fun v => (f v).Value) else valueAt vars j := by
  unfold valueAt
  rw [modifyAt_getElem?]
  split
  · cases vars[j]? <;> rfl
  · rfl

theorem valueAt_modifyAt_self (f : Variable → Variable) (k : Nat) (vars : List Variable)
    (v : Variable) (h : vars[k]? = some v) :
    valueAt (modifyAt f k vars) k = some (f v).Value := by
  simp [valueAt_modifyAt, h]

theorem setRest_value (rest : List Str) (v : Variable) (h : v.Value.kind ≠ .Slice .String) :
    (setRest rest v).Value = v.Value := by
  have : ¬ (Value.slice Kind.String (rest.map Value.str)).kind = v.Value.kind := by
    simpa [Value.kind] using Ne.symm h
  simp [setRest, Variable.Set, this]

/-- With nothing left over by the token loop, the argument blocks write at most to a
rest variable of type `[]string`. -/
theorem assignArguments_nil (lib : GoLib) (cmds : List (Str × Argp)) (vars : List Variable) :
    ∃ vars1, assignArguments lib cmds vars [] = ⟨.mk vars1 cmds, .mk vars1 cmds, [], none⟩
      ∧ ∀ k x, valueAt vars k = some x → x.kind ≠ .Slice .String → valueAt vars1 k = some x := by
  cases hr : findRest vars with
  | none =>
    refine ⟨vars, ?_, fun k x h _ => h⟩
    simp only [assignArguments, indexed_nil, hr, List.drop_nil]
  | some r =>
    obtain ⟨kr, w⟩ := r
    refine ⟨modifyAt (setRest []) kr vars, ?_, ?_⟩
    · simp only [assignArguments, indexed_nil, hr, List.drop_nil]
    · intro k x hx hk
      rw [valueAt_modifyAt]
      split
      · unfold valueAt at hx
        cases hv : vars[k]? with
        | none => simp [hv] at hx
        | some u =>
          simp only [hv, Option.map_some', Option.some.injEq] at hx
          subst hx
          simp [setRest_value _ _ hk]
      · exact hx

/-- When the token loop of a command with typed defaults ends without error and leaves
nothing over, `parse` succeeds with an empty unconsumed list, and the destinations that
are not of type `[]string` hold what the loop wrote. -/
theorem parseSelf_of_walk (lib : GoLib) (fuel : Nat) (argp : Argp) (args : List Str)
    (vars1 : List Variable) (hd : defaultsTyped argp.vars = true)
    (hw : walk lib args fuel (argp.vars.map withDefault) [] 0 = some (vars1, .ok [])) :
    ∃ r, parseSelf lib fuel argp args = some r ∧ r.err = none ∧ r.rest = []
      ∧ ∀ k x, valueAt vars1 k = some x → x.kind ≠ .Slice .String
          → valueAt r.self.vars k = some x := by
  obtain ⟨vars2, h1, h2⟩ := assignArguments_nil lib argp.cmds vars1
  refine ⟨⟨.mk vars2 argp.cmds, .mk vars2 argp.cmds, [], none⟩, ?_, rfl, rfl, h2⟩
  rw [parseSelf, setDefaults_typed _ hd]
  simp only [hw, h1]

theorem strconv_ParseBool_literals :
    ∀ p ∈ boolLiterals, strconv_ParseBool p.1 = .ok p.2 := by
  intro p hp
  simp only [boolLiterals, List.mem_cons, List.mem_singleton, List.not_mem_nil, or_false] at hp
  rcases hp with rfl | rfl | rfl | rfl | rfl | rfl | rfl | rfl | rfl | rfl | rfl | rfl <;> rfl

/-- C3: for a Boolean option `flag`, `parse` of `--flag` succeeds and binds true, and
for every Go boolean literal `b` (`1`, `t`, `T`, `TRUE`, `true`, `True`, `0`, `f`, `F`,
`FALSE`, `false`, `False`) `parse` of `--flag=b` succeeds and binds the truth value of
`b`; in both cases the unconsumed list is empty. -/
theorem C3_bool_option_and_literals (lib : GoLib) (argp : Argp) (k : Nat) (v : Variable)
    (fuel : Nat) (hc : noDashCmd argp.cmds = true) (hd : defaultsTyped argp.vars = true)
    (hname : findName lib argp.vars ['f', 'l', 'a', 'g'] = some (k, v))
    (hkind : v.Value.kind = .Bool) :
    (∃ r, parse lib (fuel + 1) argp [['-', '-', 'f', 'l', 'a', 'g']] = some r
        ∧ r.err = none ∧ r.rest = [] ∧ valueAt r.self.vars k = some (.bool true))
    ∧ ∀ p ∈ boolLiterals,
        ∃ r, parse lib (fuel + 1) argp [['-', '-', 'f', 'l', 'a', 'g', '='] ++ p.1] = some r
          ∧ r.err = none ∧ r.rest = [] ∧ valueAt r.self.vars k = some (.bool p.2) := by
  obtain ⟨v0, hf0, hs0⟩ := findName_SameShape lib (SameShape_withDefault _ hd) hname
  have hk0 : v0.Value.kind = .Bool := by rw [← hs0.2.2.2.2]; exact hkind
  have hget := (findVar_some (by
    unfold findName at hf0
    simp only [List.cons_ne_nil, if_false] at hf0
    exact hf0)).1
  constructor
  · rw [parse_dash lib _ argp _ _ hc (by rfl)]
    have hw : walk lib [['-', '-', 'f', 'l', 'a', 'g']] (fuel + 1)
        (argp.vars.map withDefault) [] 0
        = some (modifyAt (fun w => { w with Value := .bool true, IsSet := true }) k
            (argp.vars.map withDefault), .ok []) := by
      rw [walk_step lib _ fuel _ _ 0 ['-', '-', 'f', 'l', 'a', 'g'] (by simp),
        body_long lib _ _ _ 0 ['f', 'l', 'a', 'g'] (by simp) (by decide)]
      simp only [hf0, List.drop_succ_cons, List.drop_nil, Nat.zero_add, List.drop_zero,
        scanVar_bool_nil lib v0.Value _ hk0]
      rw [walk_end]
      simp
    obtain ⟨r, hr, he, hrest, hval⟩ := parseSelf_of_walk lib _ argp _ _ hd hw
    refine ⟨r, hr, he, hrest, hval k _ ?_ (by simp [Value.kind])⟩
    rw [valueAt_modifyAt_self _ _ _ _ hget]
  · intro p hp
    have hlit := strconv_ParseBool_literals p hp
    have hne : p.1 ≠ [] := by
      intro h
      rw [h] at hlit
      simp [strconv_ParseBool] at hlit
    rw [parse_dash lib _ argp _ _ hc (by rfl)]
    have hw : walk lib [['-', '-', 'f', 'l', 'a', 'g', '='] ++ p.1] (fuel + 1)
        (argp.vars.map withDefault) [] 0
        = some (modifyAt (fun w => { w with Value := .bool p.2, IsSet := true }) k
            (argp.vars.map withDefault), .ok []) := by
      rw [walk_step lib _ fuel _ _ 0 (['-', '-', 'f', 'l', 'a', 'g', '='] ++ p.1) (by simp)]
      have := body_long_eq lib [['-', '-', 'f', 'l', 'a', 'g', '='] ++ p.1]
        (argp.vars.map withDefault) [] 0 ['f', 'l', 'a', 'g'] p.1 hne (by decide)
      simp only [List.cons_append, List.nil_append] at this ⊢
      rw [this]
      simp only [hf0, List.drop_succ_cons, List.drop_nil, Nat.zero_add, List.drop_zero,
        scanVar_bool_ok lib v0.Value _ _ _ _ hk0 hlit]
      rw [walk_end]
      simp
    obtain ⟨r, hr, he, hrest, hval⟩ := parseSelf_of_walk lib _ argp _ _ hd hw
    refine ⟨r, hr, he, hrest, hval k _ ?_ (by simp [Value.kind])⟩
    rw [valueAt_modifyAt_self _ _ _ _ hget]

theorem optionsCmd_registered : registerOptionsCmd GoLib.basic = some optionsCmd := by
  rfl

/-- C3 at a concrete input: the command `optionsCmd`, where `--flag` is the variable at
position 1. -/
theorem C3_witness :
    (∃ r, parse GoLib.basic 1 optionsCmd [['-', '-', 'f', 'l', 'a', 'g']] = some r
        ∧ r.err = none ∧ r.rest = [] ∧ valueAt r.self.vars 1 = some (.bool true))
    ∧ ∀ p ∈ boolLiterals,
        ∃ r, parse GoLib.basic 1 optionsCmd [['-', '-', 'f', 'l', 'a', 'g', '='] ++ p.1] = some r
          ∧ r.err = none ∧ r.rest = [] ∧ valueAt r.self.vars 1 = some (.bool p.2) :=
  C3_bool_option_and_literals GoLib.basic optionsCmd 1
    (optionVar (.bool false) (Char.ofNat 0) ['f', 'l', 'a', 'g']) 0 (by decide) (by decide)
    (by rfl) (by rfl)

/-- C7 at a concrete input: tokens that look like options and an empty token after `--`. -/
theorem C7_witness :
    noDashCmd optionsCmd.cmds = true ∧ defaultsTyped optionsCmd.vars = true
      ∧ (∀ v ∈ optionsCmd.vars, v.IsArgument = false)
      ∧ parse GoLib.basic 1 optionsCmd [['-', '-'], ['-', 'a'], [], ['-', '-', 'x'], ['y']]
        = some ⟨.mk (optionsCmd.vars.map withDefault) optionsCmd.cmds,
            .mk (optionsCmd.vars.map withDefault) optionsCmd.cmds,
            [['-', 'a'], [], ['-', '-', 'x'], ['y']], none⟩ :=
  ⟨by decide, by decide, by decide,
    C7_terminator_returns_rest GoLib.basic optionsCmd _ 0 (by decide) (by decide) (by decide)⟩

/-! ## Lemmas: short option tokens -/

/-- The body of the token loop on a short option token `-c...`. -/
theorem body_short (lib : GoLib) (args : List Str) (vars : List Variable) (rest : List Str)
    (i : Nat) (c : Char) (cs : List Char) (hc : c ≠ '-') :
    body lib args vars rest i ('-' :: c :: cs) =
      match shortLoop lib (args.drop (i + 1)) vars (c :: cs) with
      | (vars1, .error err) => .fail vars1 err
      | (vars1, .ok n) => .next vars1 rest ((i : Int) + n) := by
  have h1 : ('-' :: c :: cs) ≠ ['-', '-'] := by simp [hc]
  have h2 : 1 < ('-' :: c :: cs).length := by simp
  have h3 : ¬ (('-' :: c :: cs)[1]? = some '-') := by simp [hc]
  simp only [body, h1, if_false, h2, true_and, List.head?_cons, if_true, h3]
  simp

/-- A Boolean short option in a cluster whose remainder is no boolean literal: the
option becomes true and the loop goes on with the remainder. -/
theorem shortLoop_bool (lib : GoLib) (vars : List Variable) (x : Char) (cs : List Char)
    (k : Nat) (v : Variable) (hf : findShort vars x = some (k, v)) (hk : v.Value.kind = .Bool)
    (he : cs.head? ≠ some '=') (hb : ∀ b, strconv_ParseBool cs ≠ .ok b) :
    shortLoop lib [] vars (x :: cs)
      = shortLoop lib [] (modifyAt (fun w => { w with Value := .bool true }) k vars) cs := by
  rw [shortLoop]
  simp only [hf, he, decide_False, Bool.false_eq_true, if_false]
  cases cs with
  | nil => simp [scanVar_bool_nil lib v.Value _ hk]
  | cons c cs => simp [scanVar_bool_fallback lib v.Value _ _ _ hk hb]

/-- An integer short option with the literal glued to it, `-c5`. -/
theorem shortLoop_int_glued (lib : GoLib) (tail : List Str) (vars : List Variable) (x : Char)
    (d : Str) (n : Int) (k : Nat) (v : Variable) (hf : findShort vars x = some (k, v))
    (hk : v.Value.kind = .Int 64) (hd : strconv_ParseInt d = .ok n) :
    shortLoop lib tail vars (x :: d)
      = (modifyAt (fun w => { w with Value := .int 64 n }) k vars, .ok 0) := by
  obtain ⟨c, cs, rfl, hc⟩ := strconv_ParseInt_head hd
  rw [shortLoop]
  simp [hf, hc, scanVar_int lib v.Value _ _ _ n hk hd]

/-- An integer short option with the literal after `=`, `-c=5`. -/
theorem shortLoop_int_eq (lib : GoLib) (tail : List Str) (vars : List Variable) (x : Char)
    (d : Str) (n : Int) (k : Nat) (v : Variable) (hf : findShort vars x = some (k, v))
    (hk : v.Value.kind = .Int 64) (hd : strconv_ParseInt d = .ok n) :
    shortLoop lib tail vars (x :: '=' :: d)
      = (modifyAt (fun w => { w with Value := .int 64 n }) k vars, .ok 0) := by
  obtain ⟨c, cs, rfl, hc⟩ := strconv_ParseInt_head hd
  rw [shortLoop]
  simp [hf, scanVar_int lib v.Value _ _ _ n hk hd]

/-- An integer short option with the literal in the next token, `-c 5`. -/
theorem shortLoop_int_next (lib : GoLib) (tail : List Str) (vars : List Variable) (x : Char)
    (d : Str) (n : Int) (k : Nat) (v : Variable) (hf : findShort vars x = some (k, v))
    (hk : v.Value.kind = .Int 64) (hd : strconv_ParseInt d = .ok n) :
    shortLoop lib (d :: tail) vars [x]
      = (modifyAt (fun w => { w with Value := .int 64 n }) k vars, .ok 1) := by
  rw [shortLoop]
  simp [hf, scanVar_int lib v.Value _ _ _ n hk hd]

/-- From the end of the token loop to the result of `parse`, for one option written at
position `k`. -/
theorem parse_of_walk_value (lib : GoLib) (fuel : Nat) (argp : Argp) (a : Str) (t : List Str)
    (f : Variable → Variable) (k : Nat) (v0 : Variable) (x : Value)
    (hc : noDashCmd argp.cmds = true) (hd : defaultsTyped argp.vars = true)
    (ha : a.head? = some '-')
    (hw : walk lib (a :: t) fuel (argp.vars.map withDefault) [] 0
      = some (modifyAt f k (argp.vars.map withDefault), .ok []))
    (hget : (argp.vars.map withDefault)[k]? = some v0) (hx : (f v0).Value = x)
    (hkind : x.kind ≠ .Slice .String) :
    ∃ r, parse lib fuel argp (a :: t) = some r ∧ r.err = none ∧ r.rest = []
      ∧ valueAt r.self.vars k = some x := by
  rw [parse_dash lib _ argp _ _ hc ha]
  obtain ⟨r, hr, he, hrest, hval⟩ := parseSelf_of_walk lib _ argp _ _ hd hw
  refine ⟨r, hr, he, hrest, hval k _ ?_ hkind⟩
  rw [valueAt_modifyAt_self _ _ _ _ hget, hx]

/-- C1: for an integer option with long name `c` and short name `c`, and for every
base-10 literal `d` of a signed 64-bit integer with value `n`, `parse` of each of
`["--c", d]`, `["--c=" + d]`, `["-c", d]`, `["-c=" + d]` and `["-c" + d]` succeeds, binds
the option to `n` and returns an empty unconsumed list: the five forms give the same
bound value and the same leftover tokens. -/
theorem C1_five_forms_bind_same_value (lib : GoLib) (argp : Argp) (k : Nat) (v : Variable)
    (d : Str) (n : Int) (fuel : Nat)
    (hc : noDashCmd argp.cmds = true) (hd : defaultsTyped argp.vars = true)
    (hname : findName lib argp.vars ['c'] = some (k, v))
    (hshort : findShort argp.vars 'c' = some (k, v))
    (hkind : v.Value.kind = .Int 64) (hlit : strconv_ParseInt d = .ok n) :
    ∀ args ∈ [[['-', '-', 'c'], d], [['-', '-', 'c', '='] ++ d], [['-', 'c'], d],
        [['-', 'c', '='] ++ d], [['-', 'c'] ++ d]],
      ∃ r, parse lib (fuel + 1) argp args = some r ∧ r.err = none ∧ r.rest = []
        ∧ valueAt r.self.vars k = some (.int 64 n) := by
  have hsh := SameShape_withDefault _ hd
  obtain ⟨v0, hf0, hs0⟩ := findName_SameShape lib hsh hname
  obtain ⟨v1, hf1, hs1⟩ := findShort_SameShape hsh hshort
  have hk0 : v0.Value.kind = .Int 64 := by rw [← hs0.2.2.2.2]; exact hkind
  have hk1 : v1.Value.kind = .Int 64 := by rw [← hs1.2.2.2.2]; exact hkind
  have hget := (findVar_some hf1).1
  obtain ⟨c0, cs0, hd0, hc0⟩ := strconv_ParseInt_head hlit
  have hdne : d ≠ [] := by rw [hd0]; simp
  intro args hargs
  simp only [List.mem_cons, List.mem_singleton, List.not_mem_nil, or_false] at hargs
  rcases hargs with rfl | rfl | rfl | rfl | rfl
  · refine parse_of_walk_value lib _ argp _ _
      (fun w => { w with Value := .int 64 n, IsSet := true }) k v1 _ hc hd (by rfl) ?_ hget rfl
      (by simp [Value.kind])
    rw [walk_step lib _ fuel _ _ 0 ['-', '-', 'c'] (by simp),
      body_long lib _ _ _ 0 ['c'] (by simp) (by decide)]
    simp only [hf0, List.drop_succ_cons, List.drop_nil, Nat.zero_add, List.drop_zero,
      scanVar_int lib v0.Value _ _ _ n hk0 hlit]
    rw [walk_end]
    simp
  · refine parse_of_walk_value lib _ argp _ _
      (fun w => { w with Value := .int 64 n, IsSet := true }) k v1 _ hc hd (by rfl) ?_ hget rfl
      (by simp [Value.kind])
    rw [walk_step lib _ fuel _ _ 0 (['-', '-', 'c', '='] ++ d) (by simp)]
    have := body_long_eq lib [['-', '-', 'c', '='] ++ d]
      (argp.vars.map withDefault) [] 0 ['c'] d hdne (by decide)
    simp only [List.cons_append, List.nil_append] at this ⊢
    rw [this]
    simp only [hf0, List.drop_succ_cons, List.drop_nil, Nat.zero_add, List.drop_zero,
      scanVar_int lib v0.Value _ _ _ n hk0 hlit]
    rw [walk_end]
    simp
  · refine parse_of_walk_value lib _ argp _ _
      (fun w => { w with Value := .int 64 n }) k v1 _ hc hd (by rfl) ?_ hget rfl
      (by simp [Value.kind])
    rw [walk_step lib _ fuel _ _ 0 ['-', 'c'] (by simp),
      body_short lib _ _ _ 0 'c' [] (by decide)]
    simp only [Nat.zero_add, List.drop_succ_cons, List.drop_zero,
      shortLoop_int_next lib [] _ 'c' d n k v1 hf1 hk1 hlit]
    rw [walk_end]
    simp
  · refine parse_of_walk_value lib _ argp _ _
      (fun w => { w with Value := .int 64 n }) k v1 _ hc hd (by rfl) ?_ hget rfl
      (by simp [Value.kind])
    rw [walk_step lib _ fuel _ _ 0 (['-', 'c', '='] ++ d) (by simp)]
    have := body_short lib [['-', 'c', '='] ++ d] (argp.vars.map withDefault) [] 0 'c' ('=' :: d)
      (by decide)
    simp only [List.cons_append, List.nil_append] at this ⊢
    rw [this]
    simp only [Nat.zero_add, List.drop_succ_cons, List.drop_zero,
      shortLoop_int_eq lib [] _ 'c' d n k v1 hf1 hk1 hlit]
    rw [walk_end]
    simp
  · refine parse_of_walk_value lib _ argp _ _
      (fun w => { w with Value := .int 64 n }) k v1 _ hc hd (by rfl) ?_ hget rfl
      (by simp [Value.kind])
    rw [walk_step lib _ fuel _ _ 0 (['-', 'c'] ++ d) (by simp)]
    have := body_short lib [['-', 'c'] ++ d] (argp.vars.map withDefault) [] 0 'c' d (by decide)
    simp only [List.cons_append, List.nil_append] at this ⊢
    rw [this]
    simp only [Nat.zero_add, List.drop_succ_cons, List.drop_zero,
      shortLoop_int_glued lib [] _ 'c' d n k v1 hf1 hk1 hlit]
    rw [walk_end]
    simp

/-- C1 at a concrete input: the option `-c, --c` of `optionsCmd` (position 4) and the
literal `-5`. -/
theorem C1_witness :
    strconv_ParseInt ['-', '5'] = .ok (-5)
    ∧ (∃ r, parse GoLib.basic 1 optionsCmd [['-', '-', 'c'], ['-', '5']] = some r
        ∧ r.err = none ∧ r.rest = [] ∧ valueAt r.self.vars 4 = some (.int 64 (-5)))
    ∧ (∃ r, parse GoLib.basic 1 optionsCmd [['-', '-', 'c', '='] ++ ['-', '5']] = some r
        ∧ r.err = none ∧ r.rest = [] ∧ valueAt r.self.vars 4 = some (.int 64 (-5)))
    ∧ (∃ r, parse GoLib.basic 1 optionsCmd [['-', 'c'], ['-', '5']] = some r
        ∧ r.err = none ∧ r.rest = [] ∧ valueAt r.self.vars 4 = some (.int 64 (-5)))
    ∧ (∃ r, parse GoLib.basic 1 optionsCmd [['-', 'c', '='] ++ ['-', '5']] = some r
        ∧ r.err = none ∧ r.rest = [] ∧ valueAt r.self.vars 4 = some (.int 64 (-5)))
    ∧ (∃ r, parse GoLib.basic 1 optionsCmd [['-', 'c'] ++ ['-', '5']] = some r
        ∧ r.err = none ∧ r.rest = [] ∧ valueAt r.self.vars 4 = some (.int 64 (-5))) :=
  have h := C1_five_forms_bind_same_value GoLib.basic optionsCmd 4 (optionVar (.int 64 0) 'c' ['c'])
    ['-', '5'] (-5) 0 (by decide) (by decide) (by rfl) (by rfl) (by rfl) (by rfl)
  ⟨by rfl, h _ (by simp), h _ (by simp), h _ (by simp), h _ (by simp), h _ (by simp)⟩

/-! ## The token loop on `--flag=x` for a Boolean option and an `x` that is no literal -/

/-- A pass that ends with the cursor one below where it started is repeated for ever:
the token loop does not end within any number of passes. -/
theorem walk_never_ends (lib : GoLib) (args : List Str) (rest : List Str) (i : Nat) (arg : Str)
    (P : List Variable → Prop) (harg : args[i]? = some arg)
    (hstep : ∀ vars, P vars →
      ∃ vars1, P vars1 ∧ body lib args vars rest i arg = .next vars1 rest ((i : Int) - 1)) :
    ∀ fuel vars, P vars → walk lib args fuel vars rest i = none := by
  intro fuel
  induction fuel with
  | zero =>
    intro vars _
    rw [walk]
    simp only [harg]
  | succ fuel ih =>
    intro vars hP
    obtain ⟨vars1, hP1, hb⟩ := hstep vars hP
    rw [walk_step lib args fuel vars rest i arg harg, hb]
    simp only
    have : ((i : Int) - 1 + 1).toNat = i := by omega
    rw [this]
    exact ih vars1 hP1

/-- The pass of the token loop on `--name=x` for a Boolean option and a value `x` that is
not empty and not a boolean literal: the option becomes true, no error is returned, and
the cursor ends one below where it started (`i += 0; i--`). -/
theorem body_bool_glued_nonliteral (lib : GoLib) (args : List Str) (vars : List Variable)
    (rest : List Str) (i : Nat) (nm x : Str) (k : Nat) (v : Variable)
    (heq : '=' ∉ nm) (hx : x ≠ []) (hb : ∀ b, strconv_ParseBool x ≠ .ok b)
    (hf : findName lib vars nm = some (k, v)) (hk : v.Value.kind = .Bool) :
    body lib args vars rest i ('-' :: '-' :: (nm ++ '=' :: x))
      = .next (modifyAt (fun w => { w with Value := .bool true, IsSet := true }) k vars) rest
          ((i : Int) - 1) := by
  rw [body_long_eq lib args vars rest i nm x hx heq]
  simp only [hf, scanVar_bool_fallback lib v.Value _ _ _ hk hb]
  simp

/-- Writing true to a Boolean option keeps the look-up of its name and its type. -/
theorem findName_boolWrite (lib : GoLib) (vars : List Variable) (nm : Str) (k : Nat)
    (w : Variable) (hw1 : findName lib vars nm = some (k, w)) (hw2 : w.Value.kind = .Bool) :
    ∃ w1, findName lib (modifyAt (fun w => { w with Value := .bool true, IsSet := true }) k vars)
        nm = some (k, w1) ∧ w1.Value.kind = .Bool := by
  have hget : vars[k]? = some w := by
    unfold findName at hw1
    split at hw1
    · simp at hw1
    · exact (findVar_some hw1).1
  obtain ⟨w1, h1, h2⟩ := findName_SameShape lib
    (SameShape_modifyAt (fun w => { w with Value := .bool true, IsSet := true }) k vars
      (fun u hu => ⟨rfl, rfl, rfl, rfl, by
        rw [hget] at hu
        cases hu
        exact hw2⟩)) hw1
  exact ⟨w1, h1, by rw [← h2.2.2.2.2]; exact hw2⟩

/-- For every command with a Boolean option `nm`, and every value `x` that is not empty
and not a boolean literal, `parse` of the single token `--nm=x` does not return, whatever
the number of passes allowed to the token loop. -/
theorem parse_bool_glued_nonliteral (lib : GoLib) (argp : Argp) (nm x : Str) (k : Nat)
    (v : Variable) (hc : noDashCmd argp.cmds = true) (hd : defaultsTyped argp.vars = true)
    (heq : '=' ∉ nm) (hx : x ≠ []) (hb : ∀ b, strconv_ParseBool x ≠ .ok b)
    (hname : findName lib argp.vars nm = some (k, v)) (hkind : v.Value.kind = .Bool)
    (fuel : Nat) :
    parse lib fuel argp ['-' :: '-' :: (nm ++ '=' :: x)] = none := by
  rw [parse_dash lib _ argp _ _ hc (by rfl), parseSelf, setDefaults_typed _ hd]
  obtain ⟨v0, hf0, hs0⟩ := findName_SameShape lib (SameShape_withDefault _ hd) hname
  have hw := walk_never_ends lib ['-' :: '-' :: (nm ++ '=' :: x)] [] 0
    ('-' :: '-' :: (nm ++ '=' :: x))
    (fun vars => ∃ w, findName lib vars nm = some (k, w) ∧ w.Value.kind = .Bool) (by simp)
    (by
      intro vars ⟨w, hw1, hw2⟩
      exact ⟨_, findName_boolWrite lib vars nm k w hw1 hw2,
        body_bool_glued_nonliteral lib _ vars [] 0 nm x k w heq hx hb hw1 hw2⟩)
    fuel (argp.vars.map withDefault) ⟨v0, hf0, by rw [← hs0.2.2.2.2]; exact hkind⟩
  simp only [hw]

/-- C4, at the input `--flag=x` for the command `optionsCmd`: the claim says that `parse`
returns with the option bound to true; in the code the token loop repeats the pass on
this token for ever, so `parse` returns nothing, whatever the number of passes. -/
theorem C4_flag_nonliteral_never_returns :
    ¬ ∃ fuel r, parse GoLib.basic fuel optionsCmd [['-', '-', 'f', 'l', 'a', 'g', '=', 'x']]
      = some r := by
  rintro ⟨fuel, r, h⟩
  have := parse_bool_glued_nonliteral GoLib.basic optionsCmd ['f', 'l', 'a', 'g'] ['x'] 1
    (optionVar (.bool false) (Char.ofNat 0) ['f', 'l', 'a', 'g']) (by decide) (by decide)
    (by decide) (by decide) (by intro b h; simp [strconv_ParseBool] at h) (by rfl) (by rfl) fuel
  simp only [List.cons_append, List.nil_append] at this
  rw [this] at h
  cases h

/-- C2, at the input `--flag=x` for the command `optionsCmd`, whose variables are all of
built-in kinds: the pass of the token loop at cursor 0 ends with the cursor at -1, so
the next pass starts at 0 again, not at a greater cursor; and the loop does not end
within any number of passes. -/
theorem C2_cursor_does_not_advance :
    (∃ vars1 rest1, body GoLib.basic [['-', '-', 'f', 'l', 'a', 'g', '=', 'x']]
        (optionsCmd.vars.map withDefault) [] 0 ['-', '-', 'f', 'l', 'a', 'g', '=', 'x']
          = .next vars1 rest1 (-1))
    ∧ ¬ ∃ fuel res, walk GoLib.basic [['-', '-', 'f', 'l', 'a', 'g', '=', 'x']] fuel
        (optionsCmd.vars.map withDefault) [] 0 = some res := by
  have hb : ∀ b, strconv_ParseBool ['x'] ≠ .ok b := by
    intro b h
    simp [strconv_ParseBool] at h
  constructor
  · exact ⟨_, _, body_bool_glued_nonliteral GoLib.basic _ _ [] 0 ['f', 'l', 'a', 'g'] ['x'] 1
      (optionVar (.bool false) (Char.ofNat 0) ['f', 'l', 'a', 'g']) (by decide) (by decide) hb
      (by rfl) (by rfl)⟩
  · rintro ⟨fuel, res, h⟩
    have hw := walk_never_ends GoLib.basic [['-', '-', 'f', 'l', 'a', 'g', '=', 'x']] [] 0
      ['-', '-', 'f', 'l', 'a', 'g', '=', 'x']
      (fun vars => ∃ w, findName GoLib.basic vars ['f', 'l', 'a', 'g'] = some (1, w)
        ∧ w.Value.kind = .Bool) (by simp)
      (by
        intro vars ⟨w, hw1, hw2⟩
        exact ⟨_, findName_boolWrite GoLib.basic vars _ 1 w hw1 hw2,
          body_bool_glued_nonliteral GoLib.basic _ vars [] 0 ['f', 'l', 'a', 'g'] ['x'] 1 w
            (by decide) (by decide) hb hw1 hw2⟩)
      fuel (optionsCmd.vars.map withDefault)
      ⟨optionVar (.bool false) (Char.ofNat 0) ['f', 'l', 'a', 'g'], by rfl, by rfl⟩
    rw [hw] at h
    cases h

/-! ## Lemmas: decimal literals -/

theorem digitChar_digit (d : Nat) (h : d < 10) :
    ('0' ≤ Nat.digitChar d ∧ Nat.digitChar d ≤ '9') ∧ (Nat.digitChar d).toNat - '0'.toNat = d := by
  interval_cases d <;> decide

theorem digitsValue_le (l : List Char) (acc : Nat) : acc ≤ digitsValue acc l := by
  induction l generalizing acc with
  | nil => simp [digitsValue]
  | cons c cs ih =>
    have := ih (acc * 10 + (c.toNat - '0'.toNat))
    simp only [digitsValue, List.foldl_cons] at this ⊢
    omega

theorem parseUintLoop_digits (l : List Char) (acc : Nat)
    (hd : ∀ c ∈ l, '0' ≤ c ∧ c ≤ '9') (hv : digitsValue acc l < 2 ^ 64) :
    parseUintLoop l acc = (digitsValue acc l, none) := by
  induction l generalizing acc with
  | nil => simp [parseUintLoop, digitsValue]
  | cons c cs ih =>
    have hc := hd c (by simp)
    have hle := digitsValue_le cs (acc * 10 + (c.toNat - '0'.toNat))
    have hv1 : digitsValue (acc * 10 + (c.toNat - '0'.toNat)) cs < 2 ^ 64 := by
      simpa [digitsValue] using hv
    have h1 : ¬ acc ≥ (2 ^ 64 - 1) / 10 + 1 := by omega
    have h2 : ¬ acc * 10 + (c.toNat - '0'.toNat) > 2 ^ 64 - 1 := by omega
    rw [parseUintLoop]
    simp only [hc, and_self, if_true, h1, if_false, h2]
    rw [ih _ (fun c hc => hd c (by simp [hc])) hv1]
    simp [digitsValue]

theorem toDigitsCore_value (fuel : Nat) : ∀ (n : Nat) (ds : List Char), n < fuel →
    digitsValue 0 (Nat.toDigitsCore 10 fuel n ds) = digitsValue n ds := by
  induction fuel with
  | zero => intro n ds h; omega
  | succ fuel ih =>
    intro n ds h
    have hdc := (digitChar_digit (n % 10) (Nat.mod_lt _ (by decide))).2
    simp only [Nat.toDigitsCore]
    split
    · rename_i h0
      have : n % 10 = n := by omega
      simp only [digitsValue, List.foldl_cons, Nat.zero_mul, Nat.zero_add]
      rw [hdc, this]
    · rename_i h0
      rw [ih (n / 10) _ (by omega)]
      simp only [digitsValue, List.foldl_cons, hdc]
      congr 1
      omega

theorem toDigitsCore_digits (fuel : Nat) : ∀ (n : Nat) (ds : List Char),
    (∀ c ∈ ds, '0' ≤ c ∧ c ≤ '9') → ∀ c ∈ Nat.toDigitsCore 10 fuel n ds, '0' ≤ c ∧ c ≤ '9' := by
  induction fuel with
  | zero => intro n ds h; simpa [Nat.toDigitsCore] using h
  | succ fuel ih =>
    intro n ds h
    have hdc := (digitChar_digit (n % 10) (Nat.mod_lt _ (by decide))).1
    have h1 : ∀ c ∈ Nat.digitChar (n % 10) :: ds, '0' ≤ c ∧ c ≤ '9' := by
      intro c hc
      rcases List.mem_cons.mp hc with rfl | hc
      · exact hdc
      · exact h c hc
    simp only [Nat.toDigitsCore]
    split
    · exact h1
    · exact ih _ _ h1

theorem toDigitsCore_ne_nil (fuel : Nat) (n : Nat) (ds : List Char) (h : ds ≠ [] ∨ 0 < fuel) :
    Nat.toDigitsCore 10 fuel n ds ≠ [] := by
  induction fuel generalizing n ds with
  | zero =>
    rcases h with h | h
    · simpa [Nat.toDigitsCore] using h
    · omega
  | succ fuel ih =>
    simp only [Nat.toDigitsCore]
    split
    · simp
    · exact ih _ _ (Or.inl (by simp))

theorem decimal_digits (n : Nat) : ∀ c ∈ decimal n, '0' ≤ c ∧ c ≤ '9' :=
  toDigitsCore_digits _ _ _ (by simp)

theorem decimal_value (n : Nat) : digitsValue 0 (decimal n) = n := by
  have := toDigitsCore_value (n + 1) n [] (by omega)
  simpa [decimal, Nat.toDigits, digitsValue] using this

theorem decimal_cons (n : Nat) : ∃ c cs, decimal n = c :: cs ∧ '0' ≤ c ∧ c ≤ '9' := by
  have hne : decimal n ≠ [] := toDigitsCore_ne_nil _ _ _ (Or.inr (by omega))
  cases h : decimal n with
  | nil => exact absurd h hne
  | cons c cs =>
    have := decimal_digits n c (by simp [h])
    exact ⟨c, cs, rfl, this⟩

/-- The decimal form of a natural number below `2^64` is read back by `ParseUint`. -/
theorem strconv_ParseUint_decimal (n : Nat) (h : n < 2 ^ 64) :
    strconv_ParseUint (decimal n) = (n, none) := by
  obtain ⟨c, cs, hc, _⟩ := decimal_cons n
  have hne : decimal n ≠ [] := by simp [hc]
  rw [strconv_ParseUint]
  simp only [hne, if_false]
  rw [parseUintLoop_digits _ _ (decimal_digits n) (by rw [decimal_value]; exact h), decimal_value]

/-- The decimal form of a natural number below `2^63` is read back by `ParseInt`. -/
theorem strconv_ParseInt_decimal (n : Nat) (h : n < 2 ^ 63) :
    strconv_ParseInt (decimal n) = .ok (n : Int) := by
  obtain ⟨c, cs, hc, hc0, hc9⟩ := decimal_cons n
  have hu := strconv_ParseUint_decimal n (by omega)
  have h1 : c ≠ '+' := by intro e; subst e; exact absurd hc0 (by decide)
  have h2 : c ≠ '-' := by intro e; subst e; exact absurd hc0 (by decide)
  rw [hc] at hu
  rw [hc, strconv_ParseInt]
  simp only [h1, h2, or_self, if_false, hu, decide_False, Bool.not_false, true_and,
    Bool.false_eq_true, false_and]
  have h3 : ¬ n ≥ 2 ^ 63 := by omega
  rw [if_neg h3]

/-- The decimal form of a signed 64-bit integer is read back by `ParseInt`. -/
theorem strconv_ParseInt_decimalInt (i : Int) (h1 : -(2 : Int) ^ 63 ≤ i) (h2 : i < (2 : Int) ^ 63) :
    strconv_ParseInt (decimalInt i) = .ok i := by
  unfold decimalInt
  split
  · rename_i hneg
    have hu := strconv_ParseUint_decimal i.natAbs (by omega)
    unfold decimal at hu
    rw [strconv_ParseInt]
    simp only [true_or, or_true, if_true, hu, decide_True, Bool.not_true, Bool.false_eq_true,
      false_and, if_false, true_and]
    have h3 : ¬ i.natAbs > 2 ^ 63 := by omega
    simp only [h3, if_false]
    congr 1
    omega
  · rename_i hneg
    have := strconv_ParseInt_decimal i.natAbs (by omega)
    unfold decimal at this
    rw [this]
    congr 1
    omega

/-! ## Lemmas: a single token -/

theorem parse_zero_passes (lib : GoLib) (argp : Argp) (a : Str) (t : List Str)
    (hc : noDashCmd argp.cmds = true) (hd : defaultsTyped argp.vars = true)
    (ha : a.head? = some '-') : parse lib 0 argp (a :: t) = none := by
  rw [parse_dash lib _ argp _ _ hc ha, parseSelf, setDefaults_typed _ hd]
  simp [walk]

/-- The result of `parse` on a single option token whose pass returns an error. -/
theorem parse_single_fail (lib : GoLib) (fuel : Nat) (argp : Argp) (a : Str)
    (vars1 : List Variable) (err : Error)
    (hc : noDashCmd argp.cmds = true) (hd : defaultsTyped argp.vars = true)
    (ha : a.head? = some '-')
    (hb : body lib [a] (argp.vars.map withDefault) [] 0 a = .fail vars1 err) :
    parse lib (fuel + 1) argp [a]
      = some ⟨.mk vars1 argp.cmds, .mk vars1 argp.cmds, [], some err⟩ := by
  rw [parse_dash lib _ argp _ _ hc ha, parseSelf, setDefaults_typed _ hd]
  simp only
  rw [walk_step lib _ fuel _ _ 0 a (by simp), hb]

/-- The result of `parse` on a single option token whose pass ends at the cursor 0. -/
theorem parse_single_next (lib : GoLib) (fuel : Nat) (argp : Argp) (a : Str)
    (vars1 : List Variable)
    (hc : noDashCmd argp.cmds = true) (hd : defaultsTyped argp.vars = true)
    (ha : a.head? = some '-')
    (hb : body lib [a] (argp.vars.map withDefault) [] 0 a = .next vars1 [] 0) :
    parse lib (fuel + 1) argp [a] = some (assignArguments lib argp.cmds vars1 []) := by
  rw [parse_dash lib _ argp _ _ hc ha, parseSelf, setDefaults_typed _ hd]
  simp only
  rw [walk_step lib _ fuel _ _ 0 a (by simp), hb]
  simp only
  rw [walk_end lib _ _ _ _ _ (by simp)]

/-- C5 as stated fails at `n = 2^63`, whose decimal form is no literal of a signed
64-bit integer: `parse` of `-abc9223372036854775808` for the command `optionsCmd`
returns the error `strconv.ErrRange`, and never succeeds. -/
theorem C5_counterexample_out_of_range :
    (∃ r, parse GoLib.basic 1 optionsCmd [['-', 'a', 'b', 'c'] ++ decimal (2 ^ 63)] = some r
      ∧ (r.err.map fun e => e.Is .ErrRange) = some true)
    ∧ ¬ ∃ fuel r, parse GoLib.basic fuel optionsCmd [['-', 'a', 'b', 'c'] ++ decimal (2 ^ 63)]
        = some r ∧ r.err = none := by
  have hdec : decimal (2 ^ 63) = ['9', '2', '2', '3', '3', '7', '2', '0', '3', '6', '8', '5',
      '4', '7', '7', '5', '8', '0', '8'] := by decide
  have hb : ∃ vars1 err, body GoLib.basic [['-', 'a', 'b', 'c'] ++ decimal (2 ^ 63)]
      (optionsCmd.vars.map withDefault) [] 0 (['-', 'a', 'b', 'c'] ++ decimal (2 ^ 63))
        = .fail vars1 err ∧ err.Is .ErrRange = true := by
    rw [hdec]
    exact ⟨_, _, rfl, rfl⟩
  obtain ⟨vars1, err, hb1, hb2⟩ := hb
  have hp := fun fuel => parse_single_fail GoLib.basic fuel optionsCmd _ vars1 err (by decide)
    (by decide) (by rfl) hb1
  constructor
  · exact ⟨_, hp 0, by simp [hb2]⟩
  · rintro ⟨fuel, r, h, he⟩
    cases fuel with
    | zero =>
      rw [parse_zero_passes GoLib.basic optionsCmd _ _ (by decide) (by decide) (by rfl)] at h
      cases h
    | succ fuel =>
      rw [hp fuel] at h
      cases h
      cases he

/-! ## Lemmas: clusters of short options -/

theorem findShort_some {vars : List Variable} {x : Char} {k : Nat} {v : Variable}
    (h : findShort vars x = some (k, v)) : vars[k]? = some v ∧ v.Short = x := by
  have := findVar_some h
  refine ⟨this.1, ?_⟩
  have h2 := this.2
  simp only [Bool.and_eq_true, decide_eq_true_eq] at h2
  exact h2.2

theorem findShort_index_ne {vars : List Variable} {x y : Char} {k j : Nat} {v w : Variable}
    (hx : findShort vars x = some (k, v)) (hy : findShort vars y = some (j, w)) (hxy : x ≠ y) :
    k ≠ j := by
  intro e
  subst e
  have h1 := findShort_some hx
  have h2 := findShort_some hy
  rw [h1.1] at h2
  have : v = w := by simpa using h2.1
  subst this
  exact hxy (h1.2.symm.trans h2.2)

theorem SameShape_setValue (x : Value) (k : Nat) (vars : List Variable) (v : Variable)
    (hget : vars[k]? = some v) (hk : x.kind = v.Value.kind) :
    SameShape vars (modifyAt (fun w => { w with Value := x }) k vars) := by
  apply SameShape_modifyAt
  intro u hu
  rw [hget] at hu
  cases hu
  exact ⟨rfl, rfl, rfl, rfl, hk.symm⟩

theorem strconv_ParseBool_not_literal (c : Char) (cs : List Char)
    (hc : c ≠ '1' ∧ c ≠ 't' ∧ c ≠ 'T' ∧ c ≠ '0' ∧ c ≠ 'f' ∧ c ≠ 'F') :
    ∀ b, strconv_ParseBool (c :: cs) ≠ .ok b := by
  intro b h
  obtain ⟨h1, h2, h3, h4, h5, h6⟩ := hc
  simp [strconv_ParseBool, h1, h2, h3, h4, h5, h6] at h

/-- C5, amended: for a command with Boolean short options `a` and `b` and an integer
short option `c`, and for every integer `n` with `0 ≤ n < 2^63` with decimal form `D`,
`parse` of the single cluster token `-abc` followed by `D` succeeds, binds `a = true`,
`b = true` and `c = n`, and returns an empty unconsumed list. -/
theorem C5_cluster_with_glued_integer (lib : GoLib) (argp : Argp) (ka kb kc : Nat)
    (va vb vc : Variable) (n : Nat) (fuel : Nat)
    (hc : noDashCmd argp.cmds = true) (hd : defaultsTyped argp.vars = true)
    (ha : findShort argp.vars 'a' = some (ka, va)) (hka : va.Value.kind = .Bool)
    (hb : findShort argp.vars 'b' = some (kb, vb)) (hkb : vb.Value.kind = .Bool)
    (hcc : findShort argp.vars 'c' = some (kc, vc)) (hkc : vc.Value.kind = .Int 64)
    (hn : n < 2 ^ 63) :
    ∃ r, parse lib (fuel + 1) argp [['-', 'a', 'b', 'c'] ++ decimal n] = some r
      ∧ r.err = none ∧ r.rest = []
      ∧ valueAt r.self.vars ka = some (.bool true)
      ∧ valueAt r.self.vars kb = some (.bool true)
      ∧ valueAt r.self.vars kc = some (.int 64 n) := by
  have hlit := strconv_ParseInt_decimal n hn
  have hsh0 := SameShape_withDefault _ hd
  -- the state after the defaults
  obtain ⟨va0, hfa0, hsa0⟩ := findShort_SameShape hsh0 ha
  obtain ⟨vb0, hfb0, hsb0⟩ := findShort_SameShape hsh0 hb
  obtain ⟨vc0, hfc0, hsc0⟩ := findShort_SameShape hsh0 hcc
  have hka0 : va0.Value.kind = .Bool := by rw [← hsa0.2.2.2.2]; exact hka
  have hab : ka ≠ kb := findShort_index_ne hfa0 hfb0 (by decide)
  have hac : ka ≠ kc := findShort_index_ne hfa0 hfc0 (by decide)
  have hbc : kb ≠ kc := findShort_index_ne hfb0 hfc0 (by decide)
  -- after `a`
  have hsh1 := SameShape_setValue (.bool true) ka _ va0 (findShort_some hfa0).1 hka0.symm
  obtain ⟨vb1, hfb1, hsb1⟩ := findShort_SameShape hsh1 hfb0
  obtain ⟨vc1, hfc1, hsc1⟩ := findShort_SameShape hsh1 hfc0
  have hkb1 : vb1.Value.kind = .Bool := by rw [← hsb1.2.2.2.2, ← hsb0.2.2.2.2]; exact hkb
  -- after `b`
  have hsh2 := SameShape_setValue (.bool true) kb _ vb1 (findShort_some hfb1).1 hkb1.symm
  obtain ⟨vc2, hfc2, hsc2⟩ := findShort_SameShape hsh2 hfc1
  have hkc2 : vc2.Value.kind = .Int 64 := by
    rw [← hsc2.2.2.2.2, ← hsc1.2.2.2.2, ← hsc0.2.2.2.2]; exact hkc
  have hw : walk lib [['-', 'a', 'b', 'c'] ++ decimal n] (fuel + 1)
      (argp.vars.map withDefault) [] 0
      = some (modifyAt (fun w => { w with Value := .int 64 n }) kc
          (modifyAt (fun w => { w with Value := .bool true }) kb
            (modifyAt (fun w => { w with Value := .bool true }) ka
              (argp.vars.map withDefault))), .ok []) := by
    rw [walk_step lib _ fuel _ _ 0 (['-', 'a', 'b', 'c'] ++ decimal n) (by simp)]
    have hbody := body_short lib [['-', 'a', 'b', 'c'] ++ decimal n]
      (argp.vars.map withDefault) [] 0 'a' ('b' :: 'c' :: decimal n) (by decide)
    simp only [List.cons_append, List.nil_append] at hbody ⊢
    rw [hbody]
    simp only [Nat.zero_add, List.drop_succ_cons, List.drop_zero]
    rw [shortLoop_bool lib _ 'a' _ ka va0 hfa0 hka0 (by simp)
        (strconv_ParseBool_not_literal 'b' _ (by decide)),
      shortLoop_bool lib _ 'b' _ kb vb1 hfb1 hkb1 (by simp)
        (strconv_ParseBool_not_literal 'c' _ (by decide)),
      shortLoop_int_glued lib [] _ 'c' (decimal n) n kc vc2 hfc2 hkc2 hlit]
    simp only
    rw [walk_end]
    simp
  rw [parse_dash lib _ argp _ _ hc (by rfl)]
  obtain ⟨r, hr, he, hrest, hval⟩ := parseSelf_of_walk lib _ argp _ _ hd hw
  refine ⟨r, hr, he, hrest, ?_, ?_, ?_⟩
  · apply hval ka _ _ (by simp [Value.kind])
    rw [valueAt_modifyAt, if_neg hac, valueAt_modifyAt, if_neg hab,
      valueAt_modifyAt_self _ _ _ _ (findShort_some hfa0).1]
  · apply hval kb _ _ (by simp [Value.kind])
    rw [valueAt_modifyAt, if_neg hbc, valueAt_modifyAt_self _ _ _ _ (findShort_some hfb1).1]
  · apply hval kc _ _ (by simp [Value.kind])
    rw [valueAt_modifyAt_self _ _ _ _ (findShort_some hfc2).1]

/-- C5, amended, at a concrete input: `-abc5` for the command `optionsCmd`. -/
theorem C5_witness :
    (5 : Nat) < 2 ^ 63 ∧ decimal 5 = ['5']
    ∧ ∃ r, parse GoLib.basic 1 optionsCmd [['-', 'a', 'b', 'c'] ++ decimal 5] = some r
      ∧ r.err = none ∧ r.rest = []
      ∧ valueAt r.self.vars 2 = some (.bool true)
      ∧ valueAt r.self.vars 3 = some (.bool true)
      ∧ valueAt r.self.vars 4 = some (.int 64 (5 : Nat)) :=
  ⟨by decide, by decide,
    C5_cluster_with_glued_integer GoLib.basic optionsCmd 2 3 4 (optionVar (.bool false) 'a' ['a'])
      (optionVar (.bool false) 'b' ['b']) (optionVar (.int 64 0) 'c' ['c']) 5 0 (by decide)
      (by decide) (by rfl) (by rfl) (by rfl) (by rfl) (by rfl) (by rfl) (by decide)⟩

theorem isValidName_single (lib : GoLib) (x : Char) (h : isValidName lib [x] = true) :
    x ≠ '-' ∧ x ≠ '=' := by
  constructor
  · intro e
    subst e
    revert h
    simp [isValidName, isValidNameFrom, unicode_IsLetter, unicode_IsNumber]
  · intro e
    subst e
    revert h
    simp [isValidName, isValidNameFrom, unicode_IsLetter, unicode_IsNumber]

theorem valueAt_setValue_keep (x : Value) (k j : Nat) (vars : List Variable)
    (h : valueAt vars j = some x) :
    valueAt (modifyAt (fun w => { w with Value := x }) k vars) j = some x := by
  rw [valueAt_modifyAt]
  split
  · unfold valueAt at h
    cases hv : vars[j]? with
    | none => simp [hv] at h
    | some u => simp
  · exact h

/-- The loop over a cluster of Boolean short options in which no remainder is a boolean
literal: every option of the cluster becomes true and nothing is added to the cursor. -/
theorem shortLoop_bool_cluster (lib : GoLib) (cs : List Char) :
    ∀ vars : List Variable,
      (∀ x ∈ cs, x ≠ '=' ∧ ∃ k v, findShort vars x = some (k, v) ∧ v.Value.kind = .Bool) →
      (∀ i, i < cs.length → ∀ b, strconv_ParseBool (cs.drop (i + 1)) ≠ .ok b) →
      ∃ vars1, shortLoop lib [] vars cs = (vars1, .ok 0) ∧ SameShape vars vars1
        ∧ (∀ x ∈ cs, ∀ k v, findShort vars x = some (k, v) → valueAt vars1 k = some (.bool true))
        ∧ (∀ k, valueAt vars k = some (.bool true) → valueAt vars1 k = some (.bool true)) := by
  induction cs with
  | nil =>
    intro vars _ _
    exact ⟨vars, by rw [shortLoop], SameShape_refl vars, by simp, fun k h => h⟩
  | cons x cs ih =>
    intro vars hreg hsuf
    obtain ⟨hxe, k, v, hf, hk⟩ := hreg x (by simp)
    have hhead : cs.head? ≠ some '=' := by
      cases cs with
      | nil => simp
      | cons y ys =>
        have := (hreg y (by simp)).1
        simpa using this
    have hget := (findShort_some hf).1
    have hsh := SameShape_setValue (.bool true) k vars v hget hk.symm
    rw [shortLoop_bool lib vars x cs k v hf hk hhead (by simpa using hsuf 0 (by simp))]
    obtain ⟨vars1, h1, h2, h3, h4⟩ := ih (modifyAt (fun w => { w with Value := .bool true }) k vars)
      (by
        intro y hy
        obtain ⟨hye, ky, vy, hfy, hky⟩ := hreg y (by simp [hy])
        obtain ⟨wy, hwy, hsy⟩ := findShort_SameShape hsh hfy
        exact ⟨hye, ky, wy, hwy, by rw [← hsy.2.2.2.2]; exact hky⟩)
      (by
        intro i hi b
        have := hsuf (i + 1) (by simp; omega) b
        simpa using this)
    refine ⟨vars1, h1, SameShape_trans hsh h2, ?_, ?_⟩
    · intro y hy ky vy hfy
      rcases List.mem_cons.mp hy with rfl | hy
      · rw [hf] at hfy
        cases hfy
        exact h4 k (valueAt_modifyAt_self _ _ _ _ hget)
      · obtain ⟨wy, hwy, _⟩ := findShort_SameShape hsh hfy
        exact h3 y hy ky wy hwy
    · intro j hj
      exact h4 j (valueAt_setValue_keep _ _ _ _ hj)

/-- C6, amended: for every command and every cluster token `-x1x2...xk` (`k ≥ 1`) of
registered short names (valid names, as `AddOpt` requires) that all belong to Boolean
options, such that no remainder `x(i+1)...xk` after one of its options is a Go boolean
literal, `parse` of that single token succeeds and binds every one of the `k` options to
true, with an empty unconsumed list. -/
theorem C6_bool_cluster_all_true (lib : GoLib) (argp : Argp) (xs : List Char) (fuel : Nat)
    (hc : noDashCmd argp.cmds = true) (hd : defaultsTyped argp.vars = true)
    (hne : xs ≠ [])
    (hvalid : ∀ x ∈ xs, isValidName lib [x] = true)
    (hreg : ∀ x ∈ xs, ∃ k v, findShort argp.vars x = some (k, v) ∧ v.Value.kind = .Bool)
    (hsuf : ∀ i, i < xs.length → ∀ b, strconv_ParseBool (xs.drop (i + 1)) ≠ .ok b) :
    ∃ r, parse lib (fuel + 1) argp ['-' :: xs] = some r ∧ r.err = none ∧ r.rest = []
      ∧ ∀ x ∈ xs, ∀ k v, findShort argp.vars x = some (k, v)
          → valueAt r.self.vars k = some (.bool true) := by
  have hsh0 := SameShape_withDefault _ hd
  obtain ⟨vars1, h1, _, h3, _⟩ := shortLoop_bool_cluster lib xs (argp.vars.map withDefault)
    (by
      intro x hx
      obtain ⟨k, v, hf, hk⟩ := hreg x hx
      obtain ⟨w, hw, hs⟩ := findShort_SameShape hsh0 hf
      exact ⟨(isValidName_single lib x (hvalid x hx)).2, k, w, hw, by
        rw [← hs.2.2.2.2]; exact hk⟩)
    hsuf
  cases xs with
  | nil => exact absurd rfl hne
  | cons x cs =>
    have hx := (isValidName_single lib x (hvalid x (by simp))).1
    have hw : walk lib ['-' :: x :: cs] (fuel + 1) (argp.vars.map withDefault) [] 0
        = some (vars1, .ok []) := by
      rw [walk_step lib _ fuel _ _ 0 ('-' :: x :: cs) (by simp),
        body_short lib _ _ _ 0 x cs hx]
      simp only [Nat.zero_add, List.drop_succ_cons, List.drop_zero, h1]
      rw [walk_end]
      simp
    rw [parse_dash lib _ argp _ _ hc (by rfl)]
    obtain ⟨r, hr, he, hrest, hval⟩ := parseSelf_of_walk lib _ argp _ _ hd hw
    refine ⟨r, hr, he, hrest, ?_⟩
    intro y hy k v hf
    obtain ⟨w, hw0, _⟩ := findShort_SameShape hsh0 hf
    exact hval k _ (h3 y hy k w hw0) (by simp [Value.kind])

/-- C6, amended, at a concrete input: `-ab` for the command `optionsCmd`. -/
theorem C6_witness :
    ∃ r, parse GoLib.basic 1 optionsCmd [['-', 'a', 'b']] = some r ∧ r.err = none ∧ r.rest = []
      ∧ ∀ x ∈ ['a', 'b'], ∀ k v, findShort optionsCmd.vars x = some (k, v)
          → valueAt r.self.vars k = some (.bool true) :=
  C6_bool_cluster_all_true GoLib.basic optionsCmd ['a', 'b'] 0 (by decide) (by decide)
    (by decide) (by decide)
    (by
      intro x hx
      simp only [List.mem_cons, List.mem_singleton, List.not_mem_nil, or_false] at hx
      rcases hx with rfl | rfl
      · exact ⟨2, _, rfl, rfl⟩
      · exact ⟨3, _, rfl, rfl⟩)
    (by
      intro i hi b
      have : i = 0 ∨ i = 1 := by simp at hi; omega
      rcases this with rfl | rfl <;> intro h <;> simp [strconv_ParseBool] at h)

/-- C6 as stated fails for the distinct Boolean short options `a` and `f` of
`optionsCmd`: `parse` of `-af` succeeds, but reads `f` as the value of `a`, so `a` is
bound to false and `f` is left at false; no run of `parse` binds `a` to true. -/
theorem C6_counterexample_literal_remainder :
    (∃ r, parse GoLib.basic 1 optionsCmd [['-', 'a', 'f']] = some r ∧ r.err = none
      ∧ valueAt r.self.vars 2 = some (.bool false) ∧ valueAt r.self.vars 5 = some (.bool false))
    ∧ ¬ ∃ fuel r, parse GoLib.basic fuel optionsCmd [['-', 'a', 'f']] = some r
        ∧ valueAt r.self.vars 2 = some (.bool true) := by
  have hb : ∃ vars1, body GoLib.basic [['-', 'a', 'f']] (optionsCmd.vars.map withDefault) [] 0
      ['-', 'a', 'f'] = .next vars1 [] 0
      ∧ (assignArguments GoLib.basic optionsCmd.cmds vars1 []).err = none
      ∧ valueAt (assignArguments GoLib.basic optionsCmd.cmds vars1 []).self.vars 2
          = some (.bool false)
      ∧ valueAt (assignArguments GoLib.basic optionsCmd.cmds vars1 []).self.vars 5
          = some (.bool false) := ⟨_, rfl, rfl, rfl, rfl⟩
  obtain ⟨vars1, hb1, hb2, hb3, hb4⟩ := hb
  have hp := fun fuel => parse_single_next GoLib.basic fuel optionsCmd _ vars1 (by decide)
    (by decide) (by rfl) hb1
  constructor
  · exact ⟨_, hp 0, hb2, hb3, hb4⟩
  · rintro ⟨fuel, r, h, hv⟩
    cases fuel with
    | zero =>
      rw [parse_zero_passes GoLib.basic optionsCmd _ _ (by decide) (by decide) (by rfl)] at h
      cases h
    | succ fuel =>
      rw [hp fuel] at h
      cases h
      rw [hb3] at hv
      cases hv

/-! ## Lemmas: indexed arguments -/

theorem findIndex_some {vars : List Variable} {i : Int} {k : Nat} {v : Variable}
    (h : findIndex vars i = some (k, v)) : vars[k]? = some v ∧ v.Index = i := by
  have := findVar_some h
  exact ⟨this.1, by simpa using this.2⟩

/-- The loop "indexed arguments" over tokens that all go to text positionals: the
positionals from `j` to `K - 1` receive the tokens in order, the other variables are
left as they are, and the loop ends with `index = K`. -/
theorem indexed_text (lib : GoLib) (K : Nat) (ts : List Str) :
    ∀ (j : Nat) (vars : List Variable), j ≤ K → K ≤ j + ts.length →
      (∀ i, j ≤ i → i < K → ∃ p v, findIndex vars (i : Nat) = some (p, v)
        ∧ v.Value.kind = .String) →
      findIndex vars (K : Nat) = none →
      ∃ vars1, indexed lib vars ts j = (vars1, .ok K) ∧ SameShape vars vars1
        ∧ (∀ i, j ≤ i → i < K → ∀ p v, findIndex vars (i : Nat) = some (p, v)
            → valueAt vars1 p = (ts[i - j]?).map Value.str)
        ∧ (∀ p, (∀ i, j ≤ i → i < K → ∀ v, findIndex vars (i : Nat) ≠ some (p, v))
            → vars1[p]? = vars[p]?) := by
  induction ts with
  | nil =>
    intro j vars hj hK _ _
    have : j = K := by simp at hK; omega
    subst this
    exact ⟨vars, indexed_nil lib vars j, SameShape_refl vars, fun i h1 h2 => by omega,
      fun p _ => rfl⟩
  | cons t ts ih =>
    intro j vars hj hK hpos hnone
    by_cases hjK : j = K
    · subst hjK
      exact ⟨vars, indexed_none lib vars _ j hnone, SameShape_refl vars,
        fun i h1 h2 => by omega, fun p _ => rfl⟩
    · have hlt : j < K := by omega
      obtain ⟨p, v, hf, hk⟩ := hpos j (Nat.le_refl j) hlt
      have hget := (findIndex_some hf).1
      have hsh : SameShape vars
          (modifyAt (fun w => { w with Value := .str t, IsSet := true }) p vars) := by
        apply SameShape_modifyAt
        intro u hu
        rw [hget] at hu
        cases hu
        exact ⟨rfl, rfl, rfl, rfl, hk⟩
      obtain ⟨vars1, h1, h2, h3, h4⟩ := ih (j + 1)
        (modifyAt (fun w => { w with Value := .str t, IsSet := true }) p vars) (by omega)
        (by simp at hK ⊢; omega)
        (by
          intro i hi1 hi2
          obtain ⟨q, w, hfq, hkq⟩ := hpos i (by omega) hi2
          obtain ⟨w1, hw1, hs1⟩ := findIndex_SameShape hsh hfq
          exact ⟨q, w1, hw1, by rw [← hs1.2.2.2.2]; exact hkq⟩)
        (findIndex_SameShape_none hsh hnone)
      refine ⟨vars1, ?_, SameShape_trans hsh h2, ?_, ?_⟩
      · rw [indexed]
        simp only [hf, scanVar_str lib v.Value _ _ _ hk]
        exact h1
      · intro i hi1 hi2 q w hfq
        by_cases hij : i = j
        · subst hij
          rw [hf] at hfq
          cases hfq
          have hfr : vars1[p]? = (modifyAt (fun w => { w with Value := .str t, IsSet := true })
              p vars)[p]? := by
            apply h4
            intro i' hi1' hi2' w' hfw'
            obtain ⟨p', v', hf', _⟩ := hpos i' (by omega) hi2'
            obtain ⟨w1, hw1, _⟩ := findIndex_SameShape hsh hf'
            rw [hw1] at hfw'
            cases hfw'
            have e1 := (findIndex_some hf').2
            have e2 := (findIndex_some hf).2
            rw [(findIndex_some hf').1] at hget
            cases hget
            rw [e1] at e2
            have : (i' : Int) = (i : Int) := e2
            omega
          unfold valueAt
          rw [hfr, modifyAt_getElem?]
          simp [hget]
        · obtain ⟨w1, hw1, _⟩ := findIndex_SameShape hsh hfq
          have := h3 i (by omega) hi2 q w1 hw1
          rw [this]
          have e : i - j = (i - (j + 1)) + 1 := by omega
          rw [e]
          simp
      · intro q hq
        have hqp : q ≠ p := by
          intro e
          subst e
          exact hq j (Nat.le_refl j) hlt v hf
        rw [h4 q (by
          intro i hi1 hi2 w hfw
          obtain ⟨p', v', hf', _⟩ := hpos i (by omega) hi2
          obtain ⟨w1, hw1, _⟩ := findIndex_SameShape hsh hf'
          rw [hw1] at hfw
          cases hfw
          exact hq i (by omega) hi2 v' hf'), modifyAt_getElem?, if_neg hqp]

theorem argsCmd_registered : registerArgsCmd GoLib.basic = some argsCmd := by
  rfl

theorem valueAt_setRest_keep (rest : List Str) (q p : Nat) (vars : List Variable) (x : Value)
    (h : valueAt vars p = some x) (hk : x.kind ≠ .Slice .String) :
    valueAt (modifyAt (setRest rest) q vars) p = some x := by
  rw [valueAt_modifyAt]
  split
  · unfold valueAt at h
    cases hv : vars[p]? with
    | none => simp [hv] at h
    | some u =>
      simp only [hv, Option.map_some', Option.some.injEq] at h
      subst h
      simp [setRest_value _ _ hk]
  · exact h

theorem setRest_value_slice (rest : List Str) (v : Variable) (h : v.Value.kind = .Slice .String) :
    (setRest rest v).Value = .slice .String (rest.map .str) := by
  have : (Value.slice Kind.String (rest.map Value.str)).kind = v.Value.kind := by
    rw [h]; rfl
  simp [setRest, Variable.Set, this]

theorem plain_of_not_dash (t : Str) (h : t ≠ [] ∧ t.head? ≠ some '-') : plain t = true := by
  simp [plain, h.1, h.2]

/-- C8: for a command without sub commands that declares `K` text positionals (indices
`0` to `K - 1`) and a rest variable, and for every list `ts` of at least `K` tokens that
are not empty and do not begin with `-`, `parse` of `ts` succeeds, binds the positional
`i` to `ts[i]` for every `i < K`, binds the rest variable to exactly `ts[K:]` in order,
and returns an empty unconsumed list. -/
theorem C8_positionals_then_rest (lib : GoLib) (argp : Argp) (K : Nat) (ts : List Str)
    (q : Nat) (w : Variable) (fuel : Nat)
    (hcmds : argp.cmds = []) (hd : defaultsTyped argp.vars = true)
    (hpos : ∀ i, i < K → ∃ p v, findIndex argp.vars (i : Nat) = some (p, v)
      ∧ v.Value.kind = .String)
    (hK : findIndex argp.vars (K : Nat) = none)
    (hrest : findRest argp.vars = some (q, w)) (hrk : w.Value.kind = .Slice .String)
    (hlen : K ≤ ts.length) (hts : ∀ t ∈ ts, t ≠ [] ∧ t.head? ≠ some '-') :
    ∃ r, parse lib (fuel + ts.length) argp ts = some r ∧ r.err = none ∧ r.rest = []
      ∧ (∀ i, i < K → ∀ p v, findIndex argp.vars (i : Nat) = some (p, v)
          → valueAt r.self.vars p = (ts[i]?).map Value.str)
      ∧ valueAt r.self.vars q = some (.slice .String ((ts.drop K).map .str)) := by
  have hsh0 := SameShape_withDefault _ hd
  have hw : walk lib ts (fuel + ts.length) (argp.vars.map withDefault) [] 0
      = some (argp.vars.map withDefault, .ok ts) := by
    rw [walk_plain lib ts ts fuel _ [] 0 (fun t ht => plain_of_not_dash t (hts t ht))
      (by intro j _; simp)]
    rw [walk_end lib ts _ _ _ _ (by simp)]
    simp
  obtain ⟨vars1, h1, h2, h3, _⟩ := indexed_text lib K ts 0 (argp.vars.map withDefault)
    (Nat.zero_le K) (by omega)
    (by
      intro i _ hi
      obtain ⟨p, v, hf, hk⟩ := hpos i hi
      obtain ⟨v1, hf1, hs1⟩ := findIndex_SameShape hsh0 hf
      exact ⟨p, v1, hf1, by rw [← hs1.2.2.2.2]; exact hk⟩)
    (findIndex_SameShape_none hsh0 hK)
  obtain ⟨w1, hr1, hs1⟩ := findRest_SameShape (SameShape_trans hsh0 h2) hrest
  have hget1 : vars1[q]? = some w1 := (findVar_some hr1).1
  refine ⟨⟨.mk (modifyAt (setRest (ts.drop K)) q vars1) argp.cmds,
    .mk (modifyAt (setRest (ts.drop K)) q vars1) argp.cmds, [], none⟩, ?_, rfl, rfl, ?_, ?_⟩
  · rw [parse_noCmds lib _ argp ts hcmds, parseSelf, setDefaults_typed _ hd]
    simp only [hw, assignArguments, h1, hr1]
  · intro i hi p v hf
    obtain ⟨v0, hf0, _⟩ := findIndex_SameShape hsh0 hf
    have := h3 i (Nat.zero_le i) hi p v0 hf0
    simp only [Nat.sub_zero] at this
    have hsome : ∃ t, ts[i]? = some t := ⟨ts[i], by simp [List.getElem?_eq_getElem, (by omega : i < ts.length)]⟩
    obtain ⟨t, ht⟩ := hsome
    rw [ht] at this ⊢
    exact valueAt_setRest_keep _ _ _ _ _ this (by simp [Value.kind])
  · show valueAt (modifyAt (setRest (ts.drop K)) q vars1) q = _
    rw [valueAt_modifyAt_self _ _ _ _ hget1,
      setRest_value_slice _ _ (by rw [← hs1.2.2.2.2]; exact hrk)]

/-- C8 at a concrete input: the tokens `x`, `y`, `z` for the command `argsCmd` (`K = 1`,
the positional at position 1, the rest variable at position 2). -/
theorem C8_witness :
    ∃ r, parse GoLib.basic 3 argsCmd [['x'], ['y'], ['z']] = some r ∧ r.err = none ∧ r.rest = []
      ∧ (∀ i, i < 1 → ∀ p v, findIndex argsCmd.vars (i : Nat) = some (p, v)
          → valueAt r.self.vars p = ([['x'], ['y'], ['z']][i]?).map Value.str)
      ∧ valueAt r.self.vars 2
          = some (.slice .String (([['x'], ['y'], ['z']].drop 1).map .str)) :=
  C8_positionals_then_rest GoLib.basic argsCmd 1 [['x'], ['y'], ['z']] 2 _ 0 (by rfl) (by decide)
    (by
      intro i hi
      have : i = 0 := by omega
      subst this
      exact ⟨1, _, rfl, rfl⟩)
    (by rfl) (by rfl) (by rfl) (by decide) (by decide)

theorem parentCmd_registered : registerParentCmd GoLib.basic = some parentCmd := by
  rfl

/-! ## Lemmas: sub commands -/

theorem assignArguments_node (lib : GoLib) (cmds : List (Str × Argp)) (vars : List Variable)
    (rest : List Str) :
    (assignArguments lib cmds vars rest).node = (assignArguments lib cmds vars rest).self
      ∧ (assignArguments lib cmds vars rest).self.cmds = cmds := by
  unfold assignArguments
  split
  · exact ⟨rfl, rfl⟩
  · split <;> exact ⟨rfl, rfl⟩

/-- After the block "sub commands" the node returned is the receiver, and the sub
commands are not touched. -/
theorem parseSelf_node (lib : GoLib) (fuel : Nat) (argp : Argp) (args : List Str)
    (r : ParseResult) (h : parseSelf lib fuel argp args = some r) :
    r.node = r.self ∧ r.self.cmds = argp.cmds := by
  unfold parseSelf at h
  split at h
  · cases h; exact ⟨rfl, rfl⟩
  · split at h
    · cases h
    · cases h; exact ⟨rfl, rfl⟩
    · cases h; exact assignArguments_node lib _ _ _

/-- C9: for a command with a sub command registered under the name `s` (at position `j`
of the map) and every token list `t`, if `s1` equals `s` ignoring letter case then
`parse` of `s1` followed by `t` on the parent returns exactly the node, the unconsumed
list and the error that `parse` of `t` on the child returns (and returns nothing when
the child does not), and leaves every variable of the parent as it was, value and
`IsSet` (the defaults of the parent are not applied); when the first token is no name of
a sub command, nothing is dispatched, whatever tokens follow: the node returned is the
receiver and the sub commands are untouched. -/
theorem C9_subcommand_dispatch (lib : GoLib) (argp child : Argp) (j : Nat) (s s1 : Str)
    (t : List Str) (fuel : Nat)
    (hreg : lookupCmd (strings_ToLower lib s) argp.cmds = some (j, child))
    (hcase : strings_ToLower lib s1 = strings_ToLower lib s) :
    (parse lib fuel argp (s1 :: t)).map (fun r => (r.node, r.rest, r.err))
        = (parse lib fuel child t).map (fun r => (r.node, r.rest, r.err))
      ∧ (∀ r, parse lib fuel argp (s1 :: t) = some r → r.self.vars = argp.vars)
      ∧ (∀ a u r, lookupCmd (strings_ToLower lib a) argp.cmds = none
          → parse lib fuel argp (a :: u) = some r → r.node = r.self ∧ r.self.cmds = argp.cmds) := by
  have hp : parse lib fuel argp (s1 :: t) = (parse lib fuel child t).map
      fun r => { r with self := .mk argp.vars (setCmd r.self j argp.cmds) } := by
    rw [parse, hcase, hreg]
  refine ⟨?_, ?_, ?_⟩
  · rw [hp]
    cases parse lib fuel child t <;> rfl
  · intro r hr
    rw [hp] at hr
    cases hc : parse lib fuel child t with
    | none => rw [hc] at hr; cases hr
    | some rc =>
      rw [hc] at hr
      cases hr
      rfl
  · intro a u r ha hr
    rw [parse, ha] at hr
    exact parseSelf_node lib fuel argp _ r hr

/-- C9 at a concrete input: `ONE -b 2` on `parentCmd`, and `x one` where `one` is not at
position 0. -/
theorem C9_witness :
    ((parse GoLib.basic 2 parentCmd [['O', 'N', 'E'], ['-', 'b'], ['2']]).map
        (fun r => (r.node, r.rest, r.err))
        = (parse GoLib.basic 2 subOne [['-', 'b'], ['2']]).map (fun r => (r.node, r.rest, r.err))
      ∧ (∀ r, parse GoLib.basic 2 parentCmd [['O', 'N', 'E'], ['-', 'b'], ['2']] = some r
          → r.self.vars = parentCmd.vars)
      ∧ (∀ a u r, lookupCmd (strings_ToLower GoLib.basic a) parentCmd.cmds = none
          → parse GoLib.basic 2 parentCmd (a :: u) = some r
          → r.node = r.self ∧ r.self.cmds = parentCmd.cmds))
    ∧ (∃ r, parse GoLib.basic 2 subOne [['-', 'b'], ['2']] = some r ∧ r.err = none
        ∧ valueAt r.node.vars 0 = some (.int 64 2)) :=
  ⟨C9_subcommand_dispatch GoLib.basic parentCmd subOne 0 ['o', 'n', 'e'] ['O', 'N', 'E']
    [['-', 'b'], ['2']] 2 (by rfl) (by rfl), ⟨_, rfl, rfl, rfl⟩⟩

/-- C10: for a command with a text option `baz`, no positional or rest variable and no
sub commands, for every list `ts` of plain tokens (not empty, and either exactly `-` or
not beginning with `-`), every token `val` and every position `p ≤ len(ts)`, `parse` of
`ts` with the two tokens `--baz`, `val` inserted at position `p` succeeds, binds `baz` to
`val`, and returns exactly `ts`, in its original order, as the unconsumed list. -/
theorem C10_option_among_plain_tokens (lib : GoLib) (argp : Argp) (k : Nat) (v : Variable)
    (ts : List Str) (val : Str) (p : Nat) (fuel : Nat)
    (hcmds : argp.cmds = []) (hd : defaultsTyped argp.vars = true)
    (hargs : ∀ u ∈ argp.vars, u.IsArgument = false)
    (hname : findName lib argp.vars ['b', 'a', 'z'] = some (k, v))
    (hkind : v.Value.kind = .String)
    (hts : ∀ t ∈ ts, plain t = true) (hp : p ≤ ts.length) :
    ∃ r, parse lib (fuel + ts.length + 1) argp
        (ts.take p ++ [['-', '-', 'b', 'a', 'z'], val] ++ ts.drop p) = some r
      ∧ r.err = none ∧ r.rest = ts ∧ valueAt r.self.vars k = some (.str val) := by
  have hsh0 := SameShape_withDefault _ hd
  obtain ⟨v0, hf0, hs0⟩ := findName_SameShape lib hsh0 hname
  have hk0 : v0.Value.kind = .String := by rw [← hs0.2.2.2.2]; exact hkind
  have hget : (argp.vars.map withDefault)[k]? = some v0 := by
    unfold findName at hf0
    split at hf0
    · simp at hf0
    · exact (findVar_some hf0).1
  generalize hargsdef : ts.take p ++ [['-', '-', 'b', 'a', 'z'], val] ++ ts.drop p = args
  have hlp : (ts.take p).length = p := by simp [hp]
  have hls : (ts.drop p).length = ts.length - p := by simp
  have hlen : args.length = ts.length + 2 := by
    rw [← hargsdef]; simp [hlp]; omega
  have hpre : ∀ j, j < (ts.take p).length → args[0 + j]? = (ts.take p)[j]? := by
    intro j hj
    rw [← hargsdef, Nat.zero_add, List.append_assoc, List.getElem?_append_left hj]
  have hopt : args[p]? = some ['-', '-', 'b', 'a', 'z'] := by
    rw [← hargsdef, List.append_assoc, List.getElem?_append_right (by omega)]
    simp [hlp]
  have hdrop : args.drop (p + 1) = val :: ts.drop p := by
    have e : p + 1 = (ts.take p).length + 1 := by rw [hlp]
    rw [← hargsdef, List.append_assoc, e, List.drop_append]
    rfl
  have hl2 : (ts.take p ++ [['-', '-', 'b', 'a', 'z'], val]).length = p + 2 := by
    simp [hlp]
  have hsuf : ∀ j, j < (ts.drop p).length → args[p + 2 + j]? = (ts.drop p)[j]? := by
    intro j hj
    rw [← hargsdef, List.getElem?_append_right (by rw [hl2]; omega), hl2]
    congr 1
    omega
  have hw : walk lib args (fuel + ts.length + 1) (argp.vars.map withDefault) [] 0
      = some (modifyAt (fun w => { w with Value := .str val, IsSet := true }) k
          (argp.vars.map withDefault), .ok ts) := by
    have e1 : fuel + ts.length + 1 = (fuel + (ts.length - p) + 1) + (ts.take p).length := by
      rw [hlp]; omega
    rw [e1, walk_plain lib args (ts.take p) _ _ [] 0
      (fun t ht => hts t (List.mem_of_mem_take ht)) hpre]
    simp only [List.nil_append, Nat.zero_add, hlp]
    rw [walk_step lib args _ _ _ p _ hopt,
      body_long lib args _ _ p ['b', 'a', 'z'] (by simp) (by decide)]
    simp only [hf0, hdrop, scanVar_str lib v0.Value _ _ _ hk0]
    have e2 : ((p : Int) + (1 : Nat) + 1).toNat = p + 2 := by omega
    have e3 : fuel + (ts.length - p) = fuel + (ts.drop p).length := by rw [hls]
    rw [e2, e3, walk_plain lib args (ts.drop p) _ _ _ (p + 2)
      (fun t ht => hts t (List.mem_of_mem_drop ht)) hsuf]
    rw [walk_end lib args _ _ _ _ (by rw [hlen, hls]; omega)]
    simp
  have hnoargs : ∀ u ∈ modifyAt (fun w => { w with Value := .str val, IsSet := true }) k
      (argp.vars.map withDefault), u.IsArgument = false := by
    intro u hu
    obtain ⟨u0, hu0, hsu⟩ : ∃ u0, u0 ∈ argp.vars.map withDefault
        ∧ u.Index = u0.Index ∧ u.Rest = u0.Rest := by
      rw [List.mem_iff_getElem?] at hu
      obtain ⟨i, hi⟩ := hu
      rw [modifyAt_getElem?] at hi
      split at hi
      · cases hx : (argp.vars.map withDefault)[i]? with
        | none => rw [hx] at hi; cases hi
        | some y =>
          rw [hx] at hi
          cases hi
          exact ⟨y, List.mem_iff_getElem?.mpr ⟨i, hx⟩, rfl, rfl⟩
      · exact ⟨u, List.mem_iff_getElem?.mpr ⟨i, hi⟩, rfl, rfl⟩
    have := isArgument_withDefault _ hargs u0 hu0
    simp only [Variable.IsArgument, hsu.1, hsu.2] at this ⊢
    exact this
  refine ⟨⟨.mk (modifyAt (fun w => { w with Value := .str val, IsSet := true }) k
      (argp.vars.map withDefault)) argp.cmds,
    .mk (modifyAt (fun w => { w with Value := .str val, IsSet := true }) k
      (argp.vars.map withDefault)) argp.cmds, ts, none⟩, ?_, rfl, rfl, ?_⟩
  · rw [parse_noCmds lib _ argp args hcmds, parseSelf, setDefaults_typed _ hd]
    simp only [hw]
    rw [assignArguments_noArgs lib _ _ _ hnoargs]
  · show valueAt (modifyAt _ k (argp.vars.map withDefault)) k = _
    rw [valueAt_modifyAt_self _ _ _ _ hget]

/-- C10 at a concrete input: `--baz val` inserted at position 1 of `input1 - input2`,
for the command `optionsCmd` (the option `baz` at position 6). -/
theorem C10_witness :
    ∃ r, parse GoLib.basic 4 optionsCmd
        ([['i', 'n', '1'], ['-'], ['i', 'n', '2']].take 1
          ++ [['-', '-', 'b', 'a', 'z'], ['-', '-', 'v']]
          ++ [['i', 'n', '1'], ['-'], ['i', 'n', '2']].drop 1) = some r
      ∧ r.err = none ∧ r.rest = [['i', 'n', '1'], ['-'], ['i', 'n', '2']]
      ∧ valueAt r.self.vars 6 = some (.str ['-', '-', 'v']) :=
  C10_option_among_plain_tokens GoLib.basic optionsCmd 6
    (optionVar (.str ['d', 'e', 'f', 'a', 'u', 'l', 't']) (Char.ofNat 0) ['b', 'a', 'z'])
    [['i', 'n', '1'], ['-'], ['i', 'n', '2']] ['-', '-', 'v'] 1 0 (by rfl) (by decide)
    (by decide) (by rfl) (by rfl) (by decide) (by decide)

/-! ## Lemmas: the bound on the passes does not change a result -/

/-- A result of the token loop within `fuel` passes is its result within more passes. -/
theorem walk_succ (lib : GoLib) (args : List Str) (fuel : Nat) :
    ∀ (vars : List Variable) (rest : List Str) (i : Nat)
      (res : List Variable × Except Error (List Str)),
      walk lib args fuel vars rest i = some res → walk lib args (fuel + 1) vars rest i = some res := by
  induction fuel with
  | zero =>
    intro vars rest i res h
    cases hi : args[i]? with
    | none =>
      rw [walk] at h ⊢
      simpa [hi] using h
    | some arg =>
      rw [walk] at h
      simp [hi] at h
  | succ fuel ih =>
    intro vars rest i res h
    cases hi : args[i]? with
    | none =>
      rw [walk] at h ⊢
      simpa [hi] using h
    | some arg =>
      rw [walk_step lib args _ vars rest i arg hi] at h ⊢
      cases hb : body lib args vars rest i arg with
      | next vars1 rest1 i1 =>
        rw [hb] at h
        exact ih _ _ _ _ h
      | stop vars1 rest1 => rw [hb] at h; exact h
      | fail vars1 err => rw [hb] at h; exact h

theorem walk_mono (lib : GoLib) (args : List Str) (fuel more : Nat) (vars : List Variable)
    (rest : List Str) (i : Nat) (res : List Variable × Except Error (List Str))
    (h : walk lib args fuel vars rest i = some res) :
    walk lib args (fuel + more) vars rest i = some res := by
  induction more with
  | zero => exact h
  | succ more ih => exact walk_succ lib args _ _ _ _ _ ih

theorem parseSelf_mono (lib : GoLib) (fuel more : Nat) (argp : Argp) (args : List Str)
    (r : ParseResult) (h : parseSelf lib fuel argp args = some r) :
    parseSelf lib (fuel + more) argp args = some r := by
  unfold parseSelf at h ⊢
  split
  · rename_i vars hs
    rw [hs] at h
    exact h
  · rename_i vars hs
    rw [hs] at h
    simp only at h
    cases hw : walk lib args fuel vars [] 0 with
    | none => rw [hw] at h; cases h
    | some res =>
      rw [walk_mono lib args fuel more vars [] 0 res hw]
      rw [hw] at h
      exact h

/-- When `parse` returns within `fuel` passes of the token loop, it returns the same
within any greater number of passes: the bound is not part of the result. -/
theorem parse_mono (lib : GoLib) (fuel more : Nat) (args : List Str) :
    ∀ (argp : Argp) (r : ParseResult), parse lib fuel argp args = some r →
      parse lib (fuel + more) argp args = some r := by
  induction args with
  | nil =>
    intro argp r h
    rw [parse] at h ⊢
    exact parseSelf_mono lib fuel more argp [] r h
  | cons a t ih =>
    intro argp r h
    rw [parse] at h ⊢
    cases hl : lookupCmd (strings_ToLower lib a) argp.cmds with
    | none =>
      rw [hl] at h
      exact parseSelf_mono lib fuel more argp _ r h
    | some e =>
      obtain ⟨j, sub⟩ := e
      rw [hl] at h
      simp only at h ⊢
      cases hc : parse lib fuel sub t with
      | none => rw [hc] at h; cases h
      | some rc =>
        rw [hc] at h
        rw [ih sub rc hc]
        exact h

/-! ## Lemmas: the bound on the passes of the sequence loop is not reached -/

theorem consumeComma_size (arguments : List Str) : ∀ (n : Nat) (arguments1 : List Str) (n1 : Nat),
    consumeComma arguments n = (arguments1, n1, false) →
      tokensSize arguments1 + 1 ≤ tokensSize arguments := by
  induction arguments with
  | nil => intro n a1 n1 h; simp [consumeComma] at h
  | cons a rest ih =>
    intro n a1 n1 h
    cases a with
    | nil =>
      rw [consumeComma] at h
      have := ih _ _ _ h
      simp only [tokensSize, List.map_cons, List.sum_cons] at this ⊢
      omega
    | cons c cs =>
      rw [consumeComma] at h
      split at h
      · simp at h
      · split at h
        · simp only [Prod.mk.injEq, and_true] at h
          obtain ⟨rfl, _⟩ := h
          simp only [tokensSize, List.map_cons, List.sum_cons, List.length_cons]
          omega
        · simp only [Prod.mk.injEq, and_true] at h
          obtain ⟨rfl, _⟩ := h
          simp only [tokensSize, List.map_cons, List.sum_cons, List.length_cons]
          omega

theorem consumeValue_size (j : Nat) (arguments : List Str) (n : Nat) (sVal : Str)
    (arguments1 : List Str) (n1 : Nat)
    (h : consumeValue j arguments n = some (sVal, arguments1, n1)) :
    tokensSize arguments1 ≤ tokensSize arguments := by
  unfold consumeValue at h
  split at h
  · split at h
    · cases h
    · simp only [Option.some.injEq, Prod.mk.injEq] at h
      obtain ⟨_, rfl, _⟩ := h
      simp [tokensSize]
  · rename_i a rest
    split at h
    · simp only [Option.some.injEq, Prod.mk.injEq] at h
      obtain ⟨_, rfl, _⟩ := h
      simp only [tokensSize, List.map_cons, List.sum_cons, List.length_drop]
      omega
    · simp only [Option.some.injEq, Prod.mk.injEq] at h
      obtain ⟨_, rfl, _⟩ := h
      simp only [tokensSize, List.map_cons, List.sum_cons]
      omega

/-- Two bounds above the size of `arguments` give the same result: the sequence loop
ends by itself, at a `break` or at an error, before the bound. -/
theorem scanLoop_bound (scanElem : List Str → Scan) (typ : String) (fuel1 : Nat) :
    ∀ (fuel2 j : Nat) (arguments : List Str) (n : Nat) (slice : List Value),
      tokensSize arguments + (if j = 0 then 1 else 0) < fuel1 →
      tokensSize arguments + (if j = 0 then 1 else 0) < fuel2 →
      scanLoop scanElem typ fuel1 j arguments n slice
        = scanLoop scanElem typ fuel2 j arguments n slice := by
  induction fuel1 with
  | zero => intro fuel2 j arguments n slice h; omega
  | succ fuel1 ih =>
    intro fuel2 j arguments n slice h1 h2
    cases fuel2 with
    | zero => omega
    | succ fuel2 =>
      rw [scanLoop, scanLoop]
      by_cases hj : j = 0
      · subst hj
        simp only [ne_eq, not_true_eq_false, if_false, Bool.false_eq_true]
        cases hv : consumeValue 0 arguments n with
        | none => rfl
        | some e =>
          obtain ⟨sVal, arguments1, n1⟩ := e
          have hs := consumeValue_size _ _ _ _ _ _ hv
          simp only
          cases (scanElem [sVal]).err with
          | some _ => rfl
          | none =>
            simp only
            simp only [if_true] at h1 h2
            exact ih fuel2 _ _ _ _ (by simp; omega) (by simp; omega)
      · simp only [ne_eq, hj, not_false_eq_true, if_true]
        cases hc : consumeComma arguments n with
        | mk arguments0 e =>
          obtain ⟨n0, brk⟩ := e
          cases brk with
          | true => simp
          | false =>
            have hs0 := consumeComma_size _ _ _ _ hc
            simp only [Bool.false_eq_true, if_false]
            cases hv : consumeValue j arguments0 n0 with
            | none => rfl
            | some e =>
              obtain ⟨sVal, arguments1, n1⟩ := e
              have hs := consumeValue_size _ _ _ _ _ _ hv
              simp only
              cases (scanElem [sVal]).err with
              | some _ => rfl
              | none =>
                simp only
                simp only [hj, if_false] at h1 h2
                exact ih fuel2 _ _ _ _ (by simp; omega) (by simp; omega)

/-- The bound that `scanValue` passes to the sequence loop is not reached: any greater
bound gives the same result. -/
theorem scanLoop_loopBound (scanElem : List Str → Scan) (typ : String) (arguments : List Str)
    (slice : List Value) (more : Nat) :
    scanLoop scanElem typ (loopBound arguments + more) 0 arguments 0 slice
      = scanLoop scanElem typ (loopBound arguments) 0 arguments 0 slice := by
  have h : tokensSize arguments + 1 < loopBound arguments := by
    simp [loopBound, tokensSize]
  apply scanLoop_bound
  · simp only [if_true]; omega
  · simp only [if_true]; exact h

/-! ## Lemmas: `strconv.ParseInt` and the literals of the spec -/

theorem parseUintLoop_none (l : List Char) : ∀ (acc u : Nat),
    parseUintLoop l acc = (u, none) → (∀ c ∈ l, '0' ≤ c ∧ c ≤ '9') ∧ u = digitsValue acc l := by
  induction l with
  | nil =>
    intro acc u h
    simp [parseUintLoop] at h
    simp [digitsValue, h]
  | cons c cs ih =>
    intro acc u h
    rw [parseUintLoop] at h
    split at h
    · rename_i hc
      split at h
      · simp at h
      · simp only at h
        split at h
        · simp at h
        · obtain ⟨h1, h2⟩ := ih _ _ h
          refine ⟨?_, ?_⟩
          · intro d hd
            rcases List.mem_cons.mp hd with rfl | hd
            · exact hc
            · exact h1 d hd
          · simpa [digitsValue] using h2
    · simp at h

theorem parseUintLoop_error (l : List Char) : ∀ (acc u : Nat) (e : Error),
    parseUintLoop l acc = (u, some e) →
      (e = .wrap .ErrSyntax ∧ u = 0) ∨ (e = .wrap .ErrRange ∧ u = 2 ^ 64 - 1) := by
  induction l with
  | nil => intro acc u e h; simp [parseUintLoop] at h
  | cons c cs ih =>
    intro acc u e h
    rw [parseUintLoop] at h
    split at h
    · split at h
      · simp only [Prod.mk.injEq, Option.some.injEq] at h
        exact Or.inr ⟨h.2.symm, h.1.symm⟩
      · simp only at h
        split at h
        · simp only [Prod.mk.injEq, Option.some.injEq] at h
          exact Or.inr ⟨h.2.symm, h.1.symm⟩
        · exact ih _ _ _ h
    · simp only [Prod.mk.injEq, Option.some.injEq] at h
      exact Or.inl ⟨h.2.symm, h.1.symm⟩

/-- Every error of `ParseInt` is `ErrSyntax` or `ErrRange`, in a `*NumError`. -/
theorem strconv_ParseInt_error (t : Str) (e : Error) (h : strconv_ParseInt t = .error e) :
    e = .wrap .ErrSyntax ∨ e = .wrap .ErrRange := by
  unfold strconv_ParseInt at h
  split at h
  · simp only [Except.error.injEq] at h
    exact Or.inl h.symm
  · simp only at h
    split at h
    · simp only [Except.error.injEq] at h
      exact Or.inl h.symm
    · split at h
      · simp only [Except.error.injEq] at h
        exact Or.inr h.symm
      · split at h
        · simp only [Except.error.injEq] at h
          exact Or.inr h.symm
        · cases h
/-- What `ParseInt` accepts is a literal of the spec within the signed 64-bit range,
with the same value. -/
theorem isInt64Literal_of_ParseInt (t : Str) (n : Int) (h : strconv_ParseInt t = .ok n) :
    isInt64Literal t n := by
  have hr := strconv_ParseInt_range h
  refine ⟨?_, hr.1, hr.2⟩
  unfold strconv_ParseInt at h
  split at h
  · cases h
  · rename_i c cs
    simp only at h
    split at h
    · cases h
    · rename_i un e hns hu
      -- the unsigned part was read without error
      have hsplit : ∀ s1 : Str, strconv_ParseUint s1 = (un, e) →
          (s1 = [] ∧ e = some (.wrap .ErrSyntax)) ∨ (s1 ≠ [] ∧ parseUintLoop s1 0 = (un, e)) := by
        intro s1 hs1
        unfold strconv_ParseUint at hs1
        by_cases hnil : s1 = []
        · rw [if_pos hnil] at hs1
          simp only [Prod.mk.injEq] at hs1
          exact Or.inl ⟨hnil, hs1.2.symm⟩
        · rw [if_neg hnil] at hs1
          exact Or.inr ⟨hnil, hs1⟩
      have hcase := hsplit _ hu
      have hl0 : (if c = '+' ∨ c = '-' then cs else c :: cs) ≠ []
          ∧ parseUintLoop (if c = '+' ∨ c = '-' then cs else c :: cs) 0 = (un, e) := by
        rcases hcase with ⟨_, h2⟩ | h2
        · exact (hns h2).elim
        · exact h2
      have he : e = none := by
        cases e with
        | none => rfl
        | some e1 =>
          exfalso
          rcases parseUintLoop_error _ _ _ _ hl0.2 with ⟨h1, _⟩ | ⟨_, h2⟩
          · exact hns (by rw [h1])
          · subst h2
            by_cases hneg : c = '-'
            · simp [hneg] at h
            · simp [hneg] at h
      subst he
      have hne := hl0.1
      have hl := hl0.2
      obtain ⟨hdig, hval⟩ := parseUintLoop_none _ _ _ hl
      split at h
      · cases h
      · split at h
        · cases h
        · simp only [Except.ok.injEq] at h
          by_cases hneg : c = '-'
          · subst hneg
            simp only [or_true, if_true] at hdig hval hne
            simp only [decide_True, if_true] at h
            simp only [literalValue, if_true]
            rw [if_pos ⟨hne, hdig⟩, ← hval, h]
          · by_cases hpos : c = '+'
            · subst hpos
              simp only [true_or, if_true] at hdig hval hne
              simp only [hneg, decide_False, Bool.false_eq_true, if_false] at h
              simp only [literalValue, hneg, if_false, if_true]
              rw [if_pos ⟨hne, hdig⟩, ← hval, h]
            · simp only [hneg, hpos, or_self, if_false] at hdig hval
              simp only [hneg, decide_False, Bool.false_eq_true, if_false] at h
              simp only [literalValue, hneg, hpos, if_false]
              rw [if_pos hdig, ← hval, h]

/-- A literal of the spec within the signed 64-bit range is accepted by `ParseInt`, with
its value. -/
theorem ParseInt_of_isInt64Literal (t : Str) (n : Int) (h : isInt64Literal t n) :
    strconv_ParseInt t = .ok n := by
  obtain ⟨hl, h1, h2⟩ := h
  unfold literalValue at hl
  split at hl
  · cases hl
  · rename_i c cs
    by_cases hneg : c = '-'
    · subst hneg
      simp only [if_true] at hl
      split at hl
      · rename_i hd
        simp only [Option.some.injEq] at hl
        have hv : digitsValue 0 cs < 2 ^ 64 := by omega
        have hu : strconv_ParseUint cs = (digitsValue 0 cs, none) := by
          rw [strconv_ParseUint, if_neg hd.1, parseUintLoop_digits cs 0 hd.2 hv]
        rw [strconv_ParseInt]
        simp only [or_true, if_true, hu, decide_True, Bool.not_true, Bool.false_eq_true,
          false_and, if_false, true_and]
        have h3 : ¬ digitsValue 0 cs > 2 ^ 63 := by omega
        rw [if_neg h3, hl]
      · cases hl
    · simp only [hneg, if_false] at hl
      by_cases hpos : c = '+'
      · subst hpos
        simp only [if_true] at hl
        split at hl
        · rename_i hd
          simp only [Option.some.injEq] at hl
          have hv : digitsValue 0 cs < 2 ^ 64 := by omega
          have hu : strconv_ParseUint cs = (digitsValue 0 cs, none) := by
            rw [strconv_ParseUint, if_neg hd.1, parseUintLoop_digits cs 0 hd.2 hv]
          rw [strconv_ParseInt]
          simp only [true_or, if_true, hu, hneg, decide_False, Bool.not_false, true_and,
            Bool.false_eq_true, false_and, if_false]
          have h3 : ¬ digitsValue 0 cs ≥ 2 ^ 63 := by omega
          rw [if_neg h3, hl]
        · cases hl
      · simp only [hpos, if_false] at hl
        split at hl
        · rename_i hd
          simp only [Option.some.injEq] at hl
          have hv : digitsValue 0 (c :: cs) < 2 ^ 64 := by omega
          have hu : strconv_ParseUint (c :: cs) = (digitsValue 0 (c :: cs), none) := by
            rw [strconv_ParseUint, if_neg (by simp), parseUintLoop_digits _ 0 hd hv]
          rw [strconv_ParseInt]
          simp only [hneg, hpos, or_self, if_false, hu, decide_False, Bool.not_false, true_and,
            Bool.false_eq_true, false_and]
          have h3 : ¬ digitsValue 0 (c :: cs) ≥ 2 ^ 63 := by omega
          rw [if_neg h3, hl]
        · cases hl

/-! ## Lemmas: a failing first token -/

/-- The result of `parse` when the pass on the first token returns an error. -/
theorem parse_first_fail (lib : GoLib) (fuel : Nat) (argp : Argp) (a : Str) (t : List Str)
    (vars1 : List Variable) (err : Error)
    (hc : noDashCmd argp.cmds = true) (hd : defaultsTyped argp.vars = true)
    (ha : a.head? = some '-')
    (hb : body lib (a :: t) (argp.vars.map withDefault) [] 0 a = .fail vars1 err) :
    parse lib (fuel + 1) argp (a :: t)
      = some ⟨.mk vars1 argp.cmds, .mk vars1 argp.cmds, [], some err⟩ := by
  rw [parse_dash lib _ argp _ _ hc ha, parseSelf, setDefaults_typed _ hd]
  simp only
  rw [walk_step lib _ fuel _ _ 0 a (by simp), hb]

theorem scanVar_int_error (lib : GoLib) (v : Value) (name a : Str) (rest : List Str) (e : Error)
    (hk : v.kind = .Int 64) (ha : strconv_ParseInt a = .error e) :
    scanVar lib v name (a :: rest) = ⟨v, 0, some (.wrap (.wrap e))⟩ := by
  cases v <;> simp [Value.kind] at hk <;>
    simp [scanVar, scanValue, Value.kind, scanKind, hk, ha]

theorem scanVar_int_nil (lib : GoLib) (v : Value) (name : Str) (hk : v.kind = .Int 64) :
    scanVar lib v name [] = ⟨v, 0, some (.wrap .ErrMissingValue)⟩ := by
  cases v <;> simp [Value.kind] at hk <;>
    simp [scanVar, scanValue, Value.kind, scanKind, hk]

theorem findName_some {lib : GoLib} {vars : List Variable} {name : Str} {k : Nat} {v : Variable}
    (h : findName lib vars name = some (k, v)) : vars[k]? = some v := by
  unfold findName at h
  split at h
  · simp at h
  · exact (findVar_some h).1

theorem valueAt_modifyAt_same (k : Nat) (vars : List Variable) (v : Variable)
    (h : vars[k]? = some v) :
    valueAt (modifyAt (fun w => { w with Value := v.Value }) k vars) k = valueAt vars k := by
  rw [valueAt_modifyAt_self _ _ _ _ h]
  simp [valueAt, h]

/-- C11: for a signed 64-bit integer option `int`, `parse` of `--int` alone fails with
`ErrMissingValue`; for every token `t`, `parse` of `--int t` succeeds if and only if `t` is
a valid base-10 literal within the signed 64-bit range, in which case the option is bound
to the value of `t` and exactly that one token is consumed; when `t` is no such literal,
`parse` fails with `strconv.ErrSyntax` or `strconv.ErrRange` and the option keeps its
declared default. -/
theorem C11_int_option_value_or_error (lib : GoLib) (argp : Argp) (k : Nat) (v : Variable)
    (fuel : Nat) (hc : noDashCmd argp.cmds = true) (hd : defaultsTyped argp.vars = true)
    (hname : findName lib argp.vars ['i', 'n', 't'] = some (k, v))
    (hkind : v.Value.kind = .Int 64) :
    (∃ r e, parse lib (fuel + 1) argp [['-', '-', 'i', 'n', 't']] = some r ∧ r.err = some e
        ∧ e.Is .ErrMissingValue = true)
    ∧ ∀ t : Str,
        ((∃ n, isInt64Literal t n)
          ↔ ∃ r, parse lib (fuel + 1) argp [['-', '-', 'i', 'n', 't'], t] = some r ∧ r.err = none)
        ∧ (∀ n, isInt64Literal t n →
            ∃ r, parse lib (fuel + 1) argp [['-', '-', 'i', 'n', 't'], t] = some r ∧ r.err = none
              ∧ r.rest = [] ∧ valueAt r.self.vars k = some (.int 64 n)
              ∧ ∀ suf, (scanVar lib v.Value ['i', 'n', 't'] (t :: suf)).n = 1)
        ∧ ((¬ ∃ n, isInt64Literal t n) →
            ∃ r e, parse lib (fuel + 1) argp [['-', '-', 'i', 'n', 't'], t] = some r
              ∧ r.err = some e ∧ (e.Is .ErrSyntax = true ∨ e.Is .ErrRange = true)
              ∧ valueAt r.self.vars k = valueAt (argp.vars.map withDefault) k) := by
  obtain ⟨v0, hf0, hs0⟩ := findName_SameShape lib (SameShape_withDefault _ hd) hname
  have hk0 : v0.Value.kind = .Int 64 := by rw [← hs0.2.2.2.2]; exact hkind
  have hget := findName_some hf0
  -- the two outcomes of `--int t`
  have hok : ∀ t n, isInt64Literal t n →
      ∃ r, parse lib (fuel + 1) argp [['-', '-', 'i', 'n', 't'], t] = some r ∧ r.err = none
        ∧ r.rest = [] ∧ valueAt r.self.vars k = some (.int 64 n)
        ∧ ∀ suf, (scanVar lib v.Value ['i', 'n', 't'] (t :: suf)).n = 1 := by
    intro t n hlit
    have hp := ParseInt_of_isInt64Literal t n hlit
    obtain ⟨r, h1, h2, h3, h4⟩ := parse_of_walk_value lib (fuel + 1) argp
      ['-', '-', 'i', 'n', 't'] [t] (fun w => { w with Value := .int 64 n, IsSet := true }) k v0
      (.int 64 n) hc hd (by rfl)
      (by
        rw [walk_step lib _ fuel _ _ 0 ['-', '-', 'i', 'n', 't'] (by simp),
          body_long lib _ _ _ 0 ['i', 'n', 't'] (by simp) (by decide)]
        simp only [hf0, List.drop_succ_cons, List.drop_nil, Nat.zero_add, List.drop_zero,
          scanVar_int lib v0.Value _ _ _ n hk0 hp]
        rw [walk_end]
        simp)
      hget rfl (by simp [Value.kind])
    exact ⟨r, h1, h2, h3, h4, fun suf => by rw [scanVar_int lib v.Value _ _ _ n hkind hp]⟩
  have hfail : ∀ t, (¬ ∃ n, isInt64Literal t n) →
      ∃ r e, parse lib (fuel + 1) argp [['-', '-', 'i', 'n', 't'], t] = some r
        ∧ r.err = some e ∧ (e.Is .ErrSyntax = true ∨ e.Is .ErrRange = true)
        ∧ valueAt r.self.vars k = valueAt (argp.vars.map withDefault) k := by
    intro t hnot
    cases hp : strconv_ParseInt t with
    | ok n => exact absurd ⟨n, isInt64Literal_of_ParseInt t n hp⟩ hnot
    | error e =>
      have hb : body lib [['-', '-', 'i', 'n', 't'], t] (argp.vars.map withDefault) [] 0
          ['-', '-', 'i', 'n', 't']
          = .fail (modifyAt (fun w => { w with Value := v0.Value }) k (argp.vars.map withDefault))
              (.wrap (.wrap (.wrap (.wrap e)))) := by
        rw [body_long lib _ _ _ 0 ['i', 'n', 't'] (by simp) (by decide)]
        simp only [hf0, List.drop_succ_cons, List.drop_nil, Nat.zero_add, List.drop_zero,
          scanVar_int_error lib v0.Value _ _ _ e hk0 hp]
      refine ⟨_, _, parse_first_fail lib fuel argp _ _ _ _ hc hd (by rfl) hb, rfl, ?_, ?_⟩
      · rcases strconv_ParseInt_error t e hp with rfl | rfl
        · exact Or.inl (by decide)
        · exact Or.inr (by decide)
      · exact valueAt_modifyAt_same k _ v0 hget
  refine ⟨?_, ?_⟩
  · have hb : body lib [['-', '-', 'i', 'n', 't']] (argp.vars.map withDefault) [] 0
        ['-', '-', 'i', 'n', 't']
        = .fail (modifyAt (fun w => { w with Value := v0.Value }) k (argp.vars.map withDefault))
            (.wrap (.wrap (.wrap .ErrMissingValue))) := by
      rw [body_long lib _ _ _ 0 ['i', 'n', 't'] (by simp) (by decide)]
      simp only [hf0, List.drop_succ_cons, List.drop_nil, Nat.zero_add, List.drop_zero,
        scanVar_int_nil lib v0.Value _ hk0]
    exact ⟨_, _, parse_first_fail lib fuel argp _ _ _ _ hc hd (by rfl) hb, rfl, by decide⟩
  · intro t
    refine ⟨⟨?_, ?_⟩, hok t, hfail t⟩
    · rintro ⟨n, hn⟩
      obtain ⟨r, h1, h2, _⟩ := hok t n hn
      exact ⟨r, h1, h2⟩
    · rintro ⟨r, h1, h2⟩
      by_contra hnot
      obtain ⟨r1, e, h3, h4, _⟩ := hfail t hnot
      rw [h1] at h3
      cases h3
      rw [h2] at h4
      cases h4

theorem typesCmd_registered : registerTypesCmd GoLib.basic = some typesCmd := by
  rfl

/-- C11 at concrete inputs for the command `typesCmd` (the option `int` at position 1):
`--int`, `--int 36` and `--int string`. -/
theorem C11_witness :
    (∃ r e, parse GoLib.basic 1 typesCmd [['-', '-', 'i', 'n', 't']] = some r ∧ r.err = some e
        ∧ e.Is .ErrMissingValue = true)
    ∧ (∃ r, parse GoLib.basic 1 typesCmd [['-', '-', 'i', 'n', 't'], ['3', '6']] = some r
        ∧ r.err = none ∧ r.rest = [] ∧ valueAt r.self.vars 1 = some (.int 64 36)
        ∧ ∀ suf, (scanVar GoLib.basic (Value.int 64 0) ['i', 'n', 't'] (['3', '6'] :: suf)).n = 1)
    ∧ (∃ r e, parse GoLib.basic 1 typesCmd
          [['-', '-', 'i', 'n', 't'], ['s', 't', 'r', 'i', 'n', 'g']] = some r
        ∧ r.err = some e ∧ (e.Is .ErrSyntax = true ∨ e.Is .ErrRange = true)
        ∧ valueAt r.self.vars 1 = valueAt (typesCmd.vars.map withDefault) 1) :=
  have h := C11_int_option_value_or_error GoLib.basic typesCmd 1
    (optionVar (.int 64 0) (Char.ofNat 0) ['i', 'n', 't']) 0 (by decide) (by rfl) (by rfl) (by rfl)
  ⟨h.1, (h.2 ['3', '6']).2.1 36 ⟨by decide, by decide, by decide⟩,
    (h.2 ['s', 't', 'r', 'i', 'n', 'g']).2.2 (by
      rintro ⟨n, hn, _⟩
      have : literalValue ['s', 't', 'r', 'i', 'n', 'g'] = none := by decide
      rw [this] at hn
      cases hn)⟩

/-! ## Lemmas: unknown options -/

theorem findName_SameShape_none (lib : GoLib) {vs ws : List Variable} (h : SameShape vs ws)
    {name : Str} (hf : findName lib vs name = none) : findName lib ws name = none := by
  unfold findName at hf ⊢
  split
  · rfl
  · rename_i hn
    simp only [hn, if_false] at hf
    exact findVar_SameShape_none (fun v w hs => by simp [hs.1, hs.2.1]) h hf

theorem findShort_SameShape_none {vs ws : List Variable} (h : SameShape vs ws) {c : Char}
    (hf : findShort vs c = none) : findShort ws c = none :=
  findVar_SameShape_none (fun v w hs => by simp [hs.2.1]) h hf

/-- The result of `parse`, for a command without sub commands, when plain tokens are
followed by a token whose pass returns an error. -/
theorem parse_plain_then_fail (lib : GoLib) (fuel : Nat) (argp : Argp) (pre : List Str)
    (a : Str) (suf : List Str) (err : Error)
    (hcmds : argp.cmds = []) (hd : defaultsTyped argp.vars = true)
    (hpre : ∀ t ∈ pre, plain t = true)
    (hb : body lib (pre ++ [a] ++ suf) (argp.vars.map withDefault) pre pre.length a
      = .fail (argp.vars.map withDefault) err) :
    parse lib (fuel + pre.length + 1) argp (pre ++ [a] ++ suf)
      = some ⟨.mk (argp.vars.map withDefault) argp.cmds,
          .mk (argp.vars.map withDefault) argp.cmds, [], some err⟩ := by
  rw [parse_noCmds lib _ argp _ hcmds, parseSelf, setDefaults_typed _ hd]
  simp only
  have e : fuel + pre.length + 1 = (fuel + 1) + pre.length := by omega
  rw [e, walk_plain lib (pre ++ [a] ++ suf) pre (fuel + 1) _ [] 0 hpre
    (by
      intro j hj
      rw [Nat.zero_add, List.append_assoc, List.getElem?_append_left hj])]
  simp only [List.nil_append, Nat.zero_add]
  rw [walk_step lib _ fuel _ _ pre.length a
    (by rw [List.append_assoc, List.getElem?_append_right (Nat.le_refl _)]; simp), hb]

/-- C12, amended: for a command without sub commands, every list `pre` of plain tokens
(not empty, not beginning with `-`), every token list `suf`, and every name `n` that is
not empty, contains no `=` and that `findName` resolves to no variable, `parse` of
`pre ++ ["--" + n] ++ suf` fails with `ErrUnknownOption`; likewise `parse` of
`pre ++ ["-" + c] ++ suf` fails with `ErrUnknownOption` for every character `c` other than
`-` that is no variable's short name.  In both cases no unconsumed tokens are returned. -/
theorem C12_unknown_option (lib : GoLib) (argp : Argp) (pre suf : List Str) (fuel : Nat)
    (hcmds : argp.cmds = []) (hd : defaultsTyped argp.vars = true)
    (hpre : ∀ t ∈ pre, t ≠ [] ∧ t.head? ≠ some '-') :
    (∀ n : Str, n ≠ [] → '=' ∉ n → findName lib argp.vars n = none →
      ∃ r e, parse lib (fuel + pre.length + 1) argp (pre ++ [['-', '-'] ++ n] ++ suf) = some r
        ∧ r.err = some e ∧ e.Is .ErrUnknownOption = true ∧ r.rest = [])
    ∧ (∀ c : Char, c ≠ '-' → findShort argp.vars c = none →
      ∃ r e, parse lib (fuel + pre.length + 1) argp (pre ++ [['-', c]] ++ suf) = some r
        ∧ r.err = some e ∧ e.Is .ErrUnknownOption = true ∧ r.rest = []) := by
  have hsh0 := SameShape_withDefault _ hd
  have hplain : ∀ t ∈ pre, plain t = true := fun t ht => plain_of_not_dash t (hpre t ht)
  constructor
  · intro n hne heq hnone
    have hb : body lib (pre ++ [['-', '-'] ++ n] ++ suf) (argp.vars.map withDefault) pre
        pre.length (['-', '-'] ++ n)
        = .fail (argp.vars.map withDefault) (.wrap (.wrap .ErrUnknownOption)) := by
      have := body_long lib (pre ++ [['-', '-'] ++ n] ++ suf) (argp.vars.map withDefault) pre
        pre.length n hne heq
      simp only [List.cons_append, List.nil_append] at this ⊢
      rw [this, findName_SameShape_none lib hsh0 hnone]
    exact ⟨_, _, parse_plain_then_fail lib fuel argp pre _ suf _ hcmds hd hplain hb, rfl,
      by decide, rfl⟩
  · intro c hc hnone
    have hb : body lib (pre ++ [['-', c]] ++ suf) (argp.vars.map withDefault) pre
        pre.length ['-', c]
        = .fail (argp.vars.map withDefault) (.wrap (.wrap .ErrUnknownOption)) := by
      rw [body_short lib _ _ _ _ c [] hc, shortLoop]
      simp only [findShort_SameShape_none hsh0 hnone]
    exact ⟨_, _, parse_plain_then_fail lib fuel argp pre _ suf _ hcmds hd hplain hb, rfl,
      by decide, rfl⟩

/-- C12, amended, at a concrete input for the command `optionsCmd`: `in1 --nope -a` and
`in1 -z -a`. -/
theorem C12_witness :
    (∃ r e, parse GoLib.basic 2 optionsCmd
        ([['i', 'n', '1']] ++ [['-', '-'] ++ ['n', 'o', 'p', 'e']] ++ [['-', 'a']]) = some r
      ∧ r.err = some e ∧ e.Is .ErrUnknownOption = true ∧ r.rest = [])
    ∧ (∃ r e, parse GoLib.basic 2 optionsCmd
        ([['i', 'n', '1']] ++ [['-', 'z']] ++ [['-', 'a']]) = some r
      ∧ r.err = some e ∧ e.Is .ErrUnknownOption = true ∧ r.rest = []) :=
  have h := C12_unknown_option GoLib.basic optionsCmd [['i', 'n', '1']] [['-', 'a']] 0 (by rfl)
    (by decide) (by decide)
  ⟨h.1 ['n', 'o', 'p', 'e'] (by decide) (by decide) (by rfl), h.2 'z' (by decide) (by rfl)⟩

/-- C12 as stated fails for the character `-`, which is no variable's short name: the
token `-` followed by `-` is the terminator `--`, and `parse` succeeds, returning the
tokens after it. -/
theorem C12_counterexample_dash :
    findShort optionsCmd.vars '-' = none
    ∧ (∃ r, parse GoLib.basic 1 optionsCmd ([] ++ [['-', '-']] ++ [['x']]) = some r
        ∧ r.err = none ∧ r.rest = [['x']])
    ∧ ¬ ∃ fuel r e, parse GoLib.basic fuel optionsCmd ([] ++ [['-', '-']] ++ [['x']]) = some r
        ∧ r.err = some e := by
  have hp : ∀ fuel, parse GoLib.basic (fuel + 1) optionsCmd [['-', '-'], ['x']]
      = some ⟨.mk (optionsCmd.vars.map withDefault) optionsCmd.cmds,
          .mk (optionsCmd.vars.map withDefault) optionsCmd.cmds, [['x']], none⟩ := by
    intro fuel
    rw [parse_dash GoLib.basic _ optionsCmd _ _ (by decide) (by rfl), parseSelf,
      setDefaults_typed _ (by decide)]
    simp only
    rw [walk_step GoLib.basic _ fuel _ _ 0 ['-', '-'] (by simp)]
    simp only [body, if_true, List.nil_append, Nat.zero_add, List.drop_succ_cons, List.drop_zero]
    rw [assignArguments_noArgs GoLib.basic _ _ _ (isArgument_withDefault _ (by decide))]
  refine ⟨by rfl, ⟨_, hp 0, rfl, rfl⟩, ?_⟩
  rintro ⟨fuel, r, e, h, he⟩
  cases fuel with
  | zero =>
    rw [show ([] ++ [['-', '-']] ++ [['x']] : List Str) = [['-', '-'], ['x']] from rfl,
      parse_zero_passes GoLib.basic optionsCmd _ _ (by decide) (by decide) (by rfl)] at h
    cases h
  | succ fuel =>
    rw [show ([] ++ [['-', '-']] ++ [['x']] : List Str) = [['-', '-'], ['x']] from rfl,
      hp fuel] at h
    cases h
    cases he

/-! ## Lemmas: the passes of the sequence loop -/

theorem scanLoop_pass0 (scanElem : List Str → Scan) (typ : String) (fuel : Nat)
    (arguments : List Str) (n : Nat) (slice : List Value) (sVal : Str) (arguments1 : List Str)
    (n1 : Nat) (hv : consumeValue 0 arguments n = some (sVal, arguments1, n1))
    (he : (scanElem [sVal]).err = none) :
    scanLoop scanElem typ (fuel + 1) 0 arguments n slice
      = scanLoop scanElem typ fuel 1 arguments1 n1 (slice ++ [(scanElem [sVal]).v]) := by
  rw [scanLoop]
  simp only [ne_eq, not_true_eq_false, if_false, Bool.false_eq_true, hv, he]

theorem scanLoop_pass (scanElem : List Str → Scan) (typ : String) (fuel j : Nat)
    (arguments : List Str) (n : Nat) (slice : List Value) (arguments0 : List Str) (n0 : Nat)
    (sVal : Str) (arguments1 : List Str) (n1 : Nat) (hj : j ≠ 0)
    (hc : consumeComma arguments n = (arguments0, n0, false))
    (hv : consumeValue j arguments0 n0 = some (sVal, arguments1, n1))
    (he : (scanElem [sVal]).err = none) :
    scanLoop scanElem typ (fuel + 1) j arguments n slice
      = scanLoop scanElem typ fuel (j + 1) arguments1 n1 (slice ++ [(scanElem [sVal]).v]) := by
  rw [scanLoop]
  simp only [ne_eq, hj, not_false_eq_true, if_true, hc, Bool.false_eq_true, if_false, hv, he]

/-- The pass that ends the loop at the `break` of "consume comma", when no empty token
was skipped: whatever the bound, the loop returns its state. -/
theorem scanLoop_last (scanElem : List Str → Scan) (typ : String) (fuel j : Nat)
    (arguments : List Str) (n : Nat) (slice : List Value) (arguments0 : List Str) (hj : j ≠ 0)
    (hc : consumeComma arguments n = (arguments0, n, true)) :
    scanLoop scanElem typ fuel j arguments n slice = .ok (j, n, slice) := by
  cases fuel with
  | zero => rw [scanLoop]
  | succ fuel =>
    rw [scanLoop]
    simp only [ne_eq, hj, not_false_eq_true, if_true, hc]

theorem consumeValue_nocomma (j : Nat) (a : Str) (rest : List Str) (n : Nat) (h : ',' ∉ a) :
    consumeValue j (a :: rest) n = some (a, rest, n + 1) := by
  simp only [consumeValue, strings_IndexByte_none h]

theorem consumeValue_comma (j : Nat) (a b : Str) (rest : List Str) (n : Nat) (h : ',' ∉ a) :
    consumeValue j ((a ++ ',' :: b) :: rest) n = some (a, (',' :: b) :: rest, n) := by
  simp only [consumeValue, strings_IndexByte_append b h]
  simp

theorem consumeComma_glued (b : Str) (rest : List Str) (n : Nat) (hb : b ≠ []) :
    consumeComma ((',' :: b) :: rest) n = (b :: rest, n, false) := by
  simp [consumeComma, hb]

theorem consumeComma_alone (rest : List Str) (n : Nat) :
    consumeComma ([','] :: rest) n = (rest, n + 1, false) := by
  simp [consumeComma]

theorem consumeComma_other (c : Char) (cs : Str) (rest : List Str) (n : Nat) (hc : c ≠ ',') :
    consumeComma ((c :: cs) :: rest) n = ((c :: cs) :: rest, n, true) := by
  simp [consumeComma, hc]

/-- The passes of the loop over the rest `,d1,d2,...,dk` of a token, for elements that
hold no comma and that the element scanner accepts. -/
theorem scanLoop_join (scanElem : List Str → Scan) (typ : String) (ps : List (Str × Value)) :
    ps ≠ [] →
    (∀ p ∈ ps, p.1 ≠ [] ∧ ',' ∉ p.1 ∧ (scanElem [p.1]).err = none ∧ (scanElem [p.1]).v = p.2) →
    ∀ (fuel j n : Nat) (slice : List Value), j ≠ 0 →
      tokensSize [',' :: joinComma (ps.map (·.1))] < fuel →
      scanLoop scanElem typ fuel j [',' :: joinComma (ps.map (·.1))] n slice
        = .ok (j + ps.length, n + 1, slice ++ ps.map (·.2)) := by
  induction ps with
  | nil => intro h; exact absurd rfl h
  | cons p qs ih =>
    intro _ hps fuel j n slice hj hfuel
    obtain ⟨hp1, hp2, hp3, hp4⟩ := hps p (by simp)
    obtain ⟨fuel, rfl⟩ : ∃ f, fuel = f + 1 := ⟨fuel - 1, by omega⟩
    cases qs with
    | nil =>
      simp only [List.map_cons, List.map_nil, joinComma]
      rw [scanLoop_pass scanElem typ fuel j _ n slice _ n p.1 [] (n + 1) hj
        (consumeComma_glued p.1 [] n hp1) (consumeValue_nocomma j p.1 [] n hp2) hp3,
        scanLoop_last scanElem typ fuel (j + 1) [] (n + 1) _ [] (by omega) (by rfl), hp4]
      simp
    | cons q rs =>
      have hjoin : joinComma ((p :: q :: rs).map (·.1))
          = p.1 ++ ',' :: joinComma ((q :: rs).map (·.1)) := by
        simp [joinComma]
      rw [hjoin] at hfuel ⊢
      have hne : p.1 ++ ',' :: joinComma ((q :: rs).map (·.1)) ≠ [] := by simp
      rw [scanLoop_pass scanElem typ fuel j _ n slice _ n p.1 _ n hj
        (consumeComma_glued _ [] n hne) (consumeValue_comma j p.1 _ [] n hp2) hp3,
        ih (by simp) (fun r hr => hps r (by simp [hr])) fuel (j + 1) n _ (by omega)
          (by
            simp only [tokensSize, List.map_cons, List.map_nil, List.sum_cons, List.sum_nil,
              List.length_cons, List.length_append] at hfuel ⊢
            omega),
        hp4]
      simp only [List.length_cons, List.map_cons, List.append_assoc, List.singleton_append]
      congr 2
      omega

/-- The loop, from its start, over the single token `d1,d2,...,dk` (`k ≥ 1`): the `k`
elements are appended to `slice` and one token is consumed. -/
theorem scanLoop_join_start (scanElem : List Str → Scan) (typ : String) (ps : List (Str × Value))
    (slice : List Value) (hne : ps ≠ [])
    (hps : ∀ p ∈ ps, p.1 ≠ [] ∧ ',' ∉ p.1 ∧ (scanElem [p.1]).err = none
      ∧ (scanElem [p.1]).v = p.2) :
    scanLoop scanElem typ (loopBound [joinComma (ps.map (·.1))]) 0 [joinComma (ps.map (·.1))]
        0 slice
      = .ok (ps.length, 1, slice ++ ps.map (·.2)) := by
  cases ps with
  | nil => exact absurd rfl hne
  | cons p qs =>
    obtain ⟨hp1, hp2, hp3, hp4⟩ := hps p (by simp)
    cases qs with
    | nil =>
      simp only [List.map_cons, List.map_nil, joinComma, loopBound]
      rw [scanLoop_pass0 scanElem typ _ _ 0 slice p.1 [] 1 (consumeValue_nocomma 0 p.1 [] 0 hp2) hp3,
        scanLoop_last scanElem typ _ 1 [] 1 _ [] (by omega) (by rfl), hp4]
      simp
    | cons q rs =>
      have hjoin : joinComma ((p :: q :: rs).map (·.1))
          = p.1 ++ ',' :: joinComma ((q :: rs).map (·.1)) := by
        simp [joinComma]
      rw [hjoin]
      simp only [loopBound]
      rw [scanLoop_pass0 scanElem typ _ _ 0 slice p.1 _ 0 (consumeValue_comma 0 p.1 _ [] 0 hp2) hp3,
        scanLoop_join scanElem typ (q :: rs) (by simp) (fun r hr => hps r (by simp [hr])) _ 1 0
          _ (by omega)
          (by
            simp only [tokensSize, List.map_cons, List.map_nil, List.sum_cons, List.sum_nil,
              List.length_cons, List.length_append]
            have := List.length_pos.mpr hp1
            omega),
        hp4]
      simp only [List.length_cons, List.map_cons, List.append_assoc, List.singleton_append]
      congr 2
      omega

/-! ## Lemmas: decimal forms as elements of a sequence -/

theorem decimalInt_chars (i : Int) : ∀ c ∈ decimalInt i, c = '-' ∨ ('0' ≤ c ∧ c ≤ '9') := by
  intro c hc
  unfold decimalInt at hc
  split at hc
  · rcases List.mem_cons.mp hc with rfl | hc
    · exact Or.inl rfl
    · exact Or.inr (decimal_digits _ c hc)
  · exact Or.inr (decimal_digits _ c hc)

theorem decimalInt_no_comma (i : Int) : ',' ∉ decimalInt i := by
  intro h
  rcases decimalInt_chars i ',' h with h1 | h1
  · exact absurd h1 (by decide)
  · exact absurd h1.1 (by decide)

theorem decimalInt_cons (i : Int) : ∃ c cs, decimalInt i = c :: cs ∧ c ≠ ',' := by
  unfold decimalInt
  split
  · exact ⟨'-', _, rfl, by decide⟩
  · obtain ⟨c, cs, h, h0, _⟩ := decimal_cons i.natAbs
    refine ⟨c, cs, h, ?_⟩
    intro e
    subst e
    exact absurd h0 (by decide)

theorem decimalInt_ne_nil (i : Int) : decimalInt i ≠ [] := by
  obtain ⟨c, cs, h, _⟩ := decimalInt_cons i
  simp [h]

/-- A fresh int64 element scanned from the decimal form of `x`. -/
theorem scanKind_int_decimalInt (lib : GoLib) (x : Int) (h1 : -(2 : Int) ^ 63 ≤ x)
    (h2 : x < (2 : Int) ^ 63) :
    scanKind lib (.Int 64) (zero (.Int 64)) [decimalInt x] = ⟨.int 64 x, 1, none⟩ := by
  have hp := strconv_ParseInt_decimalInt x h1 h2
  have hw : wrapInt 64 x = x := wrapInt_of_range (by decide) h1 h2
  simp [scanKind, hp, hw]

theorem joinComma_ne_nil (ds : List Str) (hne : ds ≠ []) (h : ∀ d ∈ ds, d ≠ []) :
    joinComma ds ≠ [] := by
  cases ds with
  | nil => exact absurd rfl hne
  | cons a rest =>
    cases rest with
    | nil => simpa [joinComma] using h a (by simp)
    | cons b rs => simp [joinComma]

/-- C13, amended: for every list `xs` of signed 64-bit integers that is not empty,
scanning the single token obtained by joining the decimal forms of `xs` with `,` into an
integer slice destination that holds `old` succeeds, reports a consumption of exactly one
token, and leaves the destination equal to `old` followed by `xs` (equal to `xs` when the
destination was empty). -/
theorem C13_joined_integers_into_slice (lib : GoLib) (old : List Value) (xs : List Int)
    (hne : xs ≠ []) (hr : ∀ x ∈ xs, -(2 : Int) ^ 63 ≤ x ∧ x < (2 : Int) ^ 63) :
    scanValue lib (.slice (.Int 64) old) [joinComma (xs.map decimalInt)]
      = ⟨.slice (.Int 64) (old ++ xs.map (Value.int 64)), 1, none⟩ := by
  have hps : ∀ p ∈ xs.map (fun x => (decimalInt x, Value.int 64 x)),
      p.1 ≠ [] ∧ ',' ∉ p.1
        ∧ (scanKind lib (.Int 64) (zero (.Int 64)) [p.1]).err = none
        ∧ (scanKind lib (.Int 64) (zero (.Int 64)) [p.1]).v = p.2 := by
    intro p hp
    rw [List.mem_map] at hp
    obtain ⟨x, hx, rfl⟩ := hp
    have := scanKind_int_decimalInt lib x (hr x hx).1 (hr x hx).2
    exact ⟨decimalInt_ne_nil x, decimalInt_no_comma x, by rw [this], by rw [this]⟩
  have hloop := scanLoop_join_start (scanKind lib (.Int 64) (zero (.Int 64))) "slice"
    (xs.map (fun x => (decimalInt x, Value.int 64 x))) old (by simpa using hne) hps
  have e1 : (xs.map (fun x => (decimalInt x, Value.int 64 x))).map (·.1) = xs.map decimalInt := by
    simp [List.map_map, Function.comp]
  have e2 : (xs.map (fun x => (decimalInt x, Value.int 64 x))).map (·.2)
      = xs.map (Value.int 64) := by
    simp [List.map_map, Function.comp]
  rw [e1, e2] at hloop
  have hjn : joinComma (xs.map decimalInt) ≠ [] :=
    joinComma_ne_nil _ (by simpa using hne) (by
      intro d hd
      rw [List.mem_map] at hd
      obtain ⟨x, _, rfl⟩ := hd
      exact decimalInt_ne_nil x)
  simp only [scanValue, Value.kind, scanKind, hjn, if_false, hloop]

/-- C13, amended, at a concrete input: `1,-2,3` into a slice that holds `9`. -/
theorem C13_witness :
    ([1, -2, 3] : List Int) ≠ []
    ∧ joinComma (([1, -2, 3] : List Int).map decimalInt) = ['1', ',', '-', '2', ',', '3']
    ∧ scanValue GoLib.basic (.slice (.Int 64) [.int 64 9])
        [joinComma (([1, -2, 3] : List Int).map decimalInt)]
      = ⟨.slice (.Int 64) ([.int 64 9] ++ ([1, -2, 3] : List Int).map (Value.int 64)), 1, none⟩ :=
  ⟨by decide, by decide,
    C13_joined_integers_into_slice GoLib.basic [.int 64 9] [1, -2, 3] (by decide) (by decide)⟩

/-- C13 as stated fails for a slice destination that is not empty: the token `1,2`
scanned into a slice that holds `9` leaves `9, 1, 2`, not `1, 2`. -/
theorem C13_counterexample_nonempty_destination :
    joinComma (([1, 2] : List Int).map decimalInt) = ['1', ',', '2']
    ∧ (scanValue GoLib.basic (.slice (.Int 64) [.int 64 9])
        [joinComma (([1, 2] : List Int).map decimalInt)]).v
      = .slice (.Int 64) [.int 64 9, .int 64 1, .int 64 2]
    ∧ (scanValue GoLib.basic (.slice (.Int 64) [.int 64 9])
        [joinComma (([1, 2] : List Int).map decimalInt)]).v
      ≠ .slice (.Int 64) (([1, 2] : List Int).map (Value.int 64)) := by
  have h : (scanValue GoLib.basic (.slice (.Int 64) [.int 64 9])
      [joinComma (([1, 2] : List Int).map decimalInt)]).v
      = .slice (.Int 64) [.int 64 9, .int 64 1, .int 64 2] := by rfl
  refine ⟨by decide, h, ?_⟩
  rw [h]
  intro e
  simp at e

/-- C14: for all signed 64-bit integers `a` and `b` with decimal forms `A` and `B`,
scanning each of the token lists `[A + "," + B]`, `[A + ",", B]`, `[A, "," + B]` and
`[A, ",", B]` into an empty integer slice yields the same sequence `[a, b]`, with reported
consumption 1, 2, 2 and 3 respectively, whereas scanning `[A, B]` yields `[a]` with
consumption 1. -/
theorem C14_comma_placements (lib : GoLib) (a b : Int)
    (ha : -(2 : Int) ^ 63 ≤ a ∧ a < (2 : Int) ^ 63)
    (hb : -(2 : Int) ^ 63 ≤ b ∧ b < (2 : Int) ^ 63) :
    scanValue lib (.slice (.Int 64) []) [decimalInt a ++ ',' :: decimalInt b]
        = ⟨.slice (.Int 64) [.int 64 a, .int 64 b], 1, none⟩
    ∧ scanValue lib (.slice (.Int 64) []) [decimalInt a ++ [','], decimalInt b]
        = ⟨.slice (.Int 64) [.int 64 a, .int 64 b], 2, none⟩
    ∧ scanValue lib (.slice (.Int 64) []) [decimalInt a, ',' :: decimalInt b]
        = ⟨.slice (.Int 64) [.int 64 a, .int 64 b], 2, none⟩
    ∧ scanValue lib (.slice (.Int 64) []) [decimalInt a, [','], decimalInt b]
        = ⟨.slice (.Int 64) [.int 64 a, .int 64 b], 3, none⟩
    ∧ scanValue lib (.slice (.Int 64) []) [decimalInt a, decimalInt b]
        = ⟨.slice (.Int 64) [.int 64 a], 1, none⟩ := by
  have hsa := scanKind_int_decimalInt lib a ha.1 ha.2
  have hsb := scanKind_int_decimalInt lib b hb.1 hb.2
  have hea : (scanKind lib (.Int 64) (zero (.Int 64)) [decimalInt a]).err = none := by rw [hsa]
  have heb : (scanKind lib (.Int 64) (zero (.Int 64)) [decimalInt b]).err = none := by rw [hsb]
  have hca := decimalInt_no_comma a
  have hcb := decimalInt_no_comma b
  have hna := decimalInt_ne_nil a
  have hnb := decimalInt_ne_nil b
  obtain ⟨c, cs, hbc, hc⟩ := decimalInt_cons b
  refine ⟨?_, ?_, ?_, ?_, ?_⟩
  · have h1 : decimalInt a ++ ',' :: decimalInt b ≠ [] := by simp
    simp only [scanValue, Value.kind, scanKind, h1, if_false, loopBound]
    rw [scanLoop_pass0 _ _ _ _ 0 [] _ _ 0 (consumeValue_comma 0 _ _ [] 0 hca) hea,
      scanLoop_pass _ _ _ 1 _ 0 _ _ 0 _ _ 1 (by omega) (consumeComma_glued _ [] 0 hnb)
        (consumeValue_nocomma 1 _ [] 0 hcb) heb,
      scanLoop_last _ _ _ 2 [] 1 _ [] (by omega) (by rfl), hsa, hsb]
    simp
  · have h1 : decimalInt a ++ [','] ≠ [] := by simp
    simp only [scanValue, Value.kind, scanKind, h1, if_false, loopBound]
    rw [scanLoop_pass0 _ _ _ _ 0 [] _ _ 0 (consumeValue_comma 0 _ [] [decimalInt b] 0 hca) hea,
      scanLoop_pass _ _ _ 1 _ 0 _ _ 1 _ _ 2 (by omega) (consumeComma_alone [decimalInt b] 0)
        (consumeValue_nocomma 1 _ [] 1 hcb) heb,
      scanLoop_last _ _ _ 2 [] 2 _ [] (by omega) (by rfl), hsa, hsb]
    simp
  · simp only [scanValue, Value.kind, scanKind, hna, if_false, loopBound]
    rw [scanLoop_pass0 _ _ _ _ 0 [] _ _ 1 (consumeValue_nocomma 0 _ [',' :: decimalInt b] 0 hca)
        hea,
      scanLoop_pass _ _ _ 1 _ 1 _ _ 1 _ _ 2 (by omega) (consumeComma_glued _ [] 1 hnb)
        (consumeValue_nocomma 1 _ [] 1 hcb) heb,
      scanLoop_last _ _ _ 2 [] 2 _ [] (by omega) (by rfl), hsa, hsb]
    simp
  · simp only [scanValue, Value.kind, scanKind, hna, if_false, loopBound]
    rw [scanLoop_pass0 _ _ _ _ 0 [] _ _ 1
        (consumeValue_nocomma 0 _ [[','], decimalInt b] 0 hca) hea,
      scanLoop_pass _ _ _ 1 _ 1 _ _ 2 _ _ 3 (by omega) (consumeComma_alone [decimalInt b] 1)
        (consumeValue_nocomma 1 _ [] 2 hcb) heb,
      scanLoop_last _ _ _ 2 [] 3 _ [] (by omega) (by rfl), hsa, hsb]
    simp
  · simp only [scanValue, Value.kind, scanKind, hna, if_false, loopBound]
    rw [scanLoop_pass0 _ _ _ _ 0 [] _ _ 1 (consumeValue_nocomma 0 _ [decimalInt b] 0 hca) hea,
      scanLoop_last _ _ _ 1 [decimalInt b] 1 _ [decimalInt b] (by omega)
        (by rw [hbc]; exact consumeComma_other c cs [] 1 hc), hsa]
    simp

/-- C14 at a concrete input: `a = 12`, `b = -7`. -/
theorem C14_witness :
    decimalInt 12 = ['1', '2'] ∧ decimalInt (-7) = ['-', '7']
    ∧ scanValue GoLib.basic (.slice (.Int 64) []) [decimalInt 12 ++ ',' :: decimalInt (-7)]
        = ⟨.slice (.Int 64) [.int 64 12, .int 64 (-7)], 1, none⟩
    ∧ scanValue GoLib.basic (.slice (.Int 64) []) [decimalInt 12 ++ [','], decimalInt (-7)]
        = ⟨.slice (.Int 64) [.int 64 12, .int 64 (-7)], 2, none⟩
    ∧ scanValue GoLib.basic (.slice (.Int 64) []) [decimalInt 12, ',' :: decimalInt (-7)]
        = ⟨.slice (.Int 64) [.int 64 12, .int 64 (-7)], 2, none⟩
    ∧ scanValue GoLib.basic (.slice (.Int 64) []) [decimalInt 12, [','], decimalInt (-7)]
        = ⟨.slice (.Int 64) [.int 64 12, .int 64 (-7)], 3, none⟩
    ∧ scanValue GoLib.basic (.slice (.Int 64) []) [decimalInt 12, decimalInt (-7)]
        = ⟨.slice (.Int 64) [.int 64 12], 1, none⟩ :=
  ⟨by decide, by decide,
    C14_comma_placements GoLib.basic 12 (-7) (by decide) (by decide)⟩

/-! ## Lemmas: failed scans -/

/-- A scan that returns an error leaves the destination as it was and reports no
consumption. -/
theorem scanKind_error (lib : GoLib) (k : Kind) (v : Value) (arguments : List Str)
    (h : (scanKind lib k v arguments).err ≠ none) :
    (scanKind lib k v arguments).v = v ∧ (scanKind lib k v arguments).n = 0 := by
  cases arguments with
  | nil =>
    cases k <;> simp [scanKind] at h ⊢
  | cons a rest =>
    cases k with
    | String => simp [scanKind] at h
    | Bool =>
      simp only [scanKind] at h ⊢
      split <;> simp_all
    | Int bits =>
      simp only [scanKind] at h ⊢
      split <;> simp_all
    | Uint bits =>
      simp only [scanKind] at h ⊢
      split <;> simp_all
    | Float bits =>
      simp only [scanKind] at h ⊢
      split <;> simp_all
    | Array len elem =>
      simp only [scanKind] at h ⊢
      split
      · simp_all
      · split
        · simp
        · split <;> simp_all
    | Slice elem =>
      simp only [scanKind] at h ⊢
      split
      · simp_all
      · split
        · simp
        · simp_all
    | Map key elem => simp [scanKind]
    | Struct fv => simp [scanKind]
    | Other => simp [scanKind]

theorem Append_Scan_error (lib : GoLib) (ptr : Bool) (i : Value) (s : List Str)
    (h : (Append_Scan lib ptr i s).err ≠ none) :
    (Append_Scan lib ptr i s).v = i ∧ (Append_Scan lib ptr i s).n = 0 := by
  unfold Append_Scan at h ⊢
  split
  · rename_i elem xs
    have hz := scanKind_error lib (zero (.Slice elem)).kind (zero (.Slice elem)) s
    simp only [scanValue] at h ⊢
    split
    · simp_all
    · simp_all
    · rename_i err _ he
      exact ⟨rfl, (hz (by rw [he]; simp)).2⟩
  · exact ⟨rfl, rfl⟩

theorem scanVar_plain (lib : GoLib) (v : Value) (name : Str) (arguments : List Str)
    (hc : v.isCustom = false) (hb : v.kind ≠ .Bool) :
    scanVar lib v name arguments = scanValue lib v arguments := by
  cases v <;> simp [Value.isCustom] at hc <;> simp [Value.kind] at hb <;>
    simp [scanVar, Value.kind, hb]

theorem scanVar_append_error (lib : GoLib) (ptr : Bool) (i : Value) (name : Str)
    (arguments : List Str) (h : (scanVar lib (.append ptr i) name arguments).err ≠ none) :
    (scanVar lib (.append ptr i) name arguments).v = .append ptr i
      ∧ (scanVar lib (.append ptr i) name arguments).n = 0 := by
  simp only [scanVar] at h ⊢
  cases he : (Append_Scan lib ptr i arguments).err with
  | none => simp [he] at h
  | some err =>
    have := Append_Scan_error lib ptr i arguments (by rw [he]; simp)
    simp [this.1]

theorem isCustom_of_kind (v : Value) (k : Kind) (hk : v.kind = k) (hs : k ≠ .Struct false) :
    v.isCustom = false := by
  cases v <;> simp [Value.kind] at hk <;> simp [Value.isCustom] <;> exact absurd hk.symm hs

/-- C16: for every sequence destination (slice or fixed-size array, also through the
`Append` wrapper) and every token list, if the scan fails then the destination holds
exactly the value it held before the scan and the reported consumption is 0: this holds
for `scanVar`, and for `scanValue` and `Append.Scan` that it calls. -/
theorem C16_failed_scan_leaves_destination (lib : GoLib) (v : Value) (name : Str)
    (arguments : List Str)
    (hseq : (∃ e, v.kind = .Slice e) ∨ (∃ l e, v.kind = .Array l e)
      ∨ (∃ ptr i, v = .append ptr i))
    (herr : (scanVar lib v name arguments).err ≠ none) :
    ((scanVar lib v name arguments).v = v ∧ (scanVar lib v name arguments).n = 0)
    ∧ (v.isCustom = false →
        (scanValue lib v arguments).v = v ∧ (scanValue lib v arguments).n = 0)
    ∧ (∀ ptr i, v = .append ptr i →
        (Append_Scan lib ptr i arguments).v = i ∧ (Append_Scan lib ptr i arguments).n = 0) := by
  have hplain : ∀ k, v.kind = k → k ≠ .Struct false → k ≠ .Bool →
      ((scanVar lib v name arguments).v = v ∧ (scanVar lib v name arguments).n = 0)
      ∧ (v.isCustom = false →
          (scanValue lib v arguments).v = v ∧ (scanValue lib v arguments).n = 0)
      ∧ (∀ ptr i, v = .append ptr i →
          (Append_Scan lib ptr i arguments).v = i ∧ (Append_Scan lib ptr i arguments).n = 0) := by
    intro k hk hs hb
    have hc := isCustom_of_kind v k hk hs
    have hsv := scanVar_plain lib v name arguments hc (by rw [hk]; exact hb)
    rw [hsv] at herr ⊢
    have := scanKind_error lib _ _ _ herr
    refine ⟨this, fun _ => this, ?_⟩
    intro ptr i hv
    subst hv
    simp [Value.isCustom] at hc
  rcases hseq with ⟨e, hk⟩ | ⟨l, e, hk⟩ | ⟨ptr, i, rfl⟩
  · exact hplain _ hk (by simp) (by simp)
  · exact hplain _ hk (by simp) (by simp)
  · refine ⟨scanVar_append_error lib ptr i name arguments herr, ?_, ?_⟩
    · intro hc
      simp [Value.isCustom] at hc
    · intro ptr1 i1 hv
      cases hv
      apply Append_Scan_error
      intro he
      apply herr
      simp [scanVar, he]

/-- C16 at concrete inputs: the token `1,x` into a slice that holds `9`, the token `1`
into an array of two, and the token `1,x` through `Append`. -/
theorem C16_witness :
    ((scanVar GoLib.basic (.slice (.Int 64) [.int 64 9]) [] [['1', ',', 'x']]).err ≠ none
      ∧ (scanVar GoLib.basic (.slice (.Int 64) [.int 64 9]) [] [['1', ',', 'x']]).v
          = .slice (.Int 64) [.int 64 9]
      ∧ (scanVar GoLib.basic (.slice (.Int 64) [.int 64 9]) [] [['1', ',', 'x']]).n = 0)
    ∧ ((scanVar GoLib.basic (.array (.Int 64) [.int 64 7, .int 64 8]) [] [['1']]).err ≠ none
      ∧ (scanVar GoLib.basic (.array (.Int 64) [.int 64 7, .int 64 8]) [] [['1']]).v
          = .array (.Int 64) [.int 64 7, .int 64 8]
      ∧ (scanVar GoLib.basic (.array (.Int 64) [.int 64 7, .int 64 8]) [] [['1']]).n = 0)
    ∧ ((scanVar GoLib.basic (.append true (.slice (.Int 64) [.int 64 9])) []
          [['1', ',', 'x']]).err ≠ none
      ∧ (scanVar GoLib.basic (.append true (.slice (.Int 64) [.int 64 9])) []
          [['1', ',', 'x']]).v = .append true (.slice (.Int 64) [.int 64 9])
      ∧ (scanVar GoLib.basic (.append true (.slice (.Int 64) [.int 64 9])) []
          [['1', ',', 'x']]).n = 0) :=
  have h1 : (scanVar GoLib.basic (.slice (.Int 64) [.int 64 9]) [] [['1', ',', 'x']]).err
      ≠ none := by decide
  have h2 : (scanVar GoLib.basic (.array (.Int 64) [.int 64 7, .int 64 8]) [] [['1']]).err
      ≠ none := by decide
  have h3 : (scanVar GoLib.basic (.append true (.slice (.Int 64) [.int 64 9])) []
      [['1', ',', 'x']]).err ≠ none := by decide
  ⟨⟨h1, (C16_failed_scan_leaves_destination GoLib.basic (.slice (.Int 64) [.int 64 9]) []
      [['1', ',', 'x']] (Or.inl ⟨.Int 64, rfl⟩) h1).1⟩,
    ⟨h2, (C16_failed_scan_leaves_destination GoLib.basic
      (.array (.Int 64) [.int 64 7, .int 64 8]) [] [['1']]
      (Or.inr (Or.inl ⟨2, .Int 64, rfl⟩)) h2).1⟩,
    ⟨h3, (C16_failed_scan_leaves_destination GoLib.basic
      (.append true (.slice (.Int 64) [.int 64 9])) [] [['1', ',', 'x']]
      (Or.inr (Or.inr ⟨true, .slice (.Int 64) [.int 64 9], rfl⟩)) h3).1⟩⟩

/-! ## Lemmas: the element count of an array scan -/

/-- An empty first token ends the scan of an array at once, whatever its length: one token
is reported as consumed, no error is returned and the count is not compared. -/
theorem scanKind_array_empty_token (lib : GoLib) (len : Nat) (elem : Kind) (v : Value)
    (rest : List Str) : scanKind lib (.Array len elem) v ([] :: rest) = ⟨v, 1, none⟩ := by
  simp [scanKind]

/-- Each pass of the sequence loop that goes on appends one element and adds one to `j`. -/
theorem scanLoop_length (scanElem : List Str → Scan) (typ : String) (fuel : Nat) :
    ∀ (j : Nat) (arguments : List Str) (n : Nat) (slice : List Value) (j1 n1 : Nat)
      (slice1 : List Value),
      scanLoop scanElem typ fuel j arguments n slice = .ok (j1, n1, slice1) →
      slice1.length + j = slice.length + j1 := by
  induction fuel with
  | zero =>
    intro j arguments n slice j1 n1 slice1 h
    simp only [scanLoop, Except.ok.injEq, Prod.mk.injEq] at h
    obtain ⟨rfl, _, rfl⟩ := h
    rfl
  | succ fuel ih =>
    intro j arguments n slice j1 n1 slice1 h
    rw [scanLoop] at h
    dsimp only at h
    generalize (if j ≠ 0 then consumeComma arguments n else (arguments, n, false)) = c at h
    split at h
    · simp only [Except.ok.injEq, Prod.mk.injEq] at h
      obtain ⟨rfl, _, rfl⟩ := h
      rfl
    · split at h
      · simp only [Except.ok.injEq, Prod.mk.injEq] at h
        obtain ⟨rfl, _, rfl⟩ := h
        rfl
      · split at h
        · cases h
        · have := ih _ _ _ _ _ _ _ h
          simp only [List.length_append, List.length_singleton] at this
          omega

/-- An array scan whose first token is not empty succeeds only with exactly `len` parsed
elements, which become the array. -/
theorem scanKind_array_ok_length (lib : GoLib) (len : Nat) (elem : Kind) (v : Value)
    (a : Str) (rest : List Str) (ha : a ≠ [])
    (h : (scanKind lib (.Array len elem) v (a :: rest)).err = none) :
    ∃ xs, (scanKind lib (.Array len elem) v (a :: rest)).v = .array elem xs
      ∧ xs.length = len := by
  simp only [scanKind, ha, if_false] at h ⊢
  split at h
  · simp at h
  · rename_i j n slice heq
    have hl := scanLoop_length _ _ _ _ _ _ _ _ _ _ heq
    by_cases hj : j = len
    · simp only [hj, ne_eq, not_true_eq_false, if_false]
      exact ⟨slice, rfl, by simp at hl; omega⟩
    · simp [hj] at h

/-- C15 as stated fails: scanning the token list `[""]` into an array of two 64-bit
integers parses no element and yet returns no error, with a consumption of 1 and the array
as it was; through `parse`, `--pair ""` succeeds on `typesCmd`.  The tokens `1` and `1,2,3`
fail with the count error and `1,2` succeeds.  The token `1,x` parses one element and
fails with the error of the second element, not with the count error. -/
theorem C15_counterexample_empty_token :
    scanValue GoLib.basic (.array (.Int 64) [.int 64 0, .int 64 0]) [[]]
      = ⟨.array (.Int 64) [.int 64 0, .int 64 0], 1, none⟩
    ∧ scanValue GoLib.basic (.array (.Int 64) [.int 64 0, .int 64 0]) [['1']]
      = ⟨.array (.Int 64) [.int 64 0, .int 64 0], 0, some (.text "expected values for array")⟩
    ∧ scanValue GoLib.basic (.array (.Int 64) [.int 64 0, .int 64 0]) [['1', ',', '2', ',', '3']]
      = ⟨.array (.Int 64) [.int 64 0, .int 64 0], 0, some (.text "expected values for array")⟩
    ∧ scanValue GoLib.basic (.array (.Int 64) [.int 64 0, .int 64 0]) [['1', ',', '2']]
      = ⟨.array (.Int 64) [.int 64 1, .int 64 2], 1, none⟩
    ∧ (∃ r, parse GoLib.basic 1 typesCmd [['-', '-', 'p', 'a', 'i', 'r'], []] = some r
        ∧ r.err = none ∧ r.rest = []
        ∧ valueAt r.self.vars 3 = some (.array (.Int 64) [.int 64 0, .int 64 0]))
    ∧ scanValue GoLib.basic (.array (.Int 64) [.int 64 0, .int 64 0]) [['1', ',', 'x']]
      = ⟨.array (.Int 64) [.int 64 0, .int 64 0], 0, some (.text "array index")⟩ :=
  ⟨rfl, rfl, rfl, rfl, ⟨_, rfl, rfl, rfl, rfl⟩, rfl⟩

/-- C15, amended: for every fixed-size array destination of declared length `len` and every
token list whose first token is not empty, the scan succeeds only if the element loop
parsed exactly `len` elements, which become the array; whenever the loop ends without an
element error having parsed `j` elements, the scan fails with the count error if `j`
differs from `len` and succeeds if it does not; an element error fails the scan with that
error.  For a token list whose first token is empty the scan returns no error, reports
one token consumed and leaves the array as it was.  Each failure leaves the array as it
was and reports no consumption. -/
theorem C15_array_count (lib : GoLib) (v : Value) (len : Nat) (elem : Kind)
    (hk : v.kind = .Array len elem) (a : Str) (rest : List Str) (ha : a ≠ []) :
    ((scanValue lib v (a :: rest)).err = none →
      ∃ xs n, scanLoop (scanKind lib elem (zero elem)) "array" (loopBound (a :: rest)) 0
          (a :: rest) 0 [] = .ok (len, n, xs)
        ∧ xs.length = len ∧ scanValue lib v (a :: rest) = ⟨.array elem xs, n, none⟩)
    ∧ (∀ more j n xs, scanLoop (scanKind lib elem (zero elem)) "array"
          (loopBound (a :: rest) + more) 0 (a :: rest) 0 [] = .ok (j, n, xs) →
        xs.length = j
        ∧ (j ≠ len →
            scanValue lib v (a :: rest) = ⟨v, 0, some (.text "expected values for array")⟩)
        ∧ (j = len → scanValue lib v (a :: rest) = ⟨.array elem xs, n, none⟩))
    ∧ (∀ more err, scanLoop (scanKind lib elem (zero elem)) "array"
          (loopBound (a :: rest) + more) 0 (a :: rest) 0 [] = .error err →
        scanValue lib v (a :: rest) = ⟨v, 0, some err⟩)
    ∧ scanValue lib v ([] :: rest) = ⟨v, 1, none⟩ := by
  have he : scanValue lib v ([] :: rest) = ⟨v, 1, none⟩ := by
    rw [scanValue, hk]
    simp [scanKind]
  have hs : scanValue lib v (a :: rest)
      = match scanLoop (scanKind lib elem (zero elem)) "array" (loopBound (a :: rest)) 0
          (a :: rest) 0 [] with
        | .error err => ⟨v, 0, some err⟩
        | .ok (j, n, slice) =>
          if j ≠ len then ⟨v, 0, some (.text "expected values for array")⟩
          else ⟨.array elem slice, n, none⟩ := by
    rw [scanValue, hk]
    simp only [scanKind, ha, if_false]
  rw [hs]
  simp only [scanLoop_loopBound]
  cases hL : scanLoop (scanKind lib elem (zero elem)) "array" (loopBound (a :: rest)) 0
      (a :: rest) 0 [] with
  | error err =>
    refine ⟨?_, ?_, ?_, he⟩
    · intro h
      simp at h
    · intro _ j n xs h
      cases h
    · intro _ err1 h
      cases h
      rfl
  | ok r =>
    obtain ⟨j, n, slice⟩ := r
    have hl := scanLoop_length _ _ _ _ _ _ _ _ _ _ hL
    simp only [List.length_nil, Nat.add_zero, Nat.zero_add] at hl
    refine ⟨?_, ?_, ?_, he⟩
    · intro h
      by_cases hj : j = len
      · subst hj
        exact ⟨slice, n, rfl, hl, by simp⟩
      · simp [hj] at h
    · intro _ j1 n1 xs h
      simp only [Except.ok.injEq, Prod.mk.injEq] at h
      obtain ⟨rfl, rfl, rfl⟩ := h
      refine ⟨hl, ?_, ?_⟩
      · intro hj
        simp [hj]
      · intro hj
        simp [hj]
    · intro _ err h
      cases h

/-- C15, amended, at concrete inputs, for an array of two 64-bit integers: the token `1`
gives one element and fails with the count error; the token `1,2` gives two and
succeeds. -/
theorem C15_witness :
    scanValue GoLib.basic (.array (.Int 64) [.int 64 0, .int 64 0]) [['1']]
      = ⟨.array (.Int 64) [.int 64 0, .int 64 0], 0, some (.text "expected values for array")⟩
    ∧ scanValue GoLib.basic (.array (.Int 64) [.int 64 0, .int 64 0]) [['1', ',', '2']]
      = ⟨.array (.Int 64) [.int 64 1, .int 64 2], 1, none⟩ :=
  ⟨((C15_array_count GoLib.basic (.array (.Int 64) [.int 64 0, .int 64 0]) 2 (.Int 64) rfl
      ['1'] [] (by decide)).2.1 0 1 1 [.int 64 1] rfl).2.1 (by decide),
    ((C15_array_count GoLib.basic (.array (.Int 64) [.int 64 0, .int 64 0]) 2 (.Int 64) rfl
      ['1', ',', '2'] [] (by decide)).2.1 0 2 1 [.int 64 1, .int 64 2] rfl).2.2 rfl⟩

/-! ## Lemmas: the flag `IsSet` in the loop of short options -/

theorem modifyAt_isSet (f : Variable → Variable) (hf : ∀ v, (f v).IsSet = v.IsSet) (k : Nat)
    (vars : List Variable) :
    (modifyAt f k vars).map (·.IsSet) = vars.map (·.IsSet) := by
  induction vars generalizing k with
  | nil => cases k <;> rfl
  | cons v vs ih =>
    cases k with
    | zero => simp [modifyAt, hf]
    | succ k => simp [modifyAt, ih]

/-- The loop over the runes of a short option token changes no flag `IsSet`. -/
theorem shortLoop_isSet (lib : GoLib) (tail : List Str) (cs : List Char) :
    ∀ vars : List Variable,
      (shortLoop lib tail vars cs).1.map (·.IsSet) = vars.map (·.IsSet) := by
  induction cs with
  | nil => intro vars; rfl
  | cons name cs ih =>
    intro vars
    rw [shortLoop]
    split
    · rfl
    · dsimp only
      repeat' split
      all_goals first
        | (apply modifyAt_isSet
           intro v
           rfl)
        | (rw [ih]
           apply modifyAt_isSet
           intro v
           rfl)

/-- C17 at the failing inputs, for the command `optionsCmd` (the option `a` at position 2,
`c` at position 4): `parse` of `-c 5`, of `-c5` and of `-a` succeeds and binds the value,
and the flag `IsSet` of the bound variable is false; after the long forms `--c 5` and
`--a` it is true. -/
theorem C17_short_option_leaves_isSet_false :
    (∃ r, parse GoLib.basic 1 optionsCmd [['-', 'c'], ['5']] = some r ∧ r.err = none
        ∧ valueAt r.self.vars 4 = some (.int 64 5) ∧ isSetAt r.self.vars 4 = some false)
    ∧ (∃ r, parse GoLib.basic 1 optionsCmd [['-', 'c', '5']] = some r ∧ r.err = none
        ∧ valueAt r.self.vars 4 = some (.int 64 5) ∧ isSetAt r.self.vars 4 = some false)
    ∧ (∃ r, parse GoLib.basic 1 optionsCmd [['-', 'a']] = some r ∧ r.err = none
        ∧ valueAt r.self.vars 2 = some (.bool true) ∧ isSetAt r.self.vars 2 = some false)
    ∧ (∃ r, parse GoLib.basic 1 optionsCmd [['-', '-', 'c'], ['5']] = some r ∧ r.err = none
        ∧ valueAt r.self.vars 4 = some (.int 64 5) ∧ isSetAt r.self.vars 4 = some true)
    ∧ (∃ r, parse GoLib.basic 1 optionsCmd [['-', '-', 'a']] = some r ∧ r.err = none
        ∧ valueAt r.self.vars 2 = some (.bool true) ∧ isSetAt r.self.vars 2 = some true) :=
  ⟨⟨_, rfl, rfl, rfl, rfl⟩, ⟨_, rfl, rfl, rfl, rfl⟩, ⟨_, rfl, rfl, rfl, rfl⟩,
    ⟨_, rfl, rfl, rfl, rfl⟩, ⟨_, rfl, rfl, rfl, rfl⟩⟩

/-! ## Lemmas: `parse` of no tokens -/

/-- The result of `parse` of no tokens: the defaults are set, the token loop and the loop
of the indexed arguments have nothing to do, and the rest variable, if there is one, is
written. -/
theorem parse_nil (lib : GoLib) (fuel : Nat) (argp : Argp)
    (hd : defaultsTyped argp.vars = true) :
    parse lib fuel argp []
      = some (match findRest (argp.vars.map withDefault) with
        | some (k, _) =>
          ⟨.mk (modifyAt (setRest []) k (argp.vars.map withDefault)) argp.cmds,
            .mk (modifyAt (setRest []) k (argp.vars.map withDefault)) argp.cmds, [], none⟩
        | none =>
          ⟨.mk (argp.vars.map withDefault) argp.cmds, .mk (argp.vars.map withDefault) argp.cmds,
            [], none⟩) := by
  rw [parse, parseSelf, setDefaults_typed _ hd]
  simp only
  rw [walk_end lib [] fuel _ _ 0 (by simp)]
  simp only [assignArguments, indexed_nil, List.drop_nil]

theorem map_withDefault_getElem? (vars : List Variable) (k : Nat) (v : Variable) (d : Value)
    (hv : vars[k]? = some v) (hd : v.Default = some d) :
    (vars.map withDefault)[k]? = some { v with Value := d } := by
  simp [List.getElem?_map, hv, withDefault, hd]

/-- C18, amended: for every command whose declared defaults have the types of their
destinations, `parse` of no tokens succeeds with no unconsumed tokens; every descriptor
with a declared default other than the rest descriptor is left with its bound value equal
to that default and its flag `IsSet` as it was before the parse (false if it was false);
the rest descriptor is bound to the empty list and its flag `IsSet` is true. -/
theorem C18_parse_nil_applies_defaults (lib : GoLib) (argp : Argp) (fuel : Nat)
    (hd : defaultsTyped argp.vars = true) :
    ∃ r, parse lib fuel argp [] = some r ∧ r.err = none ∧ r.rest = []
      ∧ (∀ k v d, argp.vars[k]? = some v → v.Default = some d → v.Rest = false →
          valueAt r.self.vars k = some d ∧ isSetAt r.self.vars k = some v.IsSet)
      ∧ (∀ k v, findRest argp.vars = some (k, v) → v.Value.kind = .Slice .String →
          valueAt r.self.vars k = some (.slice .String [])
            ∧ isSetAt r.self.vars k = some true) := by
  have hsh := SameShape_withDefault _ hd
  refine ⟨_, parse_nil lib fuel argp hd, ?_⟩
  cases hr : findRest (argp.vars.map withDefault) with
  | none =>
    refine ⟨rfl, rfl, ?_, ?_⟩
    · intro k v d hv hdv _
      have := map_withDefault_getElem? _ k v d hv hdv
      show valueAt (argp.vars.map withDefault) k = some d
        ∧ isSetAt (argp.vars.map withDefault) k = some v.IsSet
      simp only [valueAt, isSetAt, this, Option.map_some', and_self]
    · intro k v hf _
      obtain ⟨w, hw, _⟩ := findRest_SameShape hsh hf
      rw [hr] at hw
      cases hw
  | some p =>
    obtain ⟨kr, w⟩ := p
    have hwr := findVar_some hr
    refine ⟨rfl, rfl, ?_, ?_⟩
    · intro k v d hv hdv hrest
      have hk := map_withDefault_getElem? _ k v d hv hdv
      have hne : k ≠ kr := by
        intro e
        subst e
        rw [hwr.1] at hk
        cases hk
        simp [hrest] at hwr
      show valueAt (modifyAt (setRest []) kr (argp.vars.map withDefault)) k = some d
        ∧ isSetAt (modifyAt (setRest []) kr (argp.vars.map withDefault)) k = some v.IsSet
      simp only [valueAt, isSetAt, modifyAt_getElem?, hne, if_false, hk, Option.map_some',
        and_self]
    · intro k v hf hkind
      obtain ⟨w1, hw, hs⟩ := findRest_SameShape hsh hf
      rw [hr] at hw
      cases hw
      have hkw : w.Value.kind = .Slice .String := by rw [← hs.2.2.2.2]; exact hkind
      have hv := setRest_value_slice [] w hkw
      simp only [List.map_nil] at hv
      show valueAt (modifyAt (setRest []) kr (argp.vars.map withDefault)) kr
          = some (.slice .String [])
        ∧ isSetAt (modifyAt (setRest []) kr (argp.vars.map withDefault)) kr = some true
      simp only [valueAt, isSetAt, modifyAt_getElem?, if_true, hwr.1, Option.map_some', hv,
        true_and]
      rfl

/-- C18, amended, at concrete inputs: the commands `optionsCmd` (the option `baz` with the
default `default` at position 6) and `argsCmd` (the positional `src` at position 1, the
rest variable at position 2). -/
theorem C18_witness :
    (∃ r, parse GoLib.basic 0 optionsCmd [] = some r ∧ r.err = none ∧ r.rest = []
      ∧ valueAt r.self.vars 6 = some (.str ['d', 'e', 'f', 'a', 'u', 'l', 't'])
      ∧ isSetAt r.self.vars 6 = some false)
    ∧ (∃ r, parse GoLib.basic 0 argsCmd [] = some r ∧ r.err = none ∧ r.rest = []
      ∧ valueAt r.self.vars 1 = some (.str []) ∧ isSetAt r.self.vars 1 = some false
      ∧ valueAt r.self.vars 2 = some (.slice .String []) ∧ isSetAt r.self.vars 2 = some true) :=
  have h1 := C18_parse_nil_applies_defaults GoLib.basic optionsCmd 0 (by decide)
  have h2 := C18_parse_nil_applies_defaults GoLib.basic argsCmd 0 (by decide)
  ⟨h1.elim fun r h => ⟨r, h.1, h.2.1, h.2.2.1,
      (h.2.2.2.1 6 _ _ rfl rfl rfl).1, (h.2.2.2.1 6 _ _ rfl rfl rfl).2⟩,
    h2.elim fun r h => ⟨r, h.1, h.2.1, h.2.2.1,
      (h.2.2.2.1 1 _ _ rfl rfl rfl).1, (h.2.2.2.1 1 _ _ rfl rfl rfl).2,
      (h.2.2.2.2 2 _ rfl rfl).1, (h.2.2.2.2 2 _ rfl rfl).2⟩⟩

/-- C18 as stated fails for the rest descriptor, which has a declared default: after
`parse` of no tokens on the command `argsCmd`, not parsed before, its flag `IsSet` is
true.  It fails also for a command parsed before: after `--flag`, `parse` of no tokens
sets `flag` back to its default and leaves its flag `IsSet` true. -/
theorem C18_counterexample_rest_is_set :
    (∃ v d, argsCmd.vars[2]? = some v ∧ v.Default = some d ∧ v.IsSet = false)
    ∧ (∃ r, parse GoLib.basic 0 argsCmd [] = some r ∧ r.err = none
        ∧ isSetAt r.self.vars 2 = some true)
    ∧ (¬ ∃ fuel r, parse GoLib.basic fuel argsCmd [] = some r
        ∧ isSetAt r.self.vars 2 = some false)
    ∧ (∃ r1 r, parse GoLib.basic 1 optionsCmd [['-', '-', 'f', 'l', 'a', 'g']] = some r1
        ∧ r1.err = none ∧ valueAt r1.self.vars 1 = some (.bool true)
        ∧ (∃ v, r1.self.vars[1]? = some v ∧ v.Default = some (.bool false))
        ∧ parse GoLib.basic 0 r1.self [] = some r ∧ r.err = none
        ∧ valueAt r.self.vars 1 = some (.bool false)
        ∧ isSetAt r.self.vars 1 = some true) := by
  refine ⟨⟨_, _, rfl, rfl, rfl⟩, ⟨_, rfl, rfl, rfl⟩, ?_,
    ⟨_, _, rfl, rfl, rfl, ⟨_, rfl, rfl⟩, rfl, rfl, rfl, rfl⟩⟩
  rintro ⟨fuel, r, h, hs⟩
  rw [parse_nil GoLib.basic fuel argsCmd (by decide)] at h
  cases h
  revert hs
  decide

/-! ## Lemmas: the counting option -/

theorem customCmd_registered (m : Int) (xs : List Value) :
    registerCustomCmd GoLib.basic m xs = some (customCmd m xs) := by
  rfl

theorem two_pow_le_63 {bits : Nat} (hb : bits ≤ 64) : (2 : Int) ^ (bits - 1) ≤ (2 : Int) ^ 63 :=
  pow_le_pow_right₀ (by norm_num) (by omega)

theorem two_pow_le_64 {bits : Nat} (hb : bits ≤ 64) : (2 : Nat) ^ bits ≤ 2 ^ 64 :=
  Nat.pow_le_pow_right (by norm_num) hb

/-- A call of `Count.Scan` whose first token does not begin with a digit adds one. -/
theorem Count_Scan_incr (lib : GoLib) (signed : Bool) (bits : Nat) (m : Int) (s : List Str)
    (hs : startsWithDigit s = false) (hb0 : 0 < bits) (hb : bits ≤ 64)
    (hlo : intMin signed bits ≤ m) (hhi : m + 1 < intSup signed bits) :
    Count_Scan lib true (intValue signed bits m) s = ⟨intValue signed bits (m + 1), 0, none⟩ := by
  cases signed with
  | true =>
    simp only [intMin, intSup, if_true] at hlo hhi
    have h63 := two_pow_le_63 hb
    have h1 : wrapInt 64 (m + 1) = m + 1 :=
      wrapInt_of_range (by norm_num) (by simp only [Nat.add_one_sub_one]; omega)
        (by simp only [Nat.add_one_sub_one]; omega)
    have h2 : wrapInt bits (m + 1) = m + 1 := wrapInt_of_range hb0 (by omega) hhi
    simp [Count_Scan, intValue, Value.kind, isIntKind, hs, h1, h2]
  | false =>
    simp only [intMin, intSup, if_false, Bool.false_eq_true] at hlo hhi
    have h64 := two_pow_le_64 hb
    have hn : ((m + 1).toNat : Int) = m + 1 := Int.toNat_of_nonneg (by omega)
    have hm : (m.toNat : Int) = m := Int.toNat_of_nonneg hlo
    have hlt : m.toNat + 1 < 2 ^ bits := by
      have : ((m.toNat + 1 : Nat) : Int) < ((2 ^ bits : Nat) : Int) := by
        push_cast
        omega
      exact_mod_cast this
    have he : (m + 1).toNat = m.toNat + 1 := by omega
    have h1 : wrapUint 64 (m.toNat + 1) = m.toNat + 1 := Nat.mod_eq_of_lt (by omega)
    have h2 : wrapUint bits (m.toNat + 1) = m.toNat + 1 := Nat.mod_eq_of_lt hlt
    simp [Count_Scan, intValue, Value.kind, isIntKind, isUintKind, hs, h1, h2, he]

theorem startsWithDigit_decimal (n : Nat) (rest : List Str) :
    startsWithDigit (decimal n :: rest) = true := by
  obtain ⟨c, cs, h, h1, h2⟩ := decimal_cons n
  simp [startsWithDigit, h, h1, h2]

/-- A call of `Count.Scan` whose first token is the decimal form of `n` stores `n`. -/
theorem Count_Scan_decimal (lib : GoLib) (signed : Bool) (bits : Nat) (m : Int) (n : Nat)
    (rest : List Str) (hb0 : 0 < bits) (hb : bits ≤ 64) (hhi : (n : Int) < intSup signed bits) :
    Count_Scan lib true (intValue signed bits m) (decimal n :: rest)
      = ⟨intValue signed bits n, 1, none⟩ := by
  have hs := startsWithDigit_decimal n rest
  cases signed with
  | true =>
    simp only [intSup, if_true] at hhi
    have h63 := two_pow_le_63 hb
    have hp := strconv_ParseInt_decimal n (by
      have : (n : Int) < (2 : Int) ^ 63 := by omega
      exact_mod_cast this)
    have h2 : wrapInt bits (n : Int) = n :=
      wrapInt_of_range hb0 (by
        have : (0 : Int) < (2 : Int) ^ (bits - 1) := by positivity
        omega) hhi
    simp [Count_Scan, intValue, Value.kind, isIntKind, hs, scanValue, scanKind, hp, h2]
  | false =>
    simp only [intSup, if_false, Bool.false_eq_true] at hhi
    have h64 := two_pow_le_64 hb
    have hlt : n < 2 ^ bits := by exact_mod_cast hhi
    have hp := strconv_ParseUint_decimal n (by omega)
    have h2 : wrapUint bits n = n := Nat.mod_eq_of_lt hlt
    simp [Count_Scan, intValue, Value.kind, isIntKind, isUintKind, hs, scanValue, scanKind, hp, h2]

theorem scanVar_count (lib : GoLib) (i : Value) (name : Str) (s : List Str) (j : Value)
    (n : Nat) (h : Count_Scan lib true i s = ⟨j, n, none⟩) :
    scanVar lib (.count true i) name s = ⟨.count true j, n, none⟩ := by
  simp [scanVar, h]

theorem findShort_withDefault (vars : List Variable) (c : Char) (k : Nat) (v : Variable)
    (h : findShort vars c = some (k, v)) (hd : v.Default = none) :
    findShort (vars.map withDefault) c = some (k, v) := by
  unfold findShort at h ⊢
  rw [findVar_map withDefault (fun w => by rw [(withDefault_keys w).2.1]), h]
  simp [withDefault, hd]

theorem findName_withDefault (lib : GoLib) (vars : List Variable) (name : Str) (k : Nat)
    (v : Variable) (h : findName lib vars name = some (k, v)) (hd : v.Default = none) :
    findName lib (vars.map withDefault) name = some (k, v) := by
  unfold findName at h ⊢
  split
  · rename_i hn
    simp [hn] at h
  · rename_i hn
    simp only [hn, if_false] at h
    rw [findVar_map withDefault (fun w => by
      rw [(withDefault_keys w).1, (withDefault_keys w).2.1]), h]
    simp [withDefault, hd]

theorem findShort_setValue (vars : List Variable) (c : Char) (k : Nat) (v : Variable)
    (x : Value) (h : findShort vars c = some (k, v)) :
    findShort (modifyAt (fun w => { w with Value := x }) k vars) c
      = some (k, { v with Value := x }) := by
  unfold findShort at h ⊢
  rw [@findVar_modifyAt (fun v => v.Short ≠ Char.ofNat 0 && v.Short = c)
    (fun w => { w with Value := x }) (fun w => rfl), h]
  simp

theorem startsWithDigit_replicate_c (k : Nat) :
    startsWithDigit (if decide (0 < (List.replicate k 'c').length) = true
      then [List.replicate k 'c'] else []) = false := by
  cases k with
  | zero => rfl
  | succ k => simp [List.replicate_succ, startsWithDigit]

/-- The loop of short options over `k` copies of `c`, with no token after the cluster:
every copy adds one to the counter. -/
theorem shortLoop_count (lib : GoLib) (signed : Bool) (bits : Nat) (kc : Nat)
    (hb0 : 0 < bits) (hb : bits ≤ 64) (k : Nat) :
    ∀ (vars : List Variable) (v : Variable) (m : Int),
      findShort vars 'c' = some (kc, v) → v.Value = .count true (intValue signed bits m) →
      intMin signed bits ≤ m → m + k < intSup signed bits →
      ∃ vars1 v1, shortLoop lib [] vars (List.replicate k 'c') = (vars1, .ok 0)
        ∧ (k = 0 → vars1 = vars)
        ∧ findShort vars1 'c' = some (kc, v1)
        ∧ v1.Value = .count true (intValue signed bits (m + k)) := by
  induction k with
  | zero =>
    intro vars v m hf hv _ _
    exact ⟨vars, v, rfl, fun _ => rfl, hf, by simpa using hv⟩
  | succ k ih =>
    intro vars v m hf hv hlo hhi
    have hsc := Count_Scan_incr lib signed bits m
      (if decide (0 < (List.replicate k 'c').length) = true then [List.replicate k 'c'] else [])
      (startsWithDigit_replicate_c k) hb0 hb hlo (by push_cast at hhi; omega)
    have hsv := scanVar_count lib _ ['c'] _ _ _ hsc
    have hhead : (List.replicate k 'c').head? ≠ some '=' := by
      cases k with
      | zero => simp
      | succ k => simp [List.replicate_succ]
    obtain ⟨vars1, v1, h1, _, h2, h3⟩ := ih
      (modifyAt (fun w => { w with Value := .count true (intValue signed bits (m + 1)) }) kc vars)
      { v with Value := .count true (intValue signed bits (m + 1)) } (m + 1)
      (findShort_setValue vars 'c' kc v _ hf) rfl (by omega) (by push_cast at hhi ⊢; omega)
    refine ⟨vars1, v1, ?_, by simp, h2, by rw [h3]; push_cast; congr 2; ring⟩
    rw [List.replicate_succ, shortLoop]
    simp only [hf, hhead, decide_False, Bool.false_eq_true, if_false, hv, hsv, if_true]
    exact h1

/-- A short option whose value is the next token: the scanner consumes one token. -/
theorem shortLoop_value_next (lib : GoLib) (vars : List Variable) (c : Char) (kc : Nat)
    (vc : Variable) (x : Value) (d : Str) (rest : List Str)
    (hf : findShort vars c = some (kc, vc))
    (hsc : scanVar lib vc.Value [c] (d :: rest) = ⟨x, 1, none⟩) :
    shortLoop lib (d :: rest) vars [c]
      = (modifyAt (fun w => { w with Value := x }) kc vars, .ok 1) := by
  rw [shortLoop]
  simp [hf, hsc]

/-- A short option whose value is glued to it after `=`: the scanner consumes the glued
value, and the cursor is not moved. -/
theorem shortLoop_value_eq (lib : GoLib) (tail : List Str) (vars : List Variable) (c : Char)
    (kc : Nat) (vc : Variable) (x : Value) (d : Str) (hd : d ≠ [])
    (hf : findShort vars c = some (kc, vc))
    (hsc : scanVar lib vc.Value [c] (d :: tail) = ⟨x, 1, none⟩) :
    shortLoop lib tail vars (c :: '=' :: d)
      = (modifyAt (fun w => { w with Value := x }) kc vars, .ok 0) := by
  have hlen : 0 < d.length := List.length_pos.mpr hd
  rw [shortLoop]
  simp [hf, hsc, hlen]

/-- C19, amended: for a Count option with short name `c` wrapping an integer (signed or
unsigned, of at most 64 bits) that holds `m`, and for every `k ≥ 1` such that `m + k` is
within the range of that integer type, `parse` of the single cluster token `-` followed by
`k` copies of `c` succeeds and leaves the integer equal to `m + k`; for every non-negative
`n` within the range of the type, with decimal form `D`, `parse` of `["-c=" + D]` and of
`["-c", D]` sets the integer to `n`. -/
theorem C19_count_option (lib : GoLib) (argp : Argp) (kc : Nat) (vc : Variable)
    (signed : Bool) (bits : Nat) (m : Int) (fuel : Nat)
    (hc : noDashCmd argp.cmds = true) (hd : defaultsTyped argp.vars = true)
    (hshort : findShort argp.vars 'c' = some (kc, vc))
    (hval : vc.Value = .count true (intValue signed bits m)) (hdef : vc.Default = none)
    (hb0 : 0 < bits) (hb : bits ≤ 64) (hlo : intMin signed bits ≤ m) :
    (∀ k : Nat, 1 ≤ k → m + k < intSup signed bits →
      ∃ r, parse lib (fuel + 1) argp ['-' :: List.replicate k 'c'] = some r ∧ r.err = none
        ∧ r.rest = []
        ∧ valueAt r.self.vars kc = some (.count true (intValue signed bits (m + k))))
    ∧ (∀ n : Nat, (n : Int) < intSup signed bits →
      (∃ r, parse lib (fuel + 1) argp [['-', 'c', '='] ++ decimal n] = some r ∧ r.err = none
        ∧ r.rest = []
        ∧ valueAt r.self.vars kc = some (.count true (intValue signed bits n)))
      ∧ (∃ r, parse lib (fuel + 1) argp [['-', 'c'], decimal n] = some r ∧ r.err = none
        ∧ r.rest = []
        ∧ valueAt r.self.vars kc = some (.count true (intValue signed bits n)))) := by
  have hf0 := findShort_withDefault _ _ _ _ hshort hdef
  have hget := (findShort_some hf0).1
  have hkind : ∀ x : Int, (Value.count true (intValue signed bits x)).kind ≠ .Slice .String := by
    intro x
    simp [Value.kind]
  constructor
  · intro k hk hhi
    obtain ⟨k, rfl⟩ : ∃ j, k = j + 1 := ⟨k - 1, by omega⟩
    obtain ⟨vars1, v1, h1, _, h2, h3⟩ := shortLoop_count lib signed bits kc hb0 hb (k + 1)
      (argp.vars.map withDefault) vc m hf0 hval hlo hhi
    have hb1 : body lib ['-' :: List.replicate (k + 1) 'c'] (argp.vars.map withDefault) [] 0
        ('-' :: List.replicate (k + 1) 'c') = .next vars1 [] 0 := by
      rw [List.replicate_succ, body_short lib _ _ _ _ 'c' _ (by decide)]
      rw [List.replicate_succ] at h1
      simp only [Nat.zero_add, List.drop_succ_cons, List.drop_zero, h1]
      simp
    have hp := parse_single_next lib fuel argp ('-' :: List.replicate (k + 1) 'c') vars1 hc hd
      (by rfl) hb1
    obtain ⟨vars2, ha1, ha2⟩ := assignArguments_nil lib argp.cmds vars1
    rw [ha1] at hp
    refine ⟨_, hp, rfl, rfl, ?_⟩
    apply ha2 kc _ _ (hkind _)
    simp [valueAt, (findShort_some h2).1, h3]
  · intro n hn
    obtain ⟨d, ds, hdec, hd1, hd2⟩ := decimal_cons n
    have hsc : ∀ rest, scanVar lib vc.Value ['c'] (decimal n :: rest)
        = ⟨.count true (intValue signed bits n), 1, none⟩ := by
      intro rest
      rw [hval]
      exact scanVar_count lib _ _ _ _ _ (Count_Scan_decimal lib signed bits m n rest hb0 hb hn)
    have hne : decimal n ≠ [] := by rw [hdec]; simp
    constructor
    · have hb1 : body lib [['-', 'c', '='] ++ decimal n] (argp.vars.map withDefault) [] 0
          (['-', 'c', '='] ++ decimal n)
          = .next (modifyAt (fun w => { w with
              Value := .count true (intValue signed bits n) }) kc (argp.vars.map withDefault))
            [] 0 := by
        rw [show (['-', 'c', '='] ++ decimal n : Str) = '-' :: 'c' :: ('=' :: decimal n) from rfl,
          body_short lib _ _ _ _ 'c' _ (by decide),
          shortLoop_value_eq lib _ _ 'c' kc vc _ (decimal n) hne hf0 (hsc _)]
        simp
      have hp := parse_single_next lib fuel argp (['-', 'c', '='] ++ decimal n) _ hc hd
        (by rfl) hb1
      obtain ⟨vars2, ha1, ha2⟩ := assignArguments_nil lib argp.cmds
        (modifyAt (fun w => { w with
          Value := .count true (intValue signed bits n) }) kc (argp.vars.map withDefault))
      rw [ha1] at hp
      refine ⟨_, hp, rfl, rfl, ?_⟩
      apply ha2 kc _ _ (hkind _)
      rw [valueAt_modifyAt_self _ _ _ _ hget]
    · apply parse_of_walk_value lib (fuel + 1) argp ['-', 'c'] [decimal n]
        (fun w => { w with Value := .count true (intValue signed bits n) }) kc vc _ hc hd
        (by rfl) _ hget rfl (hkind _)
      rw [walk_step lib _ fuel _ _ 0 ['-', 'c'] (by simp),
        body_short lib _ _ _ _ 'c' [] (by decide)]
      simp only [Nat.zero_add, List.drop_succ_cons, List.drop_zero,
        shortLoop_value_next lib _ 'c' kc vc _ (decimal n) [] hf0 (hsc _)]
      apply walk_end
      simp

/-- C19, amended, at concrete inputs for the command `customCmd 0 []` (the counting option
at position 1, a signed counter of 64 bits that holds 0): `-ccc`, `-c=5` and `-c 5`. -/
theorem C19_witness :
    (∃ r, parse GoLib.basic 1 (customCmd 0 []) ['-' :: List.replicate 3 'c'] = some r
        ∧ r.err = none ∧ r.rest = []
        ∧ valueAt r.self.vars 1 = some (.count true (intValue true 64 ((0 : Int) + (3 : Nat)))))
    ∧ (∃ r, parse GoLib.basic 1 (customCmd 0 []) [['-', 'c', '='] ++ decimal 5] = some r
        ∧ r.err = none ∧ r.rest = []
        ∧ valueAt r.self.vars 1 = some (.count true (intValue true 64 (5 : Nat))))
    ∧ (∃ r, parse GoLib.basic 1 (customCmd 0 []) [['-', 'c'], decimal 5] = some r
        ∧ r.err = none ∧ r.rest = []
        ∧ valueAt r.self.vars 1 = some (.count true (intValue true 64 (5 : Nat)))) :=
  have h := C19_count_option GoLib.basic (customCmd 0 []) 1
    ⟨.count true (.int 64 0), ['c', 'o', 'u', 'n', 't'], 'c', -1, false, none, [], false⟩
    true 64 0 0 (by decide) (by decide) (by rfl) (by rfl) (by rfl) (by decide) (by decide)
    (by simp [intMin])
  ⟨h.1 3 (by decide) (by simp [intSup]), (h.2 5 (by simp [intSup])).1,
    (h.2 5 (by simp [intSup])).2⟩

/-- C19 as stated fails at the bounds of the integer type: on a signed 64-bit counter
that holds `2^63 - 1`, `parse` of `-c` succeeds and leaves `-2^63`, not `2^63`; and for
`n = 2^63`, `parse` of `-c=9223372036854775808` fails with `strconv.ErrRange`. -/
theorem C19_counterexample_overflow :
    (∃ r, parse GoLib.basic 1 (customCmd (2 ^ 63 - 1) []) ['-' :: List.replicate 1 'c'] = some r
        ∧ r.err = none
        ∧ valueAt r.self.vars 1 = some (.count true (.int 64 (-(2 : Int) ^ 63)))
        ∧ valueAt r.self.vars 1 ≠ some (.count true (.int 64 ((2 : Int) ^ 63 - 1 + (1 : Nat)))))
    ∧ (∃ r e, parse GoLib.basic 1 (customCmd 0 []) [['-', 'c', '='] ++ decimal (2 ^ 63)] = some r
        ∧ r.err = some e ∧ e.Is .ErrRange = true)
    ∧ ¬ ∃ fuel r, parse GoLib.basic fuel (customCmd 0 []) [['-', 'c', '='] ++ decimal (2 ^ 63)]
        = some r ∧ r.err = none := by
  have hdec : decimal (2 ^ 63) = ['9', '2', '2', '3', '3', '7', '2', '0', '3', '6', '8', '5',
      '4', '7', '7', '5', '8', '0', '8'] := by decide
  have hb : ∃ vars1 err, body GoLib.basic [['-', 'c', '='] ++ decimal (2 ^ 63)]
      ((customCmd 0 []).vars.map withDefault) [] 0 (['-', 'c', '='] ++ decimal (2 ^ 63))
        = .fail vars1 err ∧ err.Is .ErrRange = true := by
    rw [hdec]
    exact ⟨_, _, rfl, rfl⟩
  obtain ⟨vars1, err, hb1, hb2⟩ := hb
  have hp := fun fuel => parse_single_fail GoLib.basic fuel (customCmd 0 []) _ vars1 err
    (by decide) (by decide) (by rfl) hb1
  have hv : ∃ r, parse GoLib.basic 1 (customCmd (2 ^ 63 - 1) []) ['-' :: List.replicate 1 'c']
      = some r ∧ r.err = none
      ∧ valueAt r.self.vars 1 = some (.count true (.int 64 (-(2 : Int) ^ 63))) :=
    ⟨_, rfl, rfl, rfl⟩
  obtain ⟨r, h1, h2, h3⟩ := hv
  refine ⟨⟨r, h1, h2, h3, ?_⟩, ⟨_, _, hp 0, rfl, hb2⟩, ?_⟩
  · rw [h3]
    intro e
    simp only [Option.some.injEq, Value.count.injEq, Value.int.injEq, true_and] at e
    norm_num at e
  · rintro ⟨fuel, r, h, he⟩
    cases fuel with
    | zero =>
      rw [parse_zero_passes GoLib.basic (customCmd 0 []) _ _ (by decide) (by decide) (by rfl)] at h
      cases h
    | succ fuel =>
      rw [hp fuel] at h
      cases h
      cases he

/-! ## Lemmas: the appending option -/

theorem findName_setValue (lib : GoLib) (vars : List Variable) (name : Str) (k : Nat)
    (v : Variable) (x : Value) (h : findName lib vars name = some (k, v)) :
    findName lib (modifyAt (fun w => { w with Value := x }) k vars) name
      = some (k, { v with Value := x }) := by
  unfold findName at h ⊢
  split
  · rename_i hn
    simp [hn] at h
  · rename_i hn
    simp only [hn, if_false] at h
    dsimp only at h ⊢
    generalize (match strings_IndexAny_dotBracket (strings_ToLower lib name) with
      | some i => List.take i (strings_ToLower lib name)
      | none => strings_ToLower lib name) = nm at h ⊢
    rw [@findVar_modifyAt (fun v => v.Name = nm || (v.Name = [] && [v.Short] = nm))
      (fun w => { w with Value := x }) (fun w => rfl), h]
    simp

/-- A call of `Append.Scan` on an integer slice with the decimal form of `a` as the first
token, followed by nothing or by a token that is not empty and does not begin with a
comma: `a` is appended and one token is consumed. -/
theorem Append_Scan_one (lib : GoLib) (ys : List Value) (a : Int) (rest : List Str)
    (h1 : -(2 : Int) ^ 63 ≤ a) (h2 : a < (2 : Int) ^ 63)
    (hrest : rest = [] ∨ ∃ c cs t, rest = (c :: cs) :: t ∧ c ≠ ',') :
    Append_Scan lib true (.slice (.Int 64) ys) (decimalInt a :: rest)
      = ⟨.slice (.Int 64) (ys ++ [.int 64 a]), 1, none⟩ := by
  have hsa := scanKind_int_decimalInt lib a h1 h2
  have hea : (scanKind lib (.Int 64) (zero (.Int 64)) [decimalInt a]).err = none := by rw [hsa]
  have hcc : consumeComma rest 1 = (rest, 1, true) := by
    rcases hrest with rfl | ⟨c, cs, t, rfl, hc⟩
    · rfl
    · exact consumeComma_other c cs t 1 hc
  have hscan : scanValue lib (zero (.Slice (.Int 64))) (decimalInt a :: rest)
      = ⟨.slice (.Int 64) [.int 64 a], 1, none⟩ := by
    show scanKind lib (.Slice (.Int 64)) (.slice (.Int 64) []) (decimalInt a :: rest) = _
    simp only [scanKind, decimalInt_ne_nil a, if_false, loopBound]
    rw [scanLoop_pass0 _ _ _ _ 0 [] _ _ 1
        (consumeValue_nocomma 0 _ rest 0 (decimalInt_no_comma a)) hea,
      scanLoop_last _ _ _ 1 rest 1 _ rest (by omega) hcc, hsa]
    simp
  simp only [Append_Scan, hscan]

theorem scanVar_append (lib : GoLib) (i : Value) (name : Str) (s : List Str) (j : Value)
    (n : Nat) (h : Append_Scan lib true i s = ⟨j, n, none⟩) :
    scanVar lib (.append true i) name s = ⟨.append true j, n, none⟩ := by
  simp [scanVar, h]

/-- C20: for an Append option (short `i`, long `int`) wrapping an integer slice that holds
`xs`, and for all signed 64-bit integers `a` and `b` with decimal forms `A` and `B`,
`parse` of `["-i", A, "--int", B]` succeeds and leaves the slice equal to `xs ++ [a, b]`. -/
theorem C20_append_option (lib : GoLib) (argp : Argp) (k : Nat) (v : Variable) (xs : List Int)
    (a b : Int) (fuel : Nat)
    (hc : noDashCmd argp.cmds = true) (hd : defaultsTyped argp.vars = true)
    (hshort : findShort argp.vars 'i' = some (k, v))
    (hname : findName lib argp.vars ['i', 'n', 't'] = some (k, v))
    (hval : v.Value = .append true (.slice (.Int 64) (xs.map (Value.int 64))))
    (hdef : v.Default = none)
    (ha : -(2 : Int) ^ 63 ≤ a ∧ a < (2 : Int) ^ 63)
    (hb : -(2 : Int) ^ 63 ≤ b ∧ b < (2 : Int) ^ 63) :
    ∃ r, parse lib (fuel + 2) argp [['-', 'i'], decimalInt a, ['-', '-', 'i', 'n', 't'],
        decimalInt b] = some r
      ∧ r.err = none ∧ r.rest = []
      ∧ valueAt r.self.vars k
        = some (.append true (.slice (.Int 64) ((xs ++ [a, b]).map (Value.int 64)))) := by
  have hs0 := findShort_withDefault _ _ _ _ hshort hdef
  have hn0 := findName_withDefault lib _ _ _ _ hname hdef
  have hget := (findShort_some hs0).1
  -- the two scans
  have hsc1 : scanVar lib v.Value ['i'] [decimalInt a, ['-', '-', 'i', 'n', 't'], decimalInt b]
      = ⟨.append true (.slice (.Int 64) (xs.map (Value.int 64) ++ [.int 64 a])), 1, none⟩ := by
    rw [hval]
    exact scanVar_append lib _ _ _ _ _ (Append_Scan_one lib _ a _ ha.1 ha.2
      (Or.inr ⟨'-', _, _, rfl, by decide⟩))
  have hsc2 : scanVar lib
        (Value.append true (.slice (.Int 64) (xs.map (Value.int 64) ++ [.int 64 a])))
        ['i', 'n', 't'] [decimalInt b]
      = ⟨.append true (.slice (.Int 64) (xs.map (Value.int 64) ++ [.int 64 a] ++ [.int 64 b])),
          1, none⟩ :=
    scanVar_append lib _ _ _ _ _ (Append_Scan_one lib _ b _ hb.1 hb.2 (Or.inl rfl))
  have hn1 := findName_setValue lib _ _ _ _
    (.append true (.slice (.Int 64) (xs.map (Value.int 64) ++ [.int 64 a]))) hn0
  -- the token loop
  have hw : walk lib [['-', 'i'], decimalInt a, ['-', '-', 'i', 'n', 't'], decimalInt b]
      (fuel + 2) (argp.vars.map withDefault) [] 0
      = some (modifyAt (fun w => { w with
          Value := .append true
            (.slice (.Int 64) (xs.map (Value.int 64) ++ [.int 64 a] ++ [.int 64 b])),
          IsSet := true }) k
        (modifyAt (fun w => { w with
          Value := .append true (.slice (.Int 64) (xs.map (Value.int 64) ++ [.int 64 a])) }) k
          (argp.vars.map withDefault)), .ok []) := by
    rw [walk_step lib _ (fuel + 1) _ _ 0 ['-', 'i'] (by simp),
      body_short lib _ _ _ _ 'i' [] (by decide)]
    simp only [Nat.zero_add, List.drop_succ_cons, List.drop_zero,
      shortLoop_value_next lib _ 'i' k v _ (decimalInt a) _ hs0 hsc1]
    rw [show (((0 : Nat) : Int) + ((1 : Nat) : Int) + 1).toNat = 2 from rfl,
      walk_step lib _ fuel _ _ 2 ['-', '-', 'i', 'n', 't'] (by simp),
      body_long lib _ _ _ 2 ['i', 'n', 't'] (by simp) (by decide)]
    simp only [hn1, List.drop_succ_cons, List.drop_zero, hsc2]
    apply walk_end
    simp
  obtain ⟨r, hr1, hr2, hr3, hr4⟩ := parseSelf_of_walk lib (fuel + 2) argp _ _ hd hw
  rw [← parse_dash lib (fuel + 2) argp _ _ hc (by rfl)] at hr1
  refine ⟨r, hr1, hr2, hr3, ?_⟩
  have hx : (xs ++ [a, b]).map (Value.int 64)
      = xs.map (Value.int 64) ++ [.int 64 a] ++ [.int 64 b] := by simp
  rw [hx]
  apply hr4 k _ _ (by simp [Value.kind])
  have hg1 : (modifyAt (fun w => { w with
      Value := .append true (.slice (.Int 64) (xs.map (Value.int 64) ++ [.int 64 a])) }) k
      (argp.vars.map withDefault))[k]? = some { v with
        Value := .append true (.slice (.Int 64) (xs.map (Value.int 64) ++ [.int 64 a])) } := by
    rw [modifyAt_getElem?, if_pos rfl, hget]
    rfl
  rw [valueAt_modifyAt_self _ _ _ _ hg1]

/-- C20 at a concrete input for the command `customCmd 0 [7]` (the appending option at
position 2, its slice holding `7`): `-i 1 --int -2`. -/
theorem C20_witness :
    decimalInt 1 = ['1'] ∧ decimalInt (-2) = ['-', '2']
    ∧ ∃ r, parse GoLib.basic 2 (customCmd 0 [.int 64 7])
        [['-', 'i'], decimalInt 1, ['-', '-', 'i', 'n', 't'], decimalInt (-2)] = some r
      ∧ r.err = none ∧ r.rest = []
      ∧ valueAt r.self.vars 2
        = some (.append true (.slice (.Int 64) (([7] ++ [1, -2] : List Int).map (Value.int 64)))) :=
  ⟨by decide, by decide,
    C20_append_option GoLib.basic (customCmd 0 [.int 64 7]) 2
      ⟨.append true (.slice (.Int 64) [.int 64 7]), ['i', 'n', 't'], 'i', -1, false, none, [],
        false⟩
      [7] 1 (-2) 0 (by decide) (by decide) (by rfl) (by rfl) (by rfl) (by rfl) (by decide)
      (by decide)⟩

/-! ## Lemmas: the tokenizer on Latin-1 strings -/

theorem unicode_IsSpace_latin1 (t1 t2 : Char → Bool) (r : Char) (h : r.toNat ≤ 0xFF) :
    unicode_IsSpace t1 r = unicode_IsSpace t2 r := by
  simp [unicode_IsSpace, h]

theorem splitBody_latin1 (t1 t2 : Char → Bool) (s : Str) (st : SplitState) (j : Nat) (r : Char)
    (h : r.toNat ≤ 0xFF) : splitBody t1 s st j r = splitBody t2 s st j r := by
  simp only [splitBody, unicode_IsSpace_latin1 t1 t2 r h]

theorem splitLoop_latin1 (t1 t2 : Char → Bool) (s : Str) (rs : List Char) :
    ∀ (j : Nat) (st : SplitState), (∀ c ∈ rs, c.toNat ≤ 0xFF) →
      splitLoop t1 s rs j st = splitLoop t2 s rs j st := by
  induction rs with
  | nil => intro j st _; rfl
  | cons r rs ih =>
    intro j st h
    simp only [splitLoop]
    rw [splitBody_latin1 t1 t2 s st j r (h r (by simp)), ih _ _ (fun c hc => h c (by simp [hc]))]

/-- On a string of Latin-1 runes the result of `splitArguments` does not depend on the
table for the runes above Latin-1. -/
theorem splitArguments_latin1 (t1 t2 : Char → Bool) (s : Str) (h : ∀ c ∈ s, c.toNat ≤ 0xFF) :
    splitArguments t1 s = splitArguments t2 s := by
  simp only [splitArguments, splitLoop_latin1 t1 t2 s s 0 _ h]

/-! ## The tokenizer at concrete inputs -/

/-- C25 at the failing input: the tokens `a b` and `c`, quoted and joined by a space, are
the string `'a b' c`, and `splitArguments` of it returns the single token `a bc`: the
whitespace after the closing quote separates nothing.  An empty token that is not the
last one is lost (`a '' b` gives `a`, `b`).  With the quoted token last (`c 'a b'`) the
original tokens are returned. -/
theorem C25_quoted_token_joins_the_next :
    (∀ spaceTable : Char → Bool,
      joinSpace ([['a', ' ', 'b'], ['c']].map (quoteToken spaceTable))
          = ['\'', 'a', ' ', 'b', '\'', ' ', 'c']
      ∧ splitArguments spaceTable (joinSpace ([['a', ' ', 'b'], ['c']].map (quoteToken spaceTable)))
          = [['a', ' ', 'b', 'c']])
    ∧ (∀ spaceTable : Char → Bool,
      joinSpace ([['a'], [], ['b']].map (quoteToken spaceTable))
          = ['a', ' ', '\'', '\'', ' ', 'b']
      ∧ splitArguments spaceTable (joinSpace ([['a'], [], ['b']].map (quoteToken spaceTable)))
          = [['a'], ['b']])
    ∧ (∀ spaceTable : Char → Bool,
      splitArguments spaceTable (joinSpace ([['c'], ['a', ' ', 'b']].map (quoteToken spaceTable)))
          = [['c'], ['a', ' ', 'b']]) :=
  ⟨fun t => ⟨by simp [quoteToken, joinSpace, unicode_IsSpace],
      (congrArg (splitArguments t) (show joinSpace ([['a', ' ', 'b'], ['c']].map (quoteToken t))
        = ['\'', 'a', ' ', 'b', '\'', ' ', 'c'] by simp [quoteToken, joinSpace, unicode_IsSpace])).trans
        ((splitArguments_latin1 t (fun _ => false) _ (by decide)).trans (by decide))⟩,
    fun t => ⟨by simp [quoteToken, joinSpace, unicode_IsSpace],
      (congrArg (splitArguments t) (show joinSpace ([['a'], [], ['b']].map (quoteToken t))
        = ['a', ' ', '\'', '\'', ' ', 'b'] by simp [quoteToken, joinSpace, unicode_IsSpace])).trans
        ((splitArguments_latin1 t (fun _ => false) _ (by decide)).trans (by decide))⟩,
    fun t =>
      (congrArg (splitArguments t) (show joinSpace ([['c'], ['a', ' ', 'b']].map (quoteToken t))
        = ['c', ' ', '\'', 'a', ' ', 'b', '\''] by simp [quoteToken, joinSpace, unicode_IsSpace])).trans
        ((splitArguments_latin1 t (fun _ => false) _ (by decide)).trans (by decide))⟩

/-- C26 at the failing input: `splitArguments` of `'a"b'`, the string `a"b` wrapped in
single quotes, returns the token `ab`: the double quote ends the quoted run and is
removed.  With the roles of the quotes exchanged, `"a'b"` gives `a'b`. -/
theorem C26_double_quote_inside_single_quotes :
    (∀ spaceTable : Char → Bool,
      splitArguments spaceTable ('\'' :: (['a', '"', 'b'] ++ ['\''])) = [['a', 'b']])
    ∧ (∀ spaceTable : Char → Bool,
      splitArguments spaceTable ('\'' :: (['a', '"', 'b', ' ', 'c'] ++ ['\'']))
        = [['a', 'b'], ['c']])
    ∧ (∀ spaceTable : Char → Bool,
      splitArguments spaceTable ('"' :: (['a', '\'', 'b'] ++ ['"'])) = [['a', '\'', 'b']]) :=
  ⟨fun t => (splitArguments_latin1 t (fun _ => false) _ (by decide)).trans (by decide),
    fun t => (splitArguments_latin1 t (fun _ => false) _ (by decide)).trans (by decide),
    fun t => (splitArguments_latin1 t (fun _ => false) _ (by decide)).trans (by decide)⟩

/-- C27 at the failing input: for `c` a backslash, `splitArguments` of `a\\b` (`u = a`,
a backslash, `c`, `v = b`) returns the token `ab`, not `a\b`: the escaped backslash is
removed as well.  For `c` a quote or a space the character is kept. -/
theorem C27_escaped_backslash_is_removed :
    (∀ spaceTable : Char → Bool,
      splitArguments spaceTable (['a'] ++ '\\' :: '\\' :: ['b']) = [['a', 'b']])
    ∧ (∀ spaceTable : Char → Bool,
      splitArguments spaceTable (['a'] ++ '\\' :: '\\' :: []) = [['a']])
    ∧ (∀ spaceTable : Char → Bool,
      splitArguments spaceTable (['a'] ++ '\\' :: '\'' :: ['b']) = [['a', '\'', 'b']])
    ∧ (∀ spaceTable : Char → Bool,
      splitArguments spaceTable (['a'] ++ '\\' :: ' ' :: ['b']) = [['a', ' ', 'b']]) :=
  ⟨fun t => (splitArguments_latin1 t (fun _ => false) _ (by decide)).trans (by decide),
    fun t => (splitArguments_latin1 t (fun _ => false) _ (by decide)).trans (by decide),
    fun t => (splitArguments_latin1 t (fun _ => false) _ (by decide)).trans (by decide),
    fun t => (splitArguments_latin1 t (fun _ => false) _ (by decide)).trans (by decide)⟩

/-! ## Registration and look-up at concrete inputs -/

/-- C21 at the failing input: after `AddCmd(_, "one", _)`, the call `AddCmd(_, "One", _)`
does not panic, although dispatch finds a sub command registered under the lowercase form
of `One`, and it replaces the sub command registered under the key `one`.  The same holds
for `AddCmd(_, "One", _)` made twice. -/
theorem C21_mixed_case_name_replaces :
    ∃ p1 p2 q1 q2,
      AddCmd GoLib.basic (.mk [helpVar] []) subOne ['o', 'n', 'e'] = some p1
      ∧ (lookupCmd (strings_ToLower GoLib.basic ['O', 'n', 'e']) p1.cmds).isSome = true
      ∧ AddCmd GoLib.basic p1 optionsCmd ['O', 'n', 'e'] = some p2
      ∧ p1.cmds.map (fun e => (e.1, e.2.vars.length)) = [(['o', 'n', 'e'], 2)]
      ∧ p2.cmds.map (fun e => (e.1, e.2.vars.length)) = [(['o', 'n', 'e'], 7)]
      ∧ AddCmd GoLib.basic (.mk [helpVar] []) subOne ['O', 'n', 'e'] = some q1
      ∧ AddCmd GoLib.basic q1 optionsCmd ['O', 'n', 'e'] = some q2
      ∧ q1.cmds.map (fun e => (e.1, e.2.vars.length)) = [(['o', 'n', 'e'], 2)]
      ∧ q2.cmds.map (fun e => (e.1, e.2.vars.length)) = [(['o', 'n', 'e'], 7)] :=
  ⟨_, _, _, _, rfl, rfl, rfl, by decide, by decide, rfl, rfl, by decide, by decide⟩

/-- C24 at the failing input, for the command `parentCmd`, whose positional at position 1
is registered by `AddArg` with the name `""`: `findName(".x")` returns that positional,
while `findName` of `.x` truncated at its first `.`, the empty name, returns nothing; and
`parse` of `--.x val` binds the positional to `val`. -/
theorem C24_name_truncated_to_nothing :
    registerParentCmd GoLib.basic = some parentCmd
    ∧ (findName GoLib.basic parentCmd.vars ['.', 'x']).map (·.1) = some 1
    ∧ (findName GoLib.basic parentCmd.vars ['[', '0', ']']).map (·.1) = some 1
    ∧ (findName GoLib.basic parentCmd.vars []).map (·.1) = none
    ∧ ∃ r, parse GoLib.basic 1 parentCmd [['-', '-', '.', 'x'], ['v', 'a', 'l']] = some r
        ∧ r.err = none ∧ r.rest = [] ∧ valueAt r.self.vars 1 = some (.str ['v', 'a', 'l']) :=
  ⟨rfl, by decide, by decide, by decide, _, rfl, rfl, rfl, rfl⟩

/-! ## Lemmas: integers of fewer than 64 bits -/

theorem ParseUint_of_isUint64Literal (t : Str) (n : Nat) (h : isUint64Literal t n) :
    strconv_ParseUint t = (n, none) := by
  obtain ⟨hne, hd, hv, hn⟩ := h
  rw [strconv_ParseUint, if_neg hne, parseUintLoop_digits t 0 hd (by rw [hv]; exact hn), hv]

theorem parseUintLoop_none_lt (l : List Char) : ∀ (acc u : Nat), acc < 2 ^ 64 →
    parseUintLoop l acc = (u, none) → u < 2 ^ 64 := by
  induction l with
  | nil =>
    intro acc u ha h
    simp only [parseUintLoop, Prod.mk.injEq, and_true] at h
    omega
  | cons c cs ih =>
    intro acc u ha h
    rw [parseUintLoop] at h
    split at h
    · split at h
      · simp at h
      · dsimp only at h
        split at h
        · simp at h
        · rename_i hle
          exact ih _ u (by omega) h
    · simp at h

theorem isUint64Literal_of_ParseUint (t : Str) (n : Nat) (h : strconv_ParseUint t = (n, none)) :
    isUint64Literal t n := by
  unfold strconv_ParseUint at h
  by_cases hne : t = []
  · simp [hne] at h
  · rw [if_neg hne] at h
    obtain ⟨hd, hv⟩ := parseUintLoop_none t 0 n h
    exact ⟨hne, hd, hv.symm, parseUintLoop_none_lt t 0 n (by norm_num) h⟩

theorem wrapInt_spec (w : Nat) (x : Int) (hw : w = 8 ∨ w = 16 ∨ w = 32) :
    -(2 : Int) ^ (w - 1) ≤ wrapInt w x ∧ wrapInt w x < (2 : Int) ^ (w - 1)
      ∧ (wrapInt w x - x) % (2 : Int) ^ w = 0 := by
  rcases hw with rfl | rfl | rfl <;> norm_num [wrapInt] <;> omega

/-- C29: for an integer destination of width `w` in 8, 16, 32 bits and every token `t`
that is a valid base-10 literal of a 64-bit integer `x` of the same signedness, the scan
returns no error, reports a consumption of one token and stores `x` reduced modulo `2^w`:
for a signed destination the value `y` of the signed `w`-bit range that is congruent to
`x` modulo `2^w`, for an unsigned destination `x % 2^w`. -/
theorem C29_narrow_integer_wraps (lib : GoLib) (w : Nat) (old : Int) (oldU : Nat) (name t : Str)
    (rest : List Str) (hw : w = 8 ∨ w = 16 ∨ w = 32) :
    (∀ x : Int, isInt64Literal t x →
      ∃ y, scanValue lib (.int w old) (t :: rest) = ⟨.int w y, 1, none⟩
        ∧ scanVar lib (.int w old) name (t :: rest) = ⟨.int w y, 1, none⟩
        ∧ -(2 : Int) ^ (w - 1) ≤ y ∧ y < (2 : Int) ^ (w - 1) ∧ (y - x) % (2 : Int) ^ w = 0)
    ∧ (∀ x : Nat, isUint64Literal t x →
      scanValue lib (.uint w oldU) (t :: rest) = ⟨.uint w (x % 2 ^ w), 1, none⟩
        ∧ scanVar lib (.uint w oldU) name (t :: rest) = ⟨.uint w (x % 2 ^ w), 1, none⟩) := by
  constructor
  · intro x hx
    have hp := ParseInt_of_isInt64Literal t x hx
    have hs : scanValue lib (.int w old) (t :: rest) = ⟨.int w (wrapInt w x), 1, none⟩ := by
      simp [scanValue, Value.kind, scanKind, hp]
    refine ⟨wrapInt w x, hs, ?_, wrapInt_spec w x hw⟩
    rw [scanVar_plain lib (.int w old) name _ rfl (by simp [Value.kind]), hs]
  · intro x hx
    have hp := ParseUint_of_isUint64Literal t x hx
    have hs : scanValue lib (.uint w oldU) (t :: rest) = ⟨.uint w (x % 2 ^ w), 1, none⟩ := by
      simp [scanValue, Value.kind, scanKind, hp, wrapUint]
    refine ⟨hs, ?_⟩
    rw [scanVar_plain lib (.uint w oldU) name _ rfl (by simp [Value.kind]), hs]

/-- C29 at concrete inputs: `300` into an 8-bit signed destination stores 44, and `256`
into an 8-bit unsigned destination stores 0. -/
theorem C29_witness :
    (∃ y, scanValue GoLib.basic (.int 8 0) [['3', '0', '0']] = ⟨.int 8 y, 1, none⟩
        ∧ scanVar GoLib.basic (.int 8 0) [] [['3', '0', '0']] = ⟨.int 8 y, 1, none⟩
        ∧ -(2 : Int) ^ (8 - 1) ≤ y ∧ y < (2 : Int) ^ (8 - 1) ∧ (y - 300) % (2 : Int) ^ 8 = 0)
    ∧ scanValue GoLib.basic (.int 8 0) [['3', '0', '0']] = ⟨.int 8 44, 1, none⟩
    ∧ scanValue GoLib.basic (.uint 8 7) [['2', '5', '6']] = ⟨.uint 8 (256 % 2 ^ 8), 1, none⟩
    ∧ 256 % 2 ^ 8 = 0 :=
  have h := C29_narrow_integer_wraps GoLib.basic 8 0 7 [] ['3', '0', '0'] [] (Or.inl rfl)
  have h2 := C29_narrow_integer_wraps GoLib.basic 8 0 7 [] ['2', '5', '6'] [] (Or.inl rfl)
  ⟨h.1 300 ⟨by decide, by decide, by decide⟩, rfl,
    (h2.2 256 ⟨by decide, by decide, by decide, by decide⟩).1, by decide⟩

/-! ## Lemmas: the start of the sequence loop -/

/-- The sequence loop entered with the elements `slice` returns them followed by the
elements it returns when entered with none. -/
theorem scanLoop_prepend (scanElem : List Str → Scan) (typ : String) (fuel : Nat) :
    ∀ (j : Nat) (arguments : List Str) (n : Nat) (slice : List Value),
      scanLoop scanElem typ fuel j arguments n slice
        = match scanLoop scanElem typ fuel j arguments n [] with
          | .error err => .error err
          | .ok (j1, n1, ps) => .ok (j1, n1, slice ++ ps) := by
  induction fuel with
  | zero =>
    intro j arguments n slice
    simp [scanLoop]
  | succ fuel ih =>
    intro j arguments n slice
    rw [scanLoop, scanLoop]
    dsimp only
    generalize (if j ≠ 0 then consumeComma arguments n else (arguments, n, false)) = c
    split
    · simp
    · split
      · simp
      · split
        · rfl
        · rename_i sVal arguments1 n1 _ _ _
          rw [ih (j + 1) arguments1 n1 (slice ++ [(scanElem [sVal]).v]),
            ih (j + 1) arguments1 n1 ([] ++ [(scanElem [sVal]).v])]
          cases scanLoop scanElem typ fuel (j + 1) arguments1 n1 [] with
          | error e => rfl
          | ok r => simp

/-- The name of the type, used in the error text only, does not change what the loop
returns when it succeeds. -/
theorem scanLoop_typ (scanElem : List Str → Scan) (typ1 typ2 : String) (fuel : Nat) :
    ∀ (j : Nat) (arguments : List Str) (n : Nat) (slice : List Value)
      (r : Nat × Nat × List Value),
      scanLoop scanElem typ1 fuel j arguments n slice = .ok r →
      scanLoop scanElem typ2 fuel j arguments n slice = .ok r := by
  induction fuel with
  | zero =>
    intro j arguments n slice r h
    simpa [scanLoop] using h
  | succ fuel ih =>
    intro j arguments n slice r h
    rw [scanLoop] at h ⊢
    dsimp only at h ⊢
    generalize (if j ≠ 0 then consumeComma arguments n else (arguments, n, false)) = c at h ⊢
    split
    · rename_i hc
      simpa [hc] using h
    · rename_i hc
      simp only [hc, if_false] at h
      split
      · rename_i hv
        simpa [hv] using h
      · rename_i sVal arguments1 n1 hv
        simp only [hv] at h
        split
        · rename_i he
          simp [he] at h
        · rename_i he
          simp only [he] at h
          exact ih _ _ _ _ _ h

/-- A scan into a slice that holds `old` returns `old` followed by the elements that the
same scan into an empty slice returns. -/
theorem scanValue_slice_append (lib : GoLib) (elem : Kind) (args : List Str) (ps : List Value)
    (n : Nat) (hps : scanValue lib (.slice elem []) args = ⟨.slice elem ps, n, none⟩)
    (old : List Value) :
    scanValue lib (.slice elem old) args = ⟨.slice elem (old ++ ps), n, none⟩ := by
  cases args with
  | nil => simp [scanValue, Value.kind, scanKind] at hps
  | cons a rest =>
    simp only [scanValue, Value.kind, scanKind] at hps ⊢
    by_cases ha : a = []
    · simp only [ha, if_true, Scan.mk.injEq, Value.slice.injEq, true_and, and_true] at hps ⊢
      obtain ⟨rfl, rfl⟩ := hps
      simp
    · simp only [ha, if_false] at hps ⊢
      rw [scanLoop_prepend _ _ _ _ _ _ old]
      cases hl : scanLoop (scanKind lib elem (zero elem)) "slice" (loopBound (a :: rest)) 0
          (a :: rest) 0 [] with
      | error e => simp [hl] at hps
      | ok r =>
        obtain ⟨j, n1, ps1⟩ := r
        simp only [hl, Scan.mk.injEq, Value.slice.injEq, true_and, and_true] at hps ⊢
        obtain ⟨rfl, rfl⟩ := hps
        exact ⟨rfl, rfl⟩

/-- A scan into an array whose length is the number of elements that the same scan into
an empty slice returns: the array is replaced by these elements. -/
theorem scanValue_array_replace (lib : GoLib) (elem : Kind) (args : List Str) (ps : List Value)
    (n : Nat) (hps : scanValue lib (.slice elem []) args = ⟨.slice elem ps, n, none⟩)
    (xs : List Value) (hlen : xs.length = ps.length) :
    scanValue lib (.array elem xs) args = ⟨.array elem ps, n, none⟩ := by
  cases args with
  | nil => simp [scanValue, Value.kind, scanKind] at hps
  | cons a rest =>
    simp only [scanValue, Value.kind, scanKind] at hps ⊢
    by_cases ha : a = []
    · simp only [ha, if_true, Scan.mk.injEq, Value.slice.injEq, true_and, and_true] at hps ⊢
      obtain ⟨rfl, rfl⟩ := hps
      simp only [List.length_nil, List.length_eq_zero] at hlen
      simp [hlen]
    · simp only [ha, if_false] at hps ⊢
      cases hl : scanLoop (scanKind lib elem (zero elem)) "slice" (loopBound (a :: rest)) 0
          (a :: rest) 0 [] with
      | error e => simp [hl] at hps
      | ok r =>
        obtain ⟨j, n1, ps1⟩ := r
        simp only [hl, Scan.mk.injEq, Value.slice.injEq, true_and, and_true] at hps
        obtain ⟨rfl, rfl⟩ := hps
        have hj := scanLoop_length _ _ _ _ _ _ _ _ _ _ hl
        simp only [List.length_nil, Nat.add_zero, Nat.zero_add] at hj
        rw [scanLoop_typ _ "slice" "array" _ _ _ _ _ _ hl]
        have : ¬ j ≠ xs.length := by omega
        simp only [this, if_false]

theorem findName_map_withDefault (lib : GoLib) (vars : List Variable) (name : Str) :
    findName lib (vars.map withDefault) name
      = (findName lib vars name).map fun r => (r.1, withDefault r.2) := by
  unfold findName
  split
  · rfl
  · dsimp only
    rw [findVar_map withDefault (fun w => by
      rw [(withDefault_keys w).1, (withDefault_keys w).2.1])]

theorem findName_modifyAt (lib : GoLib) (vars : List Variable) (name : Str) (k : Nat)
    (v : Variable) (f : Variable → Variable)
    (hf : ∀ w, (f w).Name = w.Name ∧ (f w).Short = w.Short)
    (h : findName lib vars name = some (k, v)) :
    findName lib (modifyAt f k vars) name = some (k, f v) := by
  unfold findName at h ⊢
  split
  · rename_i hn
    simp [hn] at h
  · rename_i hn
    simp only [hn, if_false] at h
    dsimp only at h ⊢
    generalize (match strings_IndexAny_dotBracket (strings_ToLower lib name) with
      | some i => List.take i (strings_ToLower lib name)
      | none => strings_ToLower lib name) = nm at h ⊢
    rw [@findVar_modifyAt (fun v => v.Name = nm || (v.Name = [] && [v.Short] = nm))
      f (fun w => by simp only [(hf w).1, (hf w).2]), h]
    simp

/-- A scan into an integer slice with the decimal form of `a` as the first token,
followed by nothing or by a token that is not empty and does not begin with a comma: `a`
is appended and one token is consumed. -/
theorem scanValue_slice_one (lib : GoLib) (ys : List Value) (a : Int) (rest : List Str)
    (h1 : -(2 : Int) ^ 63 ≤ a) (h2 : a < (2 : Int) ^ 63)
    (hrest : rest = [] ∨ ∃ c cs t, rest = (c :: cs) :: t ∧ c ≠ ',') :
    scanValue lib (.slice (.Int 64) ys) (decimalInt a :: rest)
      = ⟨.slice (.Int 64) (ys ++ [.int 64 a]), 1, none⟩ := by
  have hsa := scanKind_int_decimalInt lib a h1 h2
  have hea : (scanKind lib (.Int 64) (zero (.Int 64)) [decimalInt a]).err = none := by rw [hsa]
  have hcc : consumeComma rest 1 = (rest, 1, true) := by
    rcases hrest with rfl | ⟨c, cs, t, rfl, hc⟩
    · rfl
    · exact consumeComma_other c cs t 1 hc
  apply scanValue_slice_append
  show scanKind lib (.Slice (.Int 64)) (.slice (.Int 64) []) (decimalInt a :: rest) = _
  simp only [scanKind, decimalInt_ne_nil a, if_false, loopBound]
  rw [scanLoop_pass0 _ _ _ _ 0 [] _ _ 1
      (consumeValue_nocomma 0 _ rest 0 (decimalInt_no_comma a)) hea,
    scanLoop_last _ _ _ 1 rest 1 _ rest (by omega) hcc, hsa]
  simp

/-- C30: for every slice destination and every token list whose scan, into the empty
slice, succeeds with the parsed elements `ps` and the consumption `n`: the scan into the
slice that holds `old` leaves `old ++ ps` (and `old` when the first token is empty), with
the same consumption; a fixed-size array destination of that length is replaced by
exactly `ps`; and a repeated plain slice option, `--list A --list B` for the decimal forms
of 64-bit integers `a` and `b`, binds the declared default followed by `a`, `b`. -/
theorem C30_slice_scan_appends (lib : GoLib) (elem : Kind) (args : List Str) (ps : List Value)
    (n : Nat) (hps : scanValue lib (.slice elem []) args = ⟨.slice elem ps, n, none⟩) :
    (∀ old, scanValue lib (.slice elem old) args = ⟨.slice elem (old ++ ps), n, none⟩)
    ∧ (∀ old rest, scanValue lib (.slice elem old) ([] :: rest) = ⟨.slice elem old, 1, none⟩)
    ∧ (∀ xs, xs.length = ps.length →
        scanValue lib (.array elem xs) args = ⟨.array elem ps, n, none⟩)
    ∧ (∀ (argp : Argp) (k : Nat) (v : Variable) (d : List Value) (a b : Int) (fuel : Nat),
        noDashCmd argp.cmds = true → defaultsTyped argp.vars = true →
        findName lib argp.vars ['l', 'i', 's', 't'] = some (k, v) →
        v.Default = some (.slice (.Int 64) d) →
        -(2 : Int) ^ 63 ≤ a ∧ a < (2 : Int) ^ 63 → -(2 : Int) ^ 63 ≤ b ∧ b < (2 : Int) ^ 63 →
        ∃ r, parse lib (fuel + 2) argp [['-', '-', 'l', 'i', 's', 't'], decimalInt a,
            ['-', '-', 'l', 'i', 's', 't'], decimalInt b] = some r
          ∧ r.err = none ∧ r.rest = []
          ∧ valueAt r.self.vars k = some (.slice (.Int 64) (d ++ [.int 64 a, .int 64 b]))) := by
  refine ⟨scanValue_slice_append lib elem args ps n hps, ?_,
    scanValue_array_replace lib elem args ps n hps, ?_⟩
  · intro old rest
    simp [scanValue, Value.kind, scanKind]
  · intro argp k v d a b fuel hc hd hname hdef ha hb
    have hn0 : findName lib (argp.vars.map withDefault) ['l', 'i', 's', 't']
        = some (k, { v with Value := .slice (.Int 64) d }) := by
      rw [findName_map_withDefault, hname]
      simp [withDefault, hdef]
    have hget := findName_some hn0
    have hsc1 : scanVar lib (Value.slice (.Int 64) d) ['l', 'i', 's', 't']
          [decimalInt a, ['-', '-', 'l', 'i', 's', 't'], decimalInt b]
        = ⟨.slice (.Int 64) (d ++ [.int 64 a]), 1, none⟩ := by
      rw [scanVar_plain lib (Value.slice (.Int 64) d) _ _ rfl (by simp [Value.kind])]
      exact scanValue_slice_one lib d a _ ha.1 ha.2 (Or.inr ⟨'-', _, _, rfl, by decide⟩)
    have hsc2 : scanVar lib (Value.slice (.Int 64) (d ++ [.int 64 a])) ['l', 'i', 's', 't']
          [decimalInt b]
        = ⟨.slice (.Int 64) (d ++ [.int 64 a] ++ [.int 64 b]), 1, none⟩ := by
      rw [scanVar_plain lib (Value.slice (.Int 64) (d ++ [Value.int 64 a])) _ _ rfl
        (by simp [Value.kind])]
      exact scanValue_slice_one lib _ b _ hb.1 hb.2 (Or.inl rfl)
    have hn1 := findName_modifyAt lib _ _ _ _
      (fun w => { w with Value := .slice (.Int 64) (d ++ [.int 64 a]), IsSet := true })
      (fun w => ⟨rfl, rfl⟩) hn0
    have hw : walk lib [['-', '-', 'l', 'i', 's', 't'], decimalInt a,
          ['-', '-', 'l', 'i', 's', 't'], decimalInt b]
        (fuel + 2) (argp.vars.map withDefault) [] 0
        = some (modifyAt (fun w => { w with
            Value := .slice (.Int 64) (d ++ [.int 64 a] ++ [.int 64 b]), IsSet := true }) k
          (modifyAt (fun w => { w with
            Value := .slice (.Int 64) (d ++ [.int 64 a]), IsSet := true }) k
            (argp.vars.map withDefault)), .ok []) := by
      rw [walk_step lib _ (fuel + 1) _ _ 0 ['-', '-', 'l', 'i', 's', 't'] (by simp),
        body_long lib _ _ _ 0 ['l', 'i', 's', 't'] (by simp) (by decide)]
      simp only [hn0, Nat.zero_add, List.drop_succ_cons, List.drop_zero, hsc1]
      rw [show (((0 : Nat) : Int) + ((1 : Nat) : Int) + 1).toNat = 2 from rfl,
        walk_step lib _ fuel _ _ 2 ['-', '-', 'l', 'i', 's', 't'] (by simp),
        body_long lib _ _ _ 2 ['l', 'i', 's', 't'] (by simp) (by decide)]
      simp only [hn1, List.drop_succ_cons, List.drop_zero, hsc2]
      apply walk_end
      simp
    obtain ⟨r, hr1, hr2, hr3, hr4⟩ := parseSelf_of_walk lib (fuel + 2) argp _ _ hd hw
    rw [← parse_dash lib (fuel + 2) argp _ _ hc (by rfl)] at hr1
    refine ⟨r, hr1, hr2, hr3, ?_⟩
    have hx : d ++ [Value.int 64 a, Value.int 64 b] = d ++ [.int 64 a] ++ [.int 64 b] := by simp
    rw [hx]
    apply hr4 k _ _ (by simp [Value.kind])
    have hg1 : (modifyAt (fun w => { w with
        Value := .slice (.Int 64) (d ++ [.int 64 a]), IsSet := true }) k
        (argp.vars.map withDefault))[k]? = some { v with
          Value := .slice (.Int 64) (d ++ [.int 64 a]), IsSet := true } := by
      rw [modifyAt_getElem?, if_pos rfl, hget]
      rfl
    rw [valueAt_modifyAt_self _ _ _ _ hg1]

/-- C30 at concrete inputs: the token `1,2` is scanned into the empty slice, into a slice
that holds `9` and into an array of two; and `--list 1 --list 2` is parsed by a command
whose option `list` has the declared default `7`. -/
theorem C30_witness :
    (scanValue GoLib.basic (.slice (.Int 64) []) [['1', ',', '2']]
        = ⟨.slice (.Int 64) [.int 64 1, .int 64 2], 1, none⟩)
    ∧ (scanValue GoLib.basic (.slice (.Int 64) [.int 64 9]) [['1', ',', '2']]
        = ⟨.slice (.Int 64) ([.int 64 9] ++ [.int 64 1, .int 64 2]), 1, none⟩)
    ∧ (scanValue GoLib.basic (.array (.Int 64) [.int 64 5, .int 64 6]) [['1', ',', '2']]
        = ⟨.array (.Int 64) [.int 64 1, .int 64 2], 1, none⟩)
    ∧ decimalInt 1 = ['1'] ∧ decimalInt 2 = ['2']
    ∧ ∃ r, parse GoLib.basic 2
          (.mk [helpVar, optionVar (.slice (.Int 64) [.int 64 7]) (Char.ofNat 0)
            ['l', 'i', 's', 't']] [])
          [['-', '-', 'l', 'i', 's', 't'], decimalInt 1, ['-', '-', 'l', 'i', 's', 't'],
            decimalInt 2] = some r
        ∧ r.err = none ∧ r.rest = []
        ∧ valueAt r.self.vars 1 = some (.slice (.Int 64) ([.int 64 7] ++ [.int 64 1, .int 64 2])) :=
  have h := C30_slice_scan_appends GoLib.basic (.Int 64) [['1', ',', '2']]
    [.int 64 1, .int 64 2] 1 rfl
  ⟨rfl, h.1 [.int 64 9], h.2.2.1 [.int 64 5, .int 64 6] rfl, by decide, by decide,
    h.2.2.2 (.mk [helpVar, optionVar (.slice (.Int 64) [.int 64 7]) (Char.ofNat 0)
        ['l', 'i', 's', 't']] []) 1
      (optionVar (.slice (.Int 64) [.int 64 7]) (Char.ofNat 0) ['l', 'i', 's', 't'])
      [.int 64 7] 1 2 0 (by decide) (by rfl) (by rfl) (by rfl) (by decide) (by decide)⟩

/-! ## Lemmas: the tokens of the tokenizer -/

theorem splitBody_i_le (spaceTable : Char → Bool) (s : Str) (st : SplitState) (j : Nat)
    (r : Char) (h : st.i ≤ j) : (splitBody spaceTable s st j r).i ≤ j + 1 := by
  unfold splitBody
  repeat' split
  all_goals try simp only
  all_goals omega

theorem splitBody_args (spaceTable : Char → Bool) (s : Str) (st : SplitState) (j : Nat)
    (r : Char) (hj : j < s.length) (h : ∀ t ∈ st.args, t ≠ []) :
    ∀ t ∈ (splitBody spaceTable s st j r).args, t ≠ [] := by
  unfold splitBody
  repeat' split
  all_goals try simp only
  all_goals first
    | exact h
    | (intro t ht
       rw [List.mem_append, List.mem_singleton] at ht
       rcases ht with ht | rfl
       · exact h t ht
       · rename_i hij
         intro he
         have hl := congrArg List.length he
         simp only [List.length_append, List.length_take, List.length_drop, List.length_nil] at hl
         omega)

/-- The loop appends no empty token. -/
theorem splitLoop_args (spaceTable : Char → Bool) (s : Str) (rs : List Char) :
    ∀ (j : Nat) (st : SplitState), j + rs.length = s.length →
      (∀ t ∈ st.args, t ≠ []) → ∀ t ∈ (splitLoop spaceTable s rs j st).args, t ≠ [] := by
  induction rs with
  | nil => intro j st _ h; exact h
  | cons r rs ih =>
    intro j st hj h
    simp only [List.length_cons] at hj
    rw [splitLoop]
    exact ih (j + 1) _ (by omega) (splitBody_args spaceTable s st j r (by omega) h)

/-- After a last rune that is no backslash, no quote and no whitespace, runes are left
over for the last token. -/
theorem splitLoop_i_lt (spaceTable : Char → Bool) (s : Str) (c : Char) (hc1 : c ≠ '\\')
    (hc2 : c ≠ '\'') (hc3 : c ≠ '"') (hc4 : unicode_IsSpace spaceTable c = false)
    (rs : List Char) :
    ∀ (j : Nat) (st : SplitState), j + rs.length = s.length → st.i ≤ j →
      rs.getLast? = some c → (splitLoop spaceTable s rs j st).i < s.length := by
  induction rs with
  | nil => intro j st _ _ h; simp at h
  | cons r rs ih =>
    intro j st hj hi hl
    simp only [List.length_cons] at hj
    rw [splitLoop]
    cases rs with
    | nil =>
      simp only [List.getLast?_singleton, Option.some.injEq] at hl
      subst hl
      simp only [splitLoop, splitBody, hc1, hc2, hc3, hc4, if_false, and_false, or_false,
        Bool.false_eq_true]
      simp only [List.length_nil] at hj
      split <;> (try simp only) <;> omega
    | cons r2 rs2 =>
      rw [List.getLast?_cons_cons] at hl
      exact ih (j + 1) _ (by simp only [List.length_cons] at hj ⊢; omega)
        (splitBody_i_le spaceTable s st j r hi) hl

/-- C28, amended: `splitArguments` of the empty string returns exactly one empty token;
for every string, no token other than the last one is empty; and for every string whose
last character is no whitespace, no quote and no backslash, no token is empty. -/
theorem C28_tokens_not_empty (spaceTable : Char → Bool) (s : Str) :
    splitArguments spaceTable [] = [[]]
    ∧ (∀ t ∈ (splitArguments spaceTable s).dropLast, t ≠ [])
    ∧ (∀ c, s.getLast? = some c → c ≠ '\\' → c ≠ '\'' → c ≠ '"' →
        unicode_IsSpace spaceTable c = false → ∀ t ∈ splitArguments spaceTable s, t ≠ []) := by
  have hargs := splitLoop_args spaceTable s s 0 ⟨0, false, Char.ofNat 0, [], []⟩ (by simp)
    (by simp)
  refine ⟨rfl, ?_, ?_⟩
  · intro t ht
    apply hargs t
    unfold splitArguments at ht
    dsimp only at ht
    split at ht <;> simpa using ht
  · intro c hl hc1 hc2 hc3 hc4 t ht
    have hi := splitLoop_i_lt spaceTable s c hc1 hc2 hc3 hc4 s 0
      ⟨0, false, Char.ofNat 0, [], []⟩ (by simp) (Nat.le_refl 0) hl
    unfold splitArguments at ht
    dsimp only at ht
    rw [if_pos hi, List.mem_append, List.mem_singleton] at ht
    rcases ht with ht | rfl
    · exact hargs t ht
    · intro he
      have hlen := congrArg List.length he
      simp only [List.length_append, List.length_drop, List.length_nil] at hlen
      omega

/-- C28 as stated fails for strings that are not empty: `''`, an empty quoted run,
gives one empty token. -/
theorem C28_counterexample_quoted_empty :
    (['\'', '\''] : Str) ≠ []
    ∧ (∀ spaceTable : Char → Bool, splitArguments spaceTable ['\'', '\''] = [[]])
    ∧ (∀ spaceTable : Char → Bool, [] ∈ splitArguments spaceTable ['\'', '\'']) :=
  ⟨by decide,
    fun t => (splitArguments_latin1 t (fun _ => false) _ (by decide)).trans (by decide),
    fun t => by
      rw [(splitArguments_latin1 t (fun _ => false) _ (by decide)).trans
        (show splitArguments (fun _ => false) ['\'', '\''] = [[]] by decide)]
      simp⟩

/-- C28, amended, at a concrete input: the string `  a   b`, with leading and consecutive
whitespace. -/
theorem C28_witness :
    splitArguments (fun _ => false) [' ', ' ', 'a', ' ', ' ', ' ', 'b'] = [['a'], ['b']]
    ∧ ∀ t ∈ splitArguments (fun _ => false) [' ', ' ', 'a', ' ', ' ', ' ', 'b'], t ≠ [] :=
  ⟨by decide,
    (C28_tokens_not_empty (fun _ => false) [' ', ' ', 'a', ' ', ' ', ' ', 'b']).2.2 'b'
      (by rfl) (by decide) (by decide) (by decide) (by decide)⟩

/-! ## Lemmas: what a registration call appends -/

theorem New_eq (lib : GoLib) : New lib = some (.mk [helpVar] []) := by
  simp [New, AddOpt, Value.isCustom, isValidType, isValidBaseType, Value.kind, isValidName,
    isValidNameFrom, unicode_IsLetter, unicode_IsNumber, findName, findVar, findShort,
    strings_ToLower, unicode_ToLower, strings_IndexAny_dotBracket, Argp.vars, Argp.cmds, helpVar]

theorem findVar_eq_none {p : Variable → Bool} {vars : List Variable}
    (h : findVar p vars = none) : ∀ v ∈ vars, p v = false := by
  induction vars with
  | nil => intro v hv; simp at hv
  | cons w ws ih =>
    simp only [findVar] at h
    by_cases hp : p w = true
    · simp [hp] at h
    · simp only [hp, Bool.false_eq_true, if_false, Option.map_eq_none'] at h
      intro v hv
      rw [List.mem_cons] at hv
      rcases hv with rfl | hv
      · simpa using hp
      · exact ih h v hv

theorem AddOpt_some {lib : GoLib} {argp argp1 : Argp} {v : Value} {isPtr : Bool}
    {short name description : Str}
    (h : AddOpt lib argp v isPtr short name description = some argp1) :
    ∃ var : Variable, argp1 = .mk (argp.vars ++ [var]) argp.cmds ∧ var.Index = -1
      ∧ var.Rest = false
      ∧ (var.Short = Char.ofNat 0 ∨ findShort argp.vars var.Short = none)
      ∧ short.length ≤ 1
      ∧ var.Name = strings_ToLower lib (if name = [] then short else name)
      ∧ (if name = [] then short else name) ≠ []
      ∧ isValidName lib (if name = [] then short else name) = true
      ∧ findName lib argp.vars (if name = [] then short else name) = none := by
  unfold AddOpt at h
  by_cases h1 : (!v.isCustom && !isPtr) = true
  · rw [if_pos h1] at h
    cases h
  by_cases h2 : (!isValidType v) = true
  · rw [if_neg h1, if_pos h2] at h
    cases h
  by_cases h3 : name = [] ∧ short = []
  · rw [if_neg h1, if_neg h2, if_pos h3] at h
    cases h
  rw [if_neg h1, if_neg h2, if_neg h3] at h
  dsimp only at h
  have hne1 : (if name = [] then short else name) ≠ [] := by
    by_cases hn : name = []
    · simp only [hn, if_true]
      intro hs
      exact h3 ⟨hn, hs⟩
    · simp only [hn, if_false]
      exact hn
  generalize (if name = [] then short else name) = nm at h hne1 ⊢
  by_cases h4 : (!isValidName lib nm) = true
  · rw [if_pos h4] at h
    cases h
  by_cases h5 : (findName lib argp.vars nm).isSome = true
  · rw [if_neg h4, if_pos h5] at h
    cases h
  rw [if_neg h4, if_neg h5] at h
  have hv1 : isValidName lib nm = true := by simpa using h4
  have hf1 : findName lib argp.vars nm = none := by simpa using h5
  match short, h with
  | [], h =>
    simp only [Option.some.injEq] at h
    subst h
    exact ⟨_, rfl, rfl, rfl, Or.inl rfl, by simp, rfl, hne1, hv1, hf1⟩
  | [r], h =>
    simp only at h
    by_cases h6 : (!isValidName lib [r]) = true
    · rw [if_pos h6] at h
      cases h
    by_cases h7 : (findShort argp.vars r).isSome = true
    · rw [if_neg h6, if_pos h7] at h
      cases h
    rw [if_neg h6, if_neg h7] at h
    simp only [Option.some.injEq] at h
    subst h
    exact ⟨_, rfl, rfl, rfl, Or.inr (by simpa using h7), by simp, rfl, hne1, hv1, hf1⟩
  | _ :: _ :: _, h =>
    simp at h

theorem nextIndex_ge (vs : List Variable) : ∀ index : Int, index ≤ nextIndex vs index := by
  induction vs with
  | nil => intro index; exact le_refl _
  | cons v vs ih =>
    intro index
    rw [nextIndex]
    split
    · exact le_trans (by omega) (ih _)
    · exact ih _

theorem AddArg_some {lib : GoLib} {argp argp1 : Argp} {v : Value} {isPtr : Bool}
    {name description : Str} (h : AddArg lib argp v isPtr name description = some argp1) :
    ∃ var : Variable, argp1 = .mk (argp.vars ++ [var]) argp.cmds
      ∧ var.Index = nextIndex argp.vars 0 ∧ var.Rest = false ∧ var.Short = Char.ofNat 0 := by
  unfold AddArg at h
  split at h
  · cases h
  split at h
  · cases h
  cases h
  exact ⟨_, rfl, rfl, rfl, rfl⟩

theorem AddRest_some {lib : GoLib} {argp argp1 : Argp} {v : Value} {isPtr : Bool}
    {name description : Str} (h : AddRest lib argp v isPtr name description = some argp1) :
    ∃ var : Variable, argp1 = .mk (argp.vars ++ [var]) argp.cmds
      ∧ var.Index = -1 ∧ var.Rest = true ∧ var.Short = Char.ofNat 0
      ∧ findRest argp.vars = none := by
  unfold AddRest at h
  split at h
  · cases h
  split at h
  · cases h
  rename_i hr
  split at h
  · cases h
  cases h
  exact ⟨_, rfl, rfl, rfl, rfl, by simpa using hr⟩

/-! ## Lemmas: the invariant of registration -/

theorem nextIndex_range (vs : List Variable) : ∀ (i m : Nat),
    (vs.filter (fun v => v.Index ≠ -1)).map (·.Index) = (List.range' i m).map Int.ofNat →
    nextIndex vs (i : Int) = ((i + m : Nat) : Int) := by
  induction vs with
  | nil =>
    intro i m h
    cases m with
    | zero => rfl
    | succ m => simp [List.range'] at h
  | cons v vs ih =>
    intro i m h
    rw [nextIndex]
    by_cases hv : v.Index = -1
    · have h1 : ¬ ((i : Int) ≤ v.Index) := by rw [hv]; omega
      rw [if_neg h1]
      apply ih
      simpa [List.filter_cons, hv] using h
    · rw [List.filter_cons, if_pos (by simpa using hv)] at h
      cases m with
      | zero => simp at h
      | succ m =>
        simp only [List.map_cons, List.range', List.cons.injEq] at h
        obtain ⟨h1, h2⟩ := h
        have h3 : (i : Int) ≤ v.Index := by rw [h1]; simp
        rw [if_pos h3, h1]
        have := ih (i + 1) m h2
        simp only [Int.ofNat_eq_coe] at this ⊢
        rw [show ((i : Int) + 1) = ((i + 1 : Nat) : Int) by push_cast; rfl, this]
        push_cast
        ring

theorem RegInv_opt {vars : List Variable} {k : Nat} {var : Variable} (h : RegInv vars k)
    (hi : var.Index = -1) (hr : var.Rest = false)
    (hs : var.Short = Char.ofNat 0 ∨ findShort vars var.Short = none) :
    RegInv (vars ++ [var]) k := by
  obtain ⟨h1, h2, h3, h4⟩ := h
  refine ⟨?_, ?_, ?_, ?_⟩
  · rw [List.map_append, List.filter_append]
    by_cases h0 : var.Short = Char.ofNat 0
    · simpa [h0] using h1
    · have hnone : findShort vars var.Short = none := by
        rcases hs with hs | hs
        · exact absurd hs h0
        · exact hs
      have hall := findVar_eq_none hnone
      simp only [List.map_cons, List.map_nil, List.filter_cons, h0, ne_eq, not_false_eq_true,
        decide_True, if_true, List.filter_nil]
      rw [List.nodup_append]
      refine ⟨h1, List.nodup_singleton _, ?_⟩
      intro c hc1 hc2
      rw [List.mem_singleton] at hc2
      subst hc2
      rw [List.mem_filter, List.mem_map] at hc1
      obtain ⟨⟨w, hw, hws⟩, _⟩ := hc1
      have := hall w hw
      simp [hws, h0] at this
  · simpa [List.filter_append, List.filter_cons, hi] using h2
  · simpa [List.filter_append, List.filter_cons, hr] using h3
  · intro v hv
    rw [List.mem_append, List.mem_singleton] at hv
    rcases hv with hv | rfl
    · exact h4 v hv
    · simp [hr]

theorem RegInv_arg {vars : List Variable} {k : Nat} {var : Variable} (h : RegInv vars k)
    (hi : var.Index = nextIndex vars 0) (hr : var.Rest = false)
    (hs : var.Short = Char.ofNat 0) : RegInv (vars ++ [var]) (k + 1) := by
  obtain ⟨h1, h2, h3, h4⟩ := h
  have hk : var.Index = ((k : Nat) : Int) := by
    rw [hi]
    have := nextIndex_range vars 0 k h2
    simpa using this
  refine ⟨?_, ?_, ?_, ?_⟩
  · simpa [List.filter_append, hs] using h1
  · have hne : var.Index ≠ -1 := by rw [hk]; omega
    rw [List.filter_append, List.map_append, h2, List.range'_concat]
    simp [List.filter_cons, hne, hk]
  · simpa [List.filter_append, List.filter_cons, hr] using h3
  · intro v hv
    rw [List.mem_append, List.mem_singleton] at hv
    rcases hv with hv | rfl
    · exact h4 v hv
    · simp [hr]

theorem RegInv_rest {vars : List Variable} {k : Nat} {var : Variable} (h : RegInv vars k)
    (hi : var.Index = -1) (hr : var.Rest = true) (hs : var.Short = Char.ofNat 0)
    (hf : findRest vars = none) : RegInv (vars ++ [var]) k := by
  obtain ⟨h1, h2, h3, h4⟩ := h
  have hall := findVar_eq_none hf
  refine ⟨?_, ?_, ?_, ?_⟩
  · simpa [List.filter_append, hs] using h1
  · simpa [List.filter_append, List.filter_cons, hi] using h2
  · have : vars.filter (·.Rest) = [] := by
      rw [List.filter_eq_nil_iff]
      intro v hv
      simpa using hall v hv
    simp [List.filter_append, this, List.filter_cons, hr]
  · intro v hv
    rw [List.mem_append, List.mem_singleton] at hv
    rcases hv with hv | rfl
    · exact h4 v hv
    · simp [hi]

theorem runCalls_append (lib : GoLib) (pre post : List Call) :
    ∀ (a r : Argp), runCalls lib a (pre ++ post) = some r →
      ∃ m, runCalls lib a pre = some m ∧ runCalls lib m post = some r := by
  induction pre with
  | nil => intro a r h; exact ⟨a, rfl, h⟩
  | cons c cs ih =>
    intro a r h
    simp only [List.cons_append, runCalls] at h ⊢
    cases hc : c.run lib a with
    | none => simp [hc] at h
    | some a1 =>
      simp only [hc] at h ⊢
      exact ih a1 r h

theorem runCalls_inv (lib : GoLib) (calls : List Call) :
    ∀ (a0 a : Argp) (k0 : Nat), RegInv a0.vars k0 → runCalls lib a0 calls = some a →
      RegInv a.vars (k0 + (calls.filter Call.isArg).length)
      ∧ ∀ c ∈ calls, ∀ v p s n d, c = Call.opt v p s n d → s.length ≤ 1 := by
  induction calls with
  | nil =>
    intro a0 a k0 hinv h
    simp only [runCalls, Option.some.injEq] at h
    subst h
    exact ⟨by simpa using hinv, by simp⟩
  | cons c cs ih =>
    intro a0 a k0 hinv h
    simp only [runCalls] at h
    cases hc : c.run lib a0 with
    | none => simp [hc] at h
    | some a1 =>
      simp only [hc] at h
      cases c with
      | opt v p s n d =>
        obtain ⟨var, rfl, hi, hr, hs, hlen, _⟩ := AddOpt_some hc
        obtain ⟨h1, h2⟩ := ih (.mk (a0.vars ++ [var]) a0.cmds) a k0 (RegInv_opt hinv hi hr hs) h
        refine ⟨by simpa [List.filter_cons, Call.isArg] using h1, ?_⟩
        intro c hc1 v1 p1 s1 n1 d1 he
        rw [List.mem_cons] at hc1
        rcases hc1 with rfl | hc1
        · cases he
          exact hlen
        · exact h2 c hc1 v1 p1 s1 n1 d1 he
      | arg v p n d =>
        obtain ⟨var, rfl, hi, hr, hs⟩ := AddArg_some hc
        obtain ⟨h1, h2⟩ := ih (.mk (a0.vars ++ [var]) a0.cmds) a (k0 + 1) (RegInv_arg hinv hi hr hs) h
        refine ⟨?_, ?_⟩
        · have : k0 + (List.filter Call.isArg (Call.arg v p n d :: cs)).length
              = k0 + 1 + (List.filter Call.isArg cs).length := by
            simp [List.filter_cons, Call.isArg]
            omega
          rw [this]
          exact h1
        · intro c hc1 v1 p1 s1 n1 d1 he
          rw [List.mem_cons] at hc1
          rcases hc1 with rfl | hc1
          · cases he
          · exact h2 c hc1 v1 p1 s1 n1 d1 he
      | rest v p n d =>
        obtain ⟨var, rfl, hi, hr, hs, hf⟩ := AddRest_some hc
        obtain ⟨h1, h2⟩ := ih (.mk (a0.vars ++ [var]) a0.cmds) a k0 (RegInv_rest hinv hi hr hs hf) h
        refine ⟨by simpa [List.filter_cons, Call.isArg] using h1, ?_⟩
        intro c hc1 v1 p1 s1 n1 d1 he
        rw [List.mem_cons] at hc1
        rcases hc1 with rfl | hc1
        · cases he
        · exact h2 c hc1 v1 p1 s1 n1 d1 he

theorem RegInv_help : RegInv [helpVar] 0 := by
  refine ⟨?_, ?_, ?_, ?_⟩
  · simp [helpVar]
  · simp [helpVar]
  · simp [helpVar]
  · intro v hv
    simp only [List.mem_singleton] at hv
    subst hv
    simp [helpVar]

/-- C23: for a command created with `New` and extended by any sequence of calls of
`AddOpt`, `AddArg` and `AddRest` that all succeed, the invariant `RegInv` holds with `k`
the number of `AddArg` calls: the short names other than the rune 0 are pairwise distinct
(a short name of more than one character makes `AddOpt` panic), the indices other than -1
are exactly `0, ..., k - 1`, each once, at most one variable is the rest variable, and no
variable has both an index and the flag `Rest`.  It holds after every call: every prefix
of the sequence succeeds as well, and the invariant holds for its command. -/
theorem C23_registration_invariant (lib : GoLib) (calls : List Call) (argp : Argp)
    (h : register lib calls = some argp) :
    RegInv argp.vars (calls.filter Call.isArg).length
    ∧ (∀ c ∈ calls, ∀ v p s n d, c = Call.opt v p s n d → s.length ≤ 1)
    ∧ ∀ pre post, calls = pre ++ post →
        ∃ a, register lib pre = some a ∧ RegInv a.vars (pre.filter Call.isArg).length := by
  unfold register at h ⊢
  rw [New_eq] at h
  dsimp only at h
  have h0 := runCalls_inv lib calls (.mk [helpVar] []) argp 0 RegInv_help h
  refine ⟨by simpa using h0.1, h0.2, ?_⟩
  intro pre post he
  subst he
  obtain ⟨m, hm, _⟩ := runCalls_append lib pre post _ _ h
  refine ⟨m, ?_, ?_⟩
  · rw [New_eq]
    exact hm
  · have := (runCalls_inv lib pre (.mk [helpVar] []) m 0 RegInv_help hm).1
    simpa using this

/-- C23 at a concrete input: the calls that register `argsCmd`, an `AddArg` and an
`AddRest`. -/
theorem C23_witness :
    register GoLib.basic [.arg (.str []) true ['s', 'r', 'c'] [],
        .rest (.slice .String []) true ['f', 'i', 'l', 'e', 's'] []] = some argsCmd
    ∧ RegInv argsCmd.vars 1
    ∧ (argsCmd.vars.filter (fun v => v.Index ≠ -1)).map (·.Index) = [0] :=
  have h : register GoLib.basic [.arg (.str []) true ['s', 'r', 'c'] [],
      .rest (.slice .String []) true ['f', 'i', 'l', 'e', 's'] []] = some argsCmd := rfl
  ⟨h, (C23_registration_invariant GoLib.basic _ argsCmd h).1, by decide⟩

/-! ## Lemmas: names and letter case -/

theorem ascii_table : ∀ n, n < 128 →
    (unicode_ToLower GoLib.basic (Char.ofNat n)).toNat ≤ 0x7F
    ∧ unicode_ToLower GoLib.basic (unicode_ToLower GoLib.basic (Char.ofNat n))
        = unicode_ToLower GoLib.basic (Char.ofNat n)
    ∧ ((unicode_IsLetter GoLib.basic (Char.ofNat n) || unicode_IsNumber GoLib.basic (Char.ofNat n)
          || decide (Char.ofNat n = '_') || decide (Char.ofNat n = '-')) = true →
        unicode_ToLower GoLib.basic (Char.ofNat n) ≠ '.'
          ∧ unicode_ToLower GoLib.basic (Char.ofNat n) ≠ '[') := by
  decide

theorem unicode_ToLower_ascii (lib : GoLib) (c : Char) (h : c.toNat ≤ 0x7F) :
    unicode_ToLower lib c = unicode_ToLower GoLib.basic c := by
  simp [unicode_ToLower, h]

theorem unicode_IsLetter_ascii (lib : GoLib) (c : Char) (h : c.toNat ≤ 0x7F) :
    unicode_IsLetter lib c = unicode_IsLetter GoLib.basic c := by
  simp [unicode_IsLetter, h]

theorem unicode_IsNumber_ascii (lib : GoLib) (c : Char) (h : c.toNat ≤ 0x7F) :
    unicode_IsNumber lib c = unicode_IsNumber GoLib.basic c := by
  simp [unicode_IsNumber, h]

theorem ascii_char (c : Char) (h : c.toNat ≤ 0x7F) : ∃ n, n < 128 ∧ c = Char.ofNat n :=
  ⟨c.toNat, by omega, (Char.ofNat_toNat c).symm⟩

theorem unicode_ToLower_idem (lib : GoLib)
    (hidem : ∀ c : Char, 0x7F < c.toNat → unicode_ToLower lib (lib.lowerCase c) = lib.lowerCase c)
    (c : Char) : unicode_ToLower lib (unicode_ToLower lib c) = unicode_ToLower lib c := by
  by_cases h : c.toNat ≤ 0x7F
  · obtain ⟨n, hn, rfl⟩ := ascii_char c h
    have := ascii_table n hn
    rw [unicode_ToLower_ascii lib _ h, unicode_ToLower_ascii lib _ this.1]
    exact this.2.1
  · have : unicode_ToLower lib c = lib.lowerCase c := by simp [unicode_ToLower, h]
    rw [this]
    exact hidem c (by omega)

theorem strings_ToLower_idem (lib : GoLib)
    (hidem : ∀ c : Char, 0x7F < c.toNat → unicode_ToLower lib (lib.lowerCase c) = lib.lowerCase c)
    (s : Str) : strings_ToLower lib (strings_ToLower lib s) = strings_ToLower lib s := by
  simp [strings_ToLower, List.map_map, Function.comp, unicode_ToLower_idem lib hidem]

theorem unicode_ToLower_valid (lib : GoLib)
    (hdot : ∀ c : Char, 0x7F < c.toNat → lib.lowerCase c ≠ '.' ∧ lib.lowerCase c ≠ '[')
    (c : Char)
    (hv : (unicode_IsLetter lib c || unicode_IsNumber lib c || decide (c = '_')
      || decide (c = '-')) = true) :
    unicode_ToLower lib c ≠ '.' ∧ unicode_ToLower lib c ≠ '[' := by
  by_cases h : c.toNat ≤ 0x7F
  · rw [unicode_IsLetter_ascii lib c h, unicode_IsNumber_ascii lib c h] at hv
    obtain ⟨n, hn, rfl⟩ := ascii_char c h
    rw [unicode_ToLower_ascii lib _ h]
    exact (ascii_table n hn).2.2 hv
  · have : unicode_ToLower lib c = lib.lowerCase c := by simp [unicode_ToLower, h]
    rw [this]
    exact hdot c (by omega)

theorem isValidNameFrom_chars (lib : GoLib) (s : Str) : ∀ first : Bool,
    isValidNameFrom lib first s = true →
    ∀ c ∈ s, (unicode_IsLetter lib c || unicode_IsNumber lib c || decide (c = '_')
      || decide (c = '-')) = true := by
  induction s with
  | nil => intro _ _ c hc; simp at hc
  | cons r rs ih =>
    intro first h c hc
    rw [isValidNameFrom] at h
    split at h
    · cases h
    · rename_i hr
      rw [List.mem_cons] at hc
      rcases hc with rfl | hc
      · revert hr
        cases unicode_IsLetter lib c <;> cases unicode_IsNumber lib c <;>
          by_cases h1 : c = '_' <;> by_cases h2 : c = '-' <;> simp [h1, h2]
      · exact ih false h c hc

theorem strings_IndexAny_none (s : Str) (h : ∀ c ∈ s, c ≠ '.' ∧ c ≠ '[') :
    strings_IndexAny_dotBracket s = none := by
  induction s with
  | nil => rfl
  | cons x xs ih =>
    have hx := h x (by simp)
    simp [strings_IndexAny_dotBracket, hx.1, hx.2, ih (fun c hc => h c (by simp [hc]))]

/-- After a look-up of a valid name that finds nothing, no variable has the lowercase
form of the name as its name. -/
theorem findName_valid_none (lib : GoLib)
    (hdot : ∀ c : Char, 0x7F < c.toNat → lib.lowerCase c ≠ '.' ∧ lib.lowerCase c ≠ '[')
    (vars : List Variable) (nm : Str) (hne : nm ≠ []) (hv : isValidName lib nm = true)
    (h : findName lib vars nm = none) : ∀ v ∈ vars, v.Name ≠ strings_ToLower lib nm := by
  have hidx : strings_IndexAny_dotBracket (strings_ToLower lib nm) = none := by
    apply strings_IndexAny_none
    intro c hc
    simp only [strings_ToLower, List.mem_map] at hc
    obtain ⟨d, hd, rfl⟩ := hc
    exact unicode_ToLower_valid lib hdot d (isValidNameFrom_chars lib nm true hv d hd)
  unfold findName at h
  rw [if_neg hne] at h
  simp only [hidx] at h
  intro v hv1 he
  have := findVar_eq_none h v hv1
  simp [he] at this


/-! ## Lemmas: the names of the registered variables -/

theorem AddArg_name {lib : GoLib} {argp argp1 : Argp} {v : Value} {isPtr : Bool}
    {name description : Str} (h : AddArg lib argp v isPtr name description = some argp1) :
    ∃ var : Variable, argp1 = .mk (argp.vars ++ [var]) argp.cmds
      ∧ var.IsOption = false ∧ var.Name = strings_ToLower lib name := by
  unfold AddArg at h
  split at h
  · cases h
  split at h
  · cases h
  cases h
  refine ⟨_, rfl, ?_, rfl⟩
  have hne : nextIndex argp.vars 0 ≠ -1 := by
    have := nextIndex_ge argp.vars 0
    omega
  simp [Variable.IsOption, Variable.IsArgument, hne]

theorem AddRest_name {lib : GoLib} {argp argp1 : Argp} {v : Value} {isPtr : Bool}
    {name description : Str} (h : AddRest lib argp v isPtr name description = some argp1) :
    ∃ var : Variable, argp1 = .mk (argp.vars ++ [var]) argp.cmds
      ∧ var.IsOption = false ∧ var.Name = strings_ToLower lib name := by
  unfold AddRest at h
  split at h
  · cases h
  split at h
  · cases h
  split at h
  · cases h
  cases h
  exact ⟨_, rfl, by simp [Variable.IsOption, Variable.IsArgument], rfl⟩

/-- Every call keeps the names in lower case, and keeps the name of every option different
from the names of the variables registered before it. -/
theorem runCalls_names (lib : GoLib)
    (hdot : ∀ c : Char, 0x7F < c.toNat → lib.lowerCase c ≠ '.' ∧ lib.lowerCase c ≠ '[')
    (hidem : ∀ c : Char, 0x7F < c.toNat → unicode_ToLower lib (lib.lowerCase c) = lib.lowerCase c)
    (calls : List Call) :
    ∀ (a0 a : Argp), (∀ v ∈ a0.vars, strings_ToLower lib v.Name = v.Name) →
      a0.vars.Pairwise (fun vi vj => vj.IsOption = true → vi.Name ≠ vj.Name) →
      runCalls lib a0 calls = some a →
      (∀ v ∈ a.vars, strings_ToLower lib v.Name = v.Name)
      ∧ a.vars.Pairwise (fun vi vj => vj.IsOption = true → vi.Name ≠ vj.Name) := by
  induction calls with
  | nil =>
    intro a0 a hl hp h
    simp only [runCalls, Option.some.injEq] at h
    subst h
    exact ⟨hl, hp⟩
  | cons c cs ih =>
    intro a0 a hl hp h
    simp only [runCalls] at h
    cases hc : c.run lib a0 with
    | none => simp [hc] at h
    | some a1 =>
      simp only [hc] at h
      have key : ∃ var : Variable, a1 = .mk (a0.vars ++ [var]) a0.cmds
          ∧ strings_ToLower lib var.Name = var.Name
          ∧ (var.IsOption = true → ∀ v ∈ a0.vars, v.Name ≠ var.Name) := by
        cases c with
        | opt v p s n d =>
          obtain ⟨var, he, _, _, _, _, hn, hne, hv, hf⟩ := AddOpt_some hc
          refine ⟨var, he, ?_, ?_⟩
          · rw [hn, strings_ToLower_idem lib hidem]
          · intro _
            rw [hn]
            exact findName_valid_none lib hdot a0.vars _ hne hv hf
        | arg v p n d =>
          obtain ⟨var, he, ho, hn⟩ := AddArg_name hc
          refine ⟨var, he, ?_, ?_⟩
          · rw [hn, strings_ToLower_idem lib hidem]
          · intro h1
            rw [ho] at h1
            cases h1
        | rest v p n d =>
          obtain ⟨var, he, ho, hn⟩ := AddRest_name hc
          refine ⟨var, he, ?_, ?_⟩
          · rw [hn, strings_ToLower_idem lib hidem]
          · intro h1
            rw [ho] at h1
            cases h1
      obtain ⟨var, rfl, hlow, hnew⟩ := key
      apply ih (.mk (a0.vars ++ [var]) a0.cmds) a _ _ h
      · intro v hv
        show strings_ToLower lib v.Name = v.Name
        have hv1 : v ∈ a0.vars ++ [var] := hv
        rw [List.mem_append, List.mem_singleton] at hv1
        rcases hv1 with hv1 | rfl
        · exact hl v hv1
        · exact hlow
      · show (a0.vars ++ [var]).Pairwise _
        rw [List.pairwise_append]
        refine ⟨hp, List.pairwise_singleton _ _, ?_⟩
        intro x hx y hy
        rw [List.mem_singleton] at hy
        subst hy
        intro ho
        exact hnew ho x hx

theorem lowerCase_basic_dot (c : Char) (h : 0x7F < c.toNat) :
    GoLib.basic.lowerCase c ≠ '.' ∧ GoLib.basic.lowerCase c ≠ '[' := by
  show c ≠ '.' ∧ c ≠ '['
  constructor <;>
  · rintro rfl
    revert h
    decide

theorem lowerCase_basic_idem (c : Char) (h : 0x7F < c.toNat) :
    unicode_ToLower GoLib.basic (GoLib.basic.lowerCase c) = GoLib.basic.lowerCase c := by
  show unicode_ToLower GoLib.basic c = c
  unfold unicode_ToLower
  rw [if_neg (by omega)]
  rfl

/-- C22, amended: for a command created with `New` and extended by any sequence of calls of
`AddOpt`, `AddArg` and `AddRest` that all succeed, every stored name is in lower case, and
no Option descriptor (one added by `New` or `AddOpt`) has a name equal, ignoring letter
case, to the name of a descriptor registered before it; in particular no two Option
descriptors have names equal ignoring letter case.  The case table of the library is
taken to be idempotent and never to give `.` or `[`. -/
theorem C22_option_names_distinct (lib : GoLib)
    (hdot : ∀ c : Char, 0x7F < c.toNat → lib.lowerCase c ≠ '.' ∧ lib.lowerCase c ≠ '[')
    (hidem : ∀ c : Char, 0x7F < c.toNat → unicode_ToLower lib (lib.lowerCase c) = lib.lowerCase c)
    (calls : List Call) (argp : Argp) (h : register lib calls = some argp) :
    (∀ v ∈ argp.vars, strings_ToLower lib v.Name = v.Name)
    ∧ (∀ (i j : Nat) (vi vj : Variable), i < j → argp.vars[i]? = some vi → argp.vars[j]? = some vj →
        vj.IsOption = true → strings_ToLower lib vi.Name ≠ strings_ToLower lib vj.Name)
    ∧ ∀ (i j : Nat) (vi vj : Variable), i ≠ j → argp.vars[i]? = some vi → argp.vars[j]? = some vj →
        vi.IsOption = true → vj.IsOption = true →
        strings_ToLower lib vi.Name ≠ strings_ToLower lib vj.Name := by
  unfold register at h
  rw [New_eq] at h
  dsimp only at h
  obtain ⟨hl, hp⟩ := runCalls_names lib hdot hidem calls (.mk [helpVar] []) argp
    (by
      intro v hv
      have hv1 : v ∈ [helpVar] := hv
      rw [List.mem_singleton] at hv1
      subst hv1
      show strings_ToLower lib ['h', 'e', 'l', 'p'] = ['h', 'e', 'l', 'p']
      simp [strings_ToLower, unicode_ToLower])
    (List.pairwise_singleton _ _) h
  have hlt : ∀ (i j : Nat) (vi vj : Variable), i < j → argp.vars[i]? = some vi → argp.vars[j]? = some vj →
      vj.IsOption = true → strings_ToLower lib vi.Name ≠ strings_ToLower lib vj.Name := by
    intro i j vi vj hij hi hj ho
    obtain ⟨hi1, hi2⟩ := List.getElem?_eq_some_iff.mp hi
    obtain ⟨hj1, hj2⟩ := List.getElem?_eq_some_iff.mp hj
    rw [hl vi (hi2 ▸ List.getElem_mem hi1), hl vj (hj2 ▸ List.getElem_mem hj1)]
    have := List.pairwise_iff_getElem.mp hp i j hi1 hj1 hij
    rw [hi2, hj2] at this
    exact this ho
  refine ⟨hl, hlt, ?_⟩
  intro i j vi vj hij hi hj hoi hoj
  rcases Nat.lt_or_gt_of_ne hij with hlt1 | hgt
  · exact hlt i j vi vj hlt1 hi hj hoj
  · exact fun e => hlt j i vj vi hgt hj hi hoi e.symm

/-- C22, amended, at a concrete input: an option `flag`, two positionals without a name, a
rest variable `files` and an option `c`. -/
theorem C22_witness :
    ∃ argp, register GoLib.basic [.opt (.bool false) true [] ['F', 'l', 'a', 'g'] [],
        .arg (.str []) true [] [], .arg (.str []) true [] [],
        .rest (.slice .String []) true ['f', 'i', 'l', 'e', 's'] [],
        .opt (.int 64 0) true ['c'] [] []] = some argp
      ∧ argp.vars.map (·.Name)
          = [['h', 'e', 'l', 'p'], ['f', 'l', 'a', 'g'], [], [], ['f', 'i', 'l', 'e', 's'], ['c']]
      ∧ argp.vars.map (·.IsOption) = [true, true, false, false, false, true]
      ∧ ∀ (i j : Nat) (vi vj : Variable), i < j → argp.vars[i]? = some vi → argp.vars[j]? = some vj →
          vj.IsOption = true →
          strings_ToLower GoLib.basic vi.Name ≠ strings_ToLower GoLib.basic vj.Name :=
  ⟨_, rfl, by decide, by decide,
    (C22_option_names_distinct GoLib.basic lowerCase_basic_dot lowerCase_basic_idem
      [.opt (.bool false) true [] ['F', 'l', 'a', 'g'] [],
        .arg (.str []) true [] [], .arg (.str []) true [] [],
        .rest (.slice .String []) true ['f', 'i', 'l', 'e', 's'] [],
        .opt (.int 64 0) true ['c'] [] []] _ rfl).2.1⟩

/-- C22 as stated fails: two calls of `AddArg` without a name, as in the tests, succeed and
leave two descriptors with the same, empty, name. -/
theorem C22_counterexample_unnamed_positionals :
    ∃ argp, register GoLib.basic [.arg (.str []) true [] [], .arg (.str []) true [] []]
        = some argp
      ∧ argp.vars.map (·.Name) = [['h', 'e', 'l', 'p'], [], []]
      ∧ ∃ vi vj, argp.vars[1]? = some vi ∧ argp.vars[2]? = some vj
          ∧ strings_ToLower GoLib.basic vi.Name = strings_ToLower GoLib.basic vj.Name :=
  ⟨_, rfl, by decide, _, _, rfl, rfl, by decide⟩

end GoArgp
